import Mathlib

/-!
# gigagrad: buffer table, driver generation and scalar-C backend lifecycle

A shallow embedding of `src/codegen.h` (FunctionBuilder, BufferDescriptor,
Program) and `src/backend_scalar_c.cpp` (Lower_ScalarC, GenerateMain,
CompileAndLoad, BackendScalarC) together with the properties proved about them.

Conventions of the embedding:
* `std::vector` is `List`, an index-based `for` loop is a recursion over the
  list that carries the running index;
* `size_t` values are `Nat`, `dim_t`/`int64_t`/`int` values are `Int`; the one
  place where the source multiplies machine integers, the product of a shape's
  extents, is reduced to 64 bits as the machine does (`shapeProduct`);
* an out-of-bounds `operator[]` (undefined behaviour in the source) makes the
  embedded operation return `none`;
* text written with `fprintf` is the `String` appended to the output file.
-/

namespace Gigagrad

/-! ## Shapes and tensors -/

/-- Modelled from the spec: the type `dim_t` of graph.h, a signed machine integer
(the source prints it with the signed size conversion). -/
abbrev dim_t := Int

/-- Modelled from the spec: the type `Shape` of graph.h, an ordered sequence of
dimension extents. Extents are natural numbers here (the spec gives no meaning to a
negative extent); each is read as a `dim_t` where the source multiplies them. -/
abbrev Shape := List Nat

/-- The result of a `dim_t` multiplication whose exact value is `x`: `dim_t` is 64 bits
wide and signed, and a product outside `[-2^63, 2^63)` comes out of the compiled
multiplication reduced modulo `2^64` into that range (two's complement). -/
def wrap_dim_t (x : Int) : dim_t :=
  (x + 9223372036854775808) % 18446744073709551616 - 9223372036854775808

/-- The conversion of a `dim_t` to `size_t` (64 bits, unsigned): the value modulo `2^64`. -/
def to_size_t (x : dim_t) : Nat :=
  (x % 18446744073709551616).toNat

/-- The fold `std::accumulate(shape.begin(), shape.end(), dim_t{1}, std::multiplies{})`
used by `FunctionBuilder::FunctionBuilder` and `Program::AddBuffer(const Tensor &)`,
together with the store of its `dim_t` result into a `size_t` (`output_size`, `size`). -/
def shapeProduct (shape : Shape) : Nat :=
  to_size_t (shape.foldl (fun (acc : dim_t) (d : Nat) => wrap_dim_t (acc * (d : Int))) 1)

/-- Modelled from the spec: a `const Tensor *` of graph.h. A tensor is identified by
its address; its (immutable) shape is read through the address. -/
abbrev TensorPtr := Nat

/-! ## Instructions (codegen.h) -/

/-- The enum `IntArithmeticInsn::Op`; each constructor stands for the character that
is its enumerator value. -/
inductive IntArithmeticOp
  | ADD | SUB | MUL | DIV | MOD
  deriving DecidableEq, Repr

/-- The enumerator value `(char)op`. -/
def IntArithmeticOp.toChar : IntArithmeticOp → Char
  | .ADD => '+'
  | .SUB => '-'
  | .MUL => '*'
  | .DIV => '/'
  | .MOD => '%'

/-- Modelled from the spec: the enum `UnaryOpType` of graph.h
(exp, log, sin, sqrt, cast, no-op). -/
inductive UnaryOpType
  | NOP | EXP | LOG | CAST | SIN | SQRT
  deriving DecidableEq, Repr

/-- Modelled from the spec: the enum `BinaryOpType` of graph.h
(add, sub, mul, div, pow, compare, max). -/
inductive BinaryOpType
  | ADD | SUB | MUL | DIV | POW | CMP | MAX
  deriving DecidableEq, Repr

/-- Modelled from the spec: the enum `ReduceOpType` of graph.h (sum, max). -/
inductive ReduceOpType
  | MAX | SUM
  deriving DecidableEq, Repr

/-- A value of the C type `float`: a signed binary fraction `mant * 2 ^ exp2`
(this covers the zeros, the subnormal and the normal numbers), an infinity or a NaN. -/
inductive FloatVal
  | finite (neg : Bool) (mant : Nat) (exp2 : Int)
  | inf (neg : Bool)
  | nan (neg : Bool)
  deriving DecidableEq, Repr

/-- The variant `Instruction`. -/
inductive Instruction
  | LoadIntImmediateInsn (value : Int)
  | IntArithmeticInsn (op : IntArithmeticOp) (x y : Nat)
  | BeginLoopInsn (range stride : dim_t)
  | EndLoopInsn
  | LoadInsn (input idx : Nat)
  | StoreInsn (offset value : Nat)
  | LoadImmediateInsn (value : FloatVal)
  | UnaryInsn (type : UnaryOpType) (x : Nat)
  | BinaryInsn (type : BinaryOpType) (x y : Nat)
  | AccumulateInsn (type : ReduceOpType) (accumulator x : Nat)
  deriving DecidableEq, Repr

/-! ## FunctionBuilder (codegen.h) -/

/-- The struct `FunctionBuilder`. -/
structure FunctionBuilder where
  insns : List Instruction
  inputs : List Nat
  output_size : Nat
  output_buffer : Nat
  deriving DecidableEq, Repr

namespace FunctionBuilder

/-- The constructor `FunctionBuilder(const Shape &)`. It leaves `output_buffer`
uninitialised; `uninit` is the value the field happens to hold. -/
def new (shape : Shape) (uninit : Nat) : FunctionBuilder :=
  { insns := [], inputs := [], output_size := shapeProduct shape, output_buffer := uninit }

/-- `emplace_back` on `insns` followed by `return insns.size() - 1`. -/
def pushInsn (fb : FunctionBuilder) (i : Instruction) : FunctionBuilder × Nat :=
  let fb1 := { fb with insns := fb.insns ++ [i] }
  (fb1, fb1.insns.length - 1)

def Loop (fb : FunctionBuilder) (range stride : dim_t) : FunctionBuilder × Nat :=
  fb.pushInsn (.BeginLoopInsn range stride)

def EndLoop (fb : FunctionBuilder) : FunctionBuilder × Nat :=
  fb.pushInsn .EndLoopInsn

def Input (fb : FunctionBuilder) (program_input_idx : Nat) : FunctionBuilder × Nat :=
  let fb1 := { fb with inputs := fb.inputs ++ [program_input_idx] }
  (fb1, fb1.inputs.length - 1)

def Load (fb : FunctionBuilder) (input_idx load_idx : Nat) : FunctionBuilder × Nat :=
  fb.pushInsn (.LoadInsn input_idx load_idx)

def Store (fb : FunctionBuilder) (offset value : Nat) : FunctionBuilder × Nat :=
  fb.pushInsn (.StoreInsn offset value)

def Immediate (fb : FunctionBuilder) (value : FloatVal) : FunctionBuilder × Nat :=
  fb.pushInsn (.LoadImmediateInsn value)

def IntImmediate (fb : FunctionBuilder) (value : Int) : FunctionBuilder × Nat :=
  fb.pushInsn (.LoadIntImmediateInsn value)

def Arithmetic (fb : FunctionBuilder) (x : Nat) (op : IntArithmeticOp) (y : Nat) :
    FunctionBuilder × Nat :=
  fb.pushInsn (.IntArithmeticInsn op x y)

def Unary (fb : FunctionBuilder) (type : UnaryOpType) (x : Nat) : FunctionBuilder × Nat :=
  fb.pushInsn (.UnaryInsn type x)

def Binary (fb : FunctionBuilder) (type : BinaryOpType) (x y : Nat) : FunctionBuilder × Nat :=
  fb.pushInsn (.BinaryInsn type x y)

def Accumulate (fb : FunctionBuilder) (type : ReduceOpType) (accumulator x : Nat) :
    FunctionBuilder × Nat :=
  fb.pushInsn (.AccumulateInsn type accumulator x)

end FunctionBuilder

/-- One call of a `FunctionBuilder` member function that changes the builder. -/
inductive BuilderCall
  | Loop (range stride : dim_t)
  | EndLoop
  | Input (program_input_idx : Nat)
  | Load (input_idx load_idx : Nat)
  | Store (offset value : Nat)
  | Immediate (value : FloatVal)
  | IntImmediate (value : Int)
  | Arithmetic (x : Nat) (op : IntArithmeticOp) (y : Nat)
  | Unary (type : UnaryOpType) (x : Nat)
  | Binary (type : BinaryOpType) (x y : Nat)
  | Accumulate (type : ReduceOpType) (accumulator x : Nat)
  deriving DecidableEq, Repr

/-- The builder after one member call, with the value the call returns. -/
def FunctionBuilder.call (fb : FunctionBuilder) : BuilderCall → FunctionBuilder × Nat
  | .Loop r s => fb.Loop r s
  | .EndLoop => fb.EndLoop
  | .Input b => fb.Input b
  | .Load i l => fb.Load i l
  | .Store o v => fb.Store o v
  | .Immediate v => fb.Immediate v
  | .IntImmediate v => fb.IntImmediate v
  | .Arithmetic x op y => fb.Arithmetic x op y
  | .Unary t x => fb.Unary t x
  | .Binary t x y => fb.Binary t x y
  | .Accumulate t a x => fb.Accumulate t a x

/-- A builder constructed for `shape` and then driven through `calls` in order. -/
def FunctionBuilder.build (shape : Shape) (uninit : Nat) (calls : List BuilderCall) :
    FunctionBuilder :=
  calls.foldl (fun fb c => (fb.call c).1) (FunctionBuilder.new shape uninit)

/-! ## BufferDescriptor and Program (codegen.h) -/

/-- The variant `std::variant<const Tensor *, size_t>` of `BufferDescriptor::id`:
either a tensor or a function index. Equality of variants compares the alternative
first, so a tensor never equals a function index. -/
inductive BufferId
  | tensor (t : TensorPtr)
  | fn (fn_idx : Nat)
  deriving DecidableEq, Repr

/-- The struct `BufferDescriptor`. -/
structure BufferDescriptor where
  id : BufferId
  size_elts : Nat
  deriving DecidableEq, Repr

/-- The struct `Program`. -/
structure Program where
  functions : List FunctionBuilder
  buffers : List BufferDescriptor
  deriving DecidableEq, Repr

namespace Program

/-- A default-constructed `Program`. -/
def empty : Program := { functions := [], buffers := [] }

def NumFunctions (p : Program) : Nat := p.functions.length

/-- The scan shared by both `AddBuffer` overloads:
`for (iinput = 0; iinput < buffers.size(); iinput++) if (buffers[iinput].id == id) return iinput;`
started at running index `iinput` over the rest of the table. -/
def scan (id : BufferId) : List BufferDescriptor → Nat → Option Nat
  | [], _ => none
  | d :: ds, iinput => if d.id = id then some iinput else scan id ds (iinput + 1)

/-- `Program::AddBuffer(const Tensor &t)`; `shapeOf` reads `t.shape` through the address. -/
def AddBufferTensor (shapeOf : TensorPtr → Shape) (p : Program) (t : TensorPtr) :
    Program × Nat :=
  match scan (.tensor t) p.buffers 0 with
  | some iinput => (p, iinput)
  | none =>
    let size := shapeProduct (shapeOf t)
    let p1 := { p with buffers := p.buffers ++ [{ id := .tensor t, size_elts := size }] }
    (p1, p1.buffers.length - 1)

/-- `Program::AddBuffer(const size_t fn_idx)`. Reading `functions[fn_idx]` past the end
is undefined in the source and gives `none`. -/
def AddBufferFn (p : Program) (fn_idx : Nat) : Option (Program × Nat) :=
  match scan (.fn fn_idx) p.buffers 0 with
  | some iinput => some (p, iinput)
  | none =>
    match p.functions[fn_idx]? with
    | none => none
    | some f =>
      let p1 := { p with buffers := p.buffers ++ [{ id := .fn fn_idx, size_elts := f.output_size }] }
      some (p1, p1.buffers.length - 1)

/-- The assignment `functions.back().output_buffer = v`. -/
def setBackOutput : List FunctionBuilder → Nat → List FunctionBuilder
  | [], _ => []
  | [f], v => [{ f with output_buffer := v }]
  | f :: g :: rest, v => f :: setBackOutput (g :: rest) v

/-- `Program::PushFunction(FunctionBuilder function)`. -/
def PushFunction (p : Program) (function : FunctionBuilder) : Option Program :=
  let p1 := { p with functions := p.functions ++ [function] }
  match AddBufferFn p1 (p1.functions.length - 1) with
  | none => none
  | some (p2, ob) => some { p2 with functions := setBackOutput p2.functions ob }

end Program

/-- One call of a `Program` member function that changes the program. -/
inductive ProgramCall
  | AddBufferTensor (t : TensorPtr)
  | AddBufferFn (fn_idx : Nat)
  | PushFunction (function : FunctionBuilder)
  deriving DecidableEq, Repr

/-- The program after one member call. -/
def Program.call (shapeOf : TensorPtr → Shape) (p : Program) : ProgramCall → Option Program
  | .AddBufferTensor t => some (p.AddBufferTensor shapeOf t).1
  | .AddBufferFn k => (p.AddBufferFn k).map (fun r => r.1)
  | .PushFunction f => p.PushFunction f

/-- The program after a sequence of member calls, in order. -/
def Program.run (shapeOf : TensorPtr → Shape) : Program → List ProgramCall → Option Program
  | p, [] => some p
  | p, c :: cs =>
    match p.call shapeOf c with
    | none => none
    | some q => Program.run shapeOf q cs

/-! ## Text emission (backend_scalar_c.cpp) -/

/-- The conversion `%*s` applied to a width and the one-character string `" "`:
the blank padded with blanks to the width (on the left; on the right for a negative
width), so at least one blank. -/
def indent (width : Int) : String :=
  String.mk (List.replicate (max width.natAbs 1) ' ')

/-- The conversions `%zu`, `%zd` and `PRIi64`. -/
def fmt_zu (n : Nat) : String := toString n

def fmt_zd (n : Int) : String := toString n

/-- Six decimal places of `k < 10 ^ 6`, with leading zeros. -/
def sixDigits (k : Nat) : String :=
  String.mk (List.replicate (6 - (toString k).length) '0') ++ toString k

/-- The conversion `%f` (precision 6): the exact value rounded to the nearest
multiple of `10 ^ (-6)`, ties to even, printed in fixed notation. -/
def fmt_f : FloatVal → String
  | .inf neg => (if neg then "-" else "") ++ "inf"
  | .nan neg => (if neg then "-" else "") ++ "nan"
  | .finite neg mant exp2 =>
    let num := mant * 10 ^ 6 * (if 0 ≤ exp2 then 2 ^ exp2.toNat else 1)
    let den := if 0 ≤ exp2 then 1 else 2 ^ (-exp2).toNat
    let q := num / den
    let r := num % den
    let n := if den < 2 * r ∨ (2 * r = den ∧ q % 2 = 1) then q + 1 else q
    (if neg then "-" else "") ++ toString (n / 10 ^ 6) ++ "." ++ sixDigits (n % 10 ^ 6)

/-- The struct `LowerCtx`; `file` is the text written to the file so far. -/
structure LowerCtx where
  pfx : String
  file : String
  indentation : Int
  deriving DecidableEq, Repr

/-- One `fprintf(ctx.file, ...)` whose expansion is `text`. -/
def LowerCtx.fprintf (ctx : LowerCtx) (text : String) : LowerCtx :=
  { ctx with file := ctx.file ++ text }

/-- The operator text chosen by `Lower_ScalarC(UnaryInsn)`. -/
def UnaryOpType.op_str : UnaryOpType → String
  | .EXP => "exp"
  | .LOG => "log"
  | .SIN => "sin"
  | .SQRT => "sqrtf"
  | _ => "INVALID"

/-- The overloads `Lower_ScalarC(LowerCtx &, const XInsn &, size_t iinsn, dtype)`, chosen
by `std::visit`. `cty` is the text `getCDatatype(dtype)`, a function of the absent
backend header. -/
def Lower_ScalarC_insn (cty : String) (ctx : LowerCtx) (insn : Instruction) (iinsn : Nat) :
    LowerCtx :=
  match insn with
  | .LoadIntImmediateInsn value =>
    ctx.fprintf (indent ctx.indentation ++ "int64_t v" ++ fmt_zu iinsn ++ " = " ++
      fmt_zd value ++ ";\n")
  | .IntArithmeticInsn op x y =>
    ctx.fprintf (indent ctx.indentation ++ "int64_t v" ++ fmt_zu iinsn ++ " = v" ++
      fmt_zu x ++ " " ++ String.singleton op.toChar ++ " v" ++ fmt_zu y ++ ";\n")
  | .BeginLoopInsn range _ =>
    let ctx1 := ctx.fprintf (indent ctx.indentation ++ "for(int64_t v" ++ fmt_zu iinsn ++
      " = 0; v" ++ fmt_zu iinsn ++ " < " ++ fmt_zd range ++ "; v" ++ fmt_zu iinsn ++
      "++)\n" ++ indent ctx.indentation ++ "\x7b\n")
    { ctx1 with indentation := ctx1.indentation + 4 }
  | .EndLoopInsn =>
    let ctx1 := { ctx with indentation := ctx.indentation - 4 }
    ctx1.fprintf (indent ctx1.indentation ++ "\x7d\n")
  | .LoadInsn input idx =>
    ctx.fprintf (indent ctx.indentation ++ cty ++ " v" ++ fmt_zu iinsn ++ " = i" ++
      fmt_zu input ++ "[v" ++ fmt_zu idx ++ "];\n")
  | .StoreInsn offset value =>
    ctx.fprintf (indent ctx.indentation ++ "output[v" ++ fmt_zu offset ++ "] = v" ++
      fmt_zu value ++ ";\n")
  | .LoadImmediateInsn value =>
    ctx.fprintf (indent ctx.indentation ++ cty ++ " v" ++ fmt_zu iinsn ++ " = " ++
      fmt_f value ++ ";\n")
  | .UnaryInsn type x =>
    ctx.fprintf (indent ctx.indentation ++ cty ++ " v" ++ fmt_zu iinsn ++ " = " ++
      type.op_str ++ "(v" ++ fmt_zu x ++ ");\n")
  | .BinaryInsn type x y =>
    if type = .ADD ∨ type = .SUB ∨ type = .MUL ∨ type = .DIV ∨ type = .CMP then
      let op_str := if type = .ADD then "+" else if type = .SUB then "-"
        else if type = .MUL then "*" else if type = .DIV then "/" else "=="
      ctx.fprintf (indent ctx.indentation ++ cty ++ " v" ++ fmt_zu iinsn ++ " = (" ++ cty ++
        ")(v" ++ fmt_zu x ++ " " ++ op_str ++ " v" ++ fmt_zu y ++ ");\n")
    else if type = .MAX then
      ctx.fprintf (indent ctx.indentation ++ cty ++ " v" ++ fmt_zu iinsn ++ " = v" ++
        fmt_zu x ++ " > v" ++ fmt_zu y ++ " ? v" ++ fmt_zu x ++ " : v" ++ fmt_zu y ++ ";\n")
    else
      ctx.fprintf (indent ctx.indentation ++ cty ++ " v" ++ fmt_zu iinsn ++ " = pow(v" ++
        fmt_zu x ++ ", v" ++ fmt_zu y ++ ");\n")
  | .AccumulateInsn type accumulator x =>
    if type = .MAX then
      ctx.fprintf (indent ctx.indentation ++ "v" ++ fmt_zu accumulator ++ " = v" ++
        fmt_zu accumulator ++ " > v" ++ fmt_zu x ++ " ? v" ++ fmt_zu accumulator ++ " : v" ++
        fmt_zu x ++ ";\n")
    else
      ctx.fprintf (indent ctx.indentation ++ "v" ++ fmt_zu accumulator ++ " += v" ++
        fmt_zu x ++ ";\n")

/-- The loop `for (i = 0; i < fn.insns.size(); i++) std::visit(..., fn.insns[i])`,
from running index `i` over the rest of the instructions. -/
def Lower_ScalarC_insns (cty : String) : List Instruction → Nat → LowerCtx → LowerCtx
  | [], _, ctx => ctx
  | insn :: rest, i, ctx => Lower_ScalarC_insns cty rest (i + 1) (Lower_ScalarC_insn cty ctx insn i)

/-- The loop `for (i = 0; i < fn.inputs.size(); i++) fprintf("    const %s *i%zu,\n", ...)`,
from running index `i` over the rest of the inputs. -/
def Lower_ScalarC_params (cty : String) : List Nat → Nat → LowerCtx → LowerCtx
  | [], _, ctx => ctx
  | _ :: rest, i, ctx =>
    Lower_ScalarC_params cty rest (i + 1) (ctx.fprintf ("    const " ++ cty ++ " *i" ++ fmt_zu i ++ ",\n"))

/-- The overload `Lower_ScalarC(LowerCtx &, const FunctionBuilder &fn, size_t ifn, dtype)`. -/
def Lower_ScalarC_fn (cty : String) (ctx : LowerCtx) (fn : FunctionBuilder) (ifn : Nat) :
    LowerCtx :=
  let ctx1 := ctx.fprintf ("static void " ++ ctx.pfx ++ "_" ++ fmt_zu ifn ++ "(\n")
  let ctx2 := Lower_ScalarC_params cty fn.inputs 0 ctx1
  let ctx3 := ctx2.fprintf ("    " ++ cty ++ " *output)\n\x7b\n")
  let ctx4 := { ctx3 with indentation := 4 }
  let ctx5 := Lower_ScalarC_insns cty fn.insns 0 ctx4
  ctx5.fprintf "\x7d\n\n"

/-- The loop `for (iinput ...) fprintf("        buffers[%zu],\n", fn.inputs[iinput])`. -/
def GenerateMain_inputs : List Nat → LowerCtx → LowerCtx
  | [], ctx => ctx
  | b :: rest, ctx => GenerateMain_inputs rest (ctx.fprintf ("        buffers[" ++ fmt_zu b ++ "],\n"))

/-- The loop `for (ifn = 0; ifn < program.functions.size(); ifn++)` of `GenerateMain`,
from running index `ifn` over the rest of the functions. -/
def GenerateMain_calls : List FunctionBuilder → Nat → LowerCtx → LowerCtx
  | [], _, ctx => ctx
  | fn :: rest, ifn, ctx =>
    let ctx1 := ctx.fprintf ("    " ++ ctx.pfx ++ "_" ++ fmt_zu ifn ++ "(\n")
    let ctx2 := GenerateMain_inputs fn.inputs ctx1
    let ctx3 := ctx2.fprintf ("        buffers[" ++ fmt_zu fn.output_buffer ++ "]);\n\n")
    GenerateMain_calls rest (ifn + 1) ctx3

/-- The function `GenerateMain(const Program &, LowerCtx &)`. -/
def GenerateMain (program : Program) (ctx : LowerCtx) : LowerCtx :=
  let ctx1 := ctx.fprintf "void gigagrad_main(void **buffers)\n\x7b\n"
  let ctx2 := ctx1.fprintf "#if __linux__\n"
  let ctx3 := ctx2.fprintf "    feenableexcept(FE_DIVBYZERO | FE_INVALID | FE_OVERFLOW);\n"
  let ctx4 := ctx3.fprintf "#endif\n"
  let ctx5 := GenerateMain_calls program.functions 0 ctx4
  ctx5.fprintf "\x7d\n"

/-- The loop `for (ifn ...) ::Lower_ScalarC(ctx, program.functions[ifn], ifn, dtype)`. -/
def Lower_ScalarC_fns (cty : String) : List FunctionBuilder → Nat → LowerCtx → LowerCtx
  | [], _, ctx => ctx
  | fn :: rest, ifn, ctx => Lower_ScalarC_fns cty rest (ifn + 1) (Lower_ScalarC_fn cty ctx fn ifn)

/-- The text that `Lower_ScalarC(const char *prefix, const Program &, dtype)` has written
to the source file when it closes it. -/
def Lower_ScalarC_source (pfx : String) (program : Program) (cty : String) : String :=
  let ctx : LowerCtx := { pfx := pfx, file := "", indentation := 0 }
  let ctx1 := ctx.fprintf "#define _GNU_SOURCE\n#include <fenv.h>\n"
  let ctx2 := ctx1.fprintf "#include <stdint.h>\n#include <math.h>\n\n"
  let ctx3 := Lower_ScalarC_fns cty program.functions 0 ctx2
  (GenerateMain program ctx3).file

/-! ## Compiling and loading the module (backend_scalar_c.cpp) -/

/-- What the C library, the native compiler and the dynamic loader answer during
one compile attempt. A pointer result is `none` when it is null. -/
structure Toolchain where
  /-- The value of `errno` when `fopen` returns null, `none` when it opens the file. -/
  fopen_errno : Option Nat
  /-- The value `std::system(command)` returns: the outcome of the `cc` run. -/
  system_status : Int
  /-- The result of `dlopen(obj_path, RTLD_NOW | RTLD_LOCAL)`. -/
  dlopen_handle : Option Nat
  /-- The message `dlerror()` gives after a failed `dlopen`. -/
  dlopen_error : String
  /-- The result of `dlsym(handle, symbol)`. -/
  dlsym : Nat → String → Option Nat
  /-- The result of `dlerror()` after the lookup. -/
  dlsym_error : Option String

/-- The exceptions the backend throws. -/
inductive CompileError
  | runtime_error (what : String)
  | system_error (errno : Nat)
  deriving DecidableEq, Repr

/-- The function `CompileAndLoad(source_path)`; the pair is `(main_fn, handle)`.
The value of `std::system` is computed and dropped, as in the source. -/
def CompileAndLoad (env : Toolchain) : Except CompileError (Nat × Nat) :=
  let _ := env.system_status
  match env.dlopen_handle with
  | none => .error (.runtime_error env.dlopen_error)
  | some handle =>
    match env.dlsym handle "gigagrad_main" with
    | none =>
      match env.dlsym_error with
      | none => .error (.runtime_error "Symbol gigagrad_main is NULL, which is unexpected")
      | some err => .error (.runtime_error err)
    | some main_fn => .ok (main_fn, handle)

/-- The function `Lower_ScalarC(const char *prefix, const Program &, dtype)`: it opens
the source file, writes the text `Lower_ScalarC_source` to it, closes it, and
compiles and loads it. -/
def Lower_ScalarC (env : Toolchain) (pfx : String) (program : Program) (cty : String) :
    Except CompileError (Nat × Nat) :=
  match env.fopen_errno with
  | some errno => .error (.system_error errno)
  | none =>
    let _ := Lower_ScalarC_source pfx program cty
    CompileAndLoad env

/-! ## The backend object and its buffers (backend_scalar_c.cpp) -/

/-- A `void *` held in the runtime buffer array: storage owned by the caller, or an
array obtained from `new float[n]`, named by the serial number of the allocation. -/
inductive Ptr
  | external (addr : Nat)
  | scratch (serial : Nat)
  deriving DecidableEq, Repr

/-- The class `BackendScalarC`. -/
structure BackendScalarC where
  program : Program
  buffers : List Ptr
  eval_fn : Nat
  handle : Nat
  deriving DecidableEq, Repr

/-- The backend object together with what it acts on: the data slot of every tensor
(`tensor.data()`, set by the caller), the allocator, and a record of the calls of
`new float[n]` (loop index, pointer, element count), of `delete[]` (loop index,
pointer) and of `dlclose`. -/
structure World where
  backend : BackendScalarC
  data : TensorPtr → Ptr
  nextSerial : Nat
  allocs : List (Nat × Ptr × Nat)
  frees : List (Nat × Ptr)
  closed : List Nat

/-- `BackendScalarC::LowerProgram(Program &&)`; `cty` is the text
`getCDatatype(NumericDataType::FLOAT32)`. -/
def BackendScalarC.LowerProgram (env : Toolchain) (cty : String) (be : BackendScalarC)
    (program : Program) : Except CompileError BackendScalarC :=
  let be1 := { be with program := program }
  match Lower_ScalarC env "gg_scalar" be1.program cty with
  | .error e => .error e
  | .ok (eval_fn, handle) => .ok { be1 with eval_fn := eval_fn, handle := handle }

/-- The loop of `BackendScalarC::InitBuffers`, from running index `ibuff` over the
rest of the descriptors. -/
def InitBuffers_loop : List BufferDescriptor → Nat → World → World
  | [], _, w => w
  | desc :: rest, ibuff, w =>
    match desc.id with
    | .tensor t =>
      InitBuffers_loop rest (ibuff + 1)
        { w with backend := { w.backend with buffers := w.backend.buffers ++ [w.data t] } }
    | .fn _ =>
      let intermediate_buf := Ptr.scratch w.nextSerial
      InitBuffers_loop rest (ibuff + 1)
        { w with
          backend := { w.backend with buffers := w.backend.buffers ++ [intermediate_buf] }
          nextSerial := w.nextSerial + 1
          allocs := w.allocs ++ [(ibuff, intermediate_buf, desc.size_elts)] }

/-- `BackendScalarC::InitBuffers()`. `functions.back()` of an empty list and an index
past the end of `buffers` are undefined in the source and give `none`. -/
def World.InitBuffers (w : World) : Option (World × Ptr) :=
  let w1 := InitBuffers_loop w.backend.program.buffers 0 w
  match w1.backend.program.functions.getLast? with
  | none => none
  | some fn =>
    match w1.backend.buffers[fn.output_buffer]? with
    | none => none
    | some p => some (w1, p)

/-- The loop of `BackendScalarC::Execute`, from running index `ibuff` over the rest of
the descriptors; the assignment `buffers[ibuff] = ...` past the end gives `none`. -/
def Execute_loop (data : TensorPtr → Ptr) : List BufferDescriptor → Nat → List Ptr →
    Option (List Ptr)
  | [], _, buffers => some buffers
  | desc :: rest, ibuff, buffers =>
    match desc.id with
    | .tensor t =>
      if ibuff < buffers.length then Execute_loop data rest (ibuff + 1) (buffers.set ibuff (data t))
      else none
    | .fn _ => Execute_loop data rest (ibuff + 1) buffers

/-- The runtime buffer array that `BackendScalarC::Execute()` hands to `eval_fn`. -/
def World.Execute_args (w : World) : Option (List Ptr) :=
  Execute_loop w.data w.backend.program.buffers 0 w.backend.buffers

/-- `BackendScalarC::Execute()`. The entry routine reads the pointer array and
leaves it as it is (see `GenerateMain`); the contents of the storage are not part
of `World`. -/
def World.Execute (w : World) : Option World :=
  match w.Execute_args with
  | none => none
  | some buffers => some { w with backend := { w.backend with buffers := buffers } }

/-- The loop of `BackendScalarC::~BackendScalarC`, from running index `ibuff` over the
rest of the descriptors; reading `buffers[ibuff]` past the end gives `none`. -/
def Teardown_loop : List BufferDescriptor → Nat → World → Option World
  | [], _, w => some w
  | desc :: rest, ibuff, w =>
    match desc.id with
    | .tensor _ => Teardown_loop rest (ibuff + 1) w
    | .fn _ =>
      match w.backend.buffers[ibuff]? with
      | none => none
      | some p => Teardown_loop rest (ibuff + 1) { w with frees := w.frees ++ [(ibuff, p)] }

/-- `BackendScalarC::~BackendScalarC()`. -/
def World.Teardown (w : World) : Option World :=
  Teardown_loop w.backend.program.buffers 0 { w with closed := w.closed ++ [w.backend.handle] }

/-- What happens to a backend between `LowerProgram` and its destruction: a call of
`InitBuffers`, a call of `Execute`, or the caller binding a tensor's data slot. -/
inductive BackendCall
  | InitBuffers
  | Execute
  | Rebind (t : TensorPtr) (p : Ptr)
  deriving DecidableEq, Repr

def BackendCall.isInitBuffers : BackendCall → Bool
  | .InitBuffers => true
  | _ => false

def World.call (w : World) : BackendCall → Option World
  | .InitBuffers => w.InitBuffers.map (fun r => r.1)
  | .Execute => w.Execute
  | .Rebind t p => some { w with data := fun u => if u = t then p else w.data u }

def World.run : World → List BackendCall → Option World
  | w, [] => some w
  | w, c :: cs =>
    match w.call c with
    | none => none
    | some w1 => World.run w1 cs

/-- The world right after a successful `LowerProgram`: the backend holds `program`
and the loaded module, its buffer array is empty, nothing is allocated or freed. -/
def World.lowered (program : Program) (eval_fn handle : Nat) (data : TensorPtr → Ptr)
    (nextSerial : Nat) : World :=
  { backend := { program := program, buffers := [], eval_fn := eval_fn, handle := handle }
    data := data
    nextSerial := nextSerial
    allocs := []
    frees := []
    closed := [] }

/-! ## Reading the emitted text -/

/-- A statement `callee(buffers[a0], ..., buffers[an]);` of the driver. -/
structure CallStmt where
  callee : String
  args : List Nat
  deriving DecidableEq, Repr

/-- Argument lines `buffers[a]`, one per line, separated by commas. -/
def CallStmt.argLines : List Nat → String
  | [] => ""
  | [a] => "        buffers[" ++ fmt_zu a ++ "]"
  | a :: b :: rest => "        buffers[" ++ fmt_zu a ++ "],\n" ++ CallStmt.argLines (b :: rest)

/-- The text of a call statement. -/
def CallStmt.text (c : CallStmt) : String :=
  "    " ++ c.callee ++ "(\n" ++ CallStmt.argLines c.args ++ ");\n\n"

/-- The texts of a list of statements, one after the other. -/
def CallStmt.texts : List CallStmt → String
  | [] => ""
  | c :: cs => c.text ++ CallStmt.texts cs

/-- The text of a driver routine `gigagrad_main` whose body enables the
floating-point traps (on Linux) and then makes `calls` in order. -/
def driverText (calls : List CallStmt) : String :=
  "void gigagrad_main(void **buffers)\n\x7b\n" ++
  "#if __linux__\n" ++
  "    feenableexcept(FE_DIVBYZERO | FE_INVALID | FE_OVERFLOW);\n" ++
  "#endif\n" ++
  CallStmt.texts calls ++ "\x7d\n"

/-- The name of a parameter of an emitted routine. -/
inductive ParamName
  | input (j : Nat)
  | output
  deriving DecidableEq, Repr

def ParamName.text : ParamName → String
  | .input j => "i" ++ fmt_zu j
  | .output => "output"

/-- A parameter declaration `ctype name`. -/
structure ParamDecl where
  ctype : String
  name : ParamName
  deriving DecidableEq, Repr

/-- Parameter lines, one per line, separated by commas. -/
def ParamDecl.lines : List ParamDecl → String
  | [] => ""
  | [a] => "    " ++ a.ctype ++ a.name.text
  | a :: b :: rest => "    " ++ a.ctype ++ a.name.text ++ ",\n" ++ ParamDecl.lines (b :: rest)

/-- A routine definition `static void name(params) { body }`. -/
structure RoutineDef where
  name : String
  params : List ParamDecl
  body : String
  deriving DecidableEq, Repr

def RoutineDef.text (r : RoutineDef) : String :=
  "static void " ++ r.name ++ "(\n" ++ ParamDecl.lines r.params ++ ")\n\x7b\n" ++ r.body ++
  "\x7d\n\n"

/-- The parameters that a routine emitted for `fn` declares. -/
def routineParams (cty : String) (fn : FunctionBuilder) : List ParamDecl :=
  (List.range fn.inputs.length).map (fun j => ⟨"const " ++ cty ++ " *", .input j⟩) ++
    [⟨cty ++ " *", .output⟩]

/-- The call of the C language binds the parameters to the arguments by position;
`bindArgs` lists, for every parameter name as it is spelled in the text, the
buffer slot `a` whose pointer `buffers[a]` it receives. -/
def bindArgs (params : List ParamDecl) (args : List Nat) : List (String × Nat) :=
  List.zip (params.map (fun d => d.name.text)) args

/-- The buffer slot that the identifier `name` denotes inside the routine. -/
def slotOf (bindings : List (String × Nat)) (name : String) : Option Nat :=
  bindings.lookup name

/-- The calls that the driver of a program makes: for the function at position `ifn`
(counted on from the running index), the routine `pfx_ifn` on the function's inputs
followed by its output buffer. -/
def driverCalls (pfx : String) : List FunctionBuilder → Nat → List CallStmt
  | [], _ => []
  | fn :: rest, ifn =>
    { callee := pfx ++ "_" ++ fmt_zu ifn, args := fn.inputs ++ [fn.output_buffer] } ::
      driverCalls pfx rest (ifn + 1)

/-- The text that the instruction loop of `Lower_ScalarC` writes for `fn`: the body
of the routine, at the indentation `4` the routine sets. -/
def routineBody (cty pfx : String) (fn : FunctionBuilder) : String :=
  (Lower_ScalarC_insns cty fn.insns 0 { pfx := pfx, file := "", indentation := 4 }).file

/-- The routine definitions of a program: for the function at position `ifn` (counted
on from the running index), the routine `pfx_ifn` with the parameters of the function. -/
def routineDefs (cty pfx : String) : List FunctionBuilder → Nat → List RoutineDef
  | [], _ => []
  | fn :: rest, ifn =>
    { name := pfx ++ "_" ++ fmt_zu ifn, params := routineParams cty fn,
      body := routineBody cty pfx fn } :: routineDefs cty pfx rest (ifn + 1)

/-- The texts of a list of routine definitions, one after the other. -/
def RoutineDef.texts : List RoutineDef → String
  | [] => ""
  | r :: rs => r.text ++ RoutineDef.texts rs

/-- The ctx with `text` put in front of what its file holds. -/
def LowerCtx.prepend (text : String) (ctx : LowerCtx) : LowerCtx :=
  { ctx with file := text ++ ctx.file }

/-! ## Reading the buffer loops -/

/-- The number of function-output descriptors in a table. -/
def fnCount : List BufferDescriptor → Nat
  | [] => 0
  | desc :: rest =>
    match desc.id with
    | .tensor _ => fnCount rest
    | .fn _ => fnCount rest + 1

/-- The slots of the function-output descriptors of a table, in increasing order,
counted on from `ibuff`. -/
def fnSlots : List BufferDescriptor → Nat → List Nat
  | [], _ => []
  | desc :: rest, ibuff =>
    match desc.id with
    | .tensor _ => fnSlots rest (ibuff + 1)
    | .fn _ => ibuff :: fnSlots rest (ibuff + 1)

/-- The pointers one pass of the `InitBuffers` loop appends, when the allocator is at
`serial`. -/
def initPtrs (data : TensorPtr → Ptr) : List BufferDescriptor → Nat → List Ptr
  | [], _ => []
  | desc :: rest, serial =>
    match desc.id with
    | .tensor t => data t :: initPtrs data rest serial
    | .fn _ => Ptr.scratch serial :: initPtrs data rest (serial + 1)

/-- The allocations one pass of the `InitBuffers` loop records. -/
def initAllocs : List BufferDescriptor → Nat → Nat → List (Nat × Ptr × Nat)
  | [], _, _ => []
  | desc :: rest, ibuff, serial =>
    match desc.id with
    | .tensor _ => initAllocs rest (ibuff + 1) serial
    | .fn _ => (ibuff, Ptr.scratch serial, desc.size_elts) :: initAllocs rest (ibuff + 1) (serial + 1)

/-! ## Invariants -/

/-- The identities of the table, in slot order. -/
def Program.ids (p : Program) : List BufferId := p.buffers.map (fun d => d.id)

/-- The well-formedness that every `Program` member call maintains. -/
structure Program.Inv (shapeOf : TensorPtr → Shape) (p : Program) : Prop where
  nodup : p.ids.Nodup
  sized : ∀ d ∈ p.buffers, ∀ t : TensorPtr,
    d.id = .tensor t → d.size_elts = shapeProduct (shapeOf t)
  fnBound : ∀ d ∈ p.buffers, ∀ k : Nat, d.id = .fn k → k < p.functions.length
  outputs : ∀ (k : Nat) (f : FunctionBuilder), p.functions[k]? = some f →
    ∃ d : BufferDescriptor,
      p.buffers[f.output_buffer]? = some d ∧ d.id = .fn k ∧ d.size_elts = f.output_size

/-- What holds of the backend from `LowerProgram` on, whatever is called in whatever
order: the program stays, the buffer array is empty or covers the table, every
recorded allocation was made for a function-output descriptor, and the pointer in a
function-output slot is an allocation recorded for that slot. -/
structure World.Inv (prog : Program) (w : World) : Prop where
  program : w.backend.program = prog
  len : w.backend.buffers = [] ∨ prog.buffers.length ≤ w.backend.buffers.length
  allocFn : ∀ a ∈ w.allocs, ∃ (d : BufferDescriptor) (k r : Nat),
    prog.buffers[a.1]? = some d ∧ d.id = .fn k ∧ a.2.1 = Ptr.scratch r ∧ a.2.2 = d.size_elts
  owned : ∀ (i : Nat) (d : BufferDescriptor) (k : Nat) (p : Ptr),
    prog.buffers[i]? = some d → d.id = .fn k → w.backend.buffers[i]? = some p →
    (i, p, d.size_elts) ∈ w.allocs
  frees : w.frees = []

/-! ## Reading an emitted statement -/

/-- An identifier of the emitted C text: a value `v<k>` or a routine parameter. -/
inductive CIdent
  | v (k : Nat)
  | param (p : ParamName)
  deriving DecidableEq, Repr

def CIdent.text : CIdent → String
  | .v k => "v" ++ fmt_zu k
  | .param p => p.text

/-- The expressions that occur in the emitted statements. -/
inductive CExpr
  /-- An identifier. -/
  | ident (x : CIdent)
  /-- A numeric literal, as spelled. -/
  | literal (text : String)
  /-- The operator `op` between two operands: `l op r`. -/
  | binary (op : String) (l r : CExpr)
  /-- A parenthesised expression converted to a type: `(ty)(e)`. -/
  | cast (ty : String) (e : CExpr)
  /-- A call with one argument: `fn(a)`. -/
  | call1 (fn : String) (a : CExpr)
  /-- A call with two arguments: `fn(a, b)`. -/
  | call2 (fn : String) (a b : CExpr)
  /-- The conditional expression `c ? t : e`. -/
  | cond (c t e : CExpr)
  /-- An element of an array: `base[i]`. -/
  | index (base : CIdent) (i : CExpr)
  deriving DecidableEq, Repr

def CExpr.text : CExpr → String
  | .ident x => x.text
  | .literal t => t
  | .binary op l r => l.text ++ " " ++ op ++ " " ++ r.text
  | .cast ty e => "(" ++ ty ++ ")(" ++ e.text ++ ")"
  | .call1 fn a => fn ++ "(" ++ a.text ++ ")"
  | .call2 fn a b => fn ++ "(" ++ a.text ++ ", " ++ b.text ++ ")"
  | .cond c t e => c.text ++ " ? " ++ t.text ++ " : " ++ e.text
  | .index base i => base.text ++ "[" ++ i.text ++ "]"

/-- The identifiers an expression uses. -/
def CExpr.uses : CExpr → List CIdent
  | .ident x => [x]
  | .literal _ => []
  | .binary _ l r => l.uses ++ r.uses
  | .cast _ e => e.uses
  | .call1 _ a => a.uses
  | .call2 _ a b => a.uses ++ b.uses
  | .cond c t e => c.uses ++ t.uses ++ e.uses
  | .index base i => base :: i.uses

/-- The statements of an emitted routine body. -/
inductive CStmt
  /-- A declaration with initialiser: `ty v<k> = init;`. -/
  | decl (ty : String) (k : Nat) (init : CExpr)
  /-- An assignment `lhs op rhs;` with `op` one of `=` and `+=`; it declares nothing. -/
  | assign (lhs : CExpr) (op : String) (rhs : CExpr)
  /-- The head of a loop and the brace that opens its block:
  `for(int64_t v<k> = 0; v<k> < bound; v<k>++)` and, on the next line, the brace. -/
  | forOpen (k : Nat) (bound : String)
  /-- The brace that closes a block. -/
  | blockClose
  deriving DecidableEq, Repr

/-- The text of a statement written at indentation `w`. -/
def CStmt.text (w : Int) : CStmt → String
  | .decl ty k init =>
    indent w ++ ty ++ " " ++ (CIdent.v k).text ++ " = " ++ init.text ++ ";\n"
  | .assign lhs op rhs =>
    indent w ++ lhs.text ++ " " ++ op ++ " " ++ rhs.text ++ ";\n"
  | .forOpen k bound =>
    indent w ++ "for(int64_t " ++ (CIdent.v k).text ++ " = 0; " ++ (CIdent.v k).text ++
      " < " ++ bound ++ "; " ++ (CIdent.v k).text ++ "++)\n" ++ indent w ++ "\x7b\n"
  | .blockClose => indent w ++ "\x7d\n"

/-- The texts of a list of statements; the block of a loop is written four columns
further in, and the closing brace at the column of the loop head. -/
def CStmt.texts : Int → List CStmt → String
  | _, [] => ""
  | w, .forOpen k bound :: rest => (CStmt.forOpen k bound).text w ++ CStmt.texts (w + 4) rest
  | w, .blockClose :: rest => CStmt.blockClose.text (w - 4) ++ CStmt.texts (w - 4) rest
  | w, s :: rest => s.text w ++ CStmt.texts w rest

/-- The operator text that `Lower_ScalarC(BinaryInsn)` puts between the operands of the
five infix operations. -/
def BinaryOpType.infixText : BinaryOpType → String
  | .ADD => "+"
  | .SUB => "-"
  | .MUL => "*"
  | .DIV => "/"
  | _ => "=="

/-- The statement that the text emitted for an instruction at position `i` spells. -/
def stmtOf (cty : String) (insn : Instruction) (i : Nat) : CStmt :=
  match insn with
  | .LoadIntImmediateInsn value => .decl "int64_t" i (.literal (fmt_zd value))
  | .IntArithmeticInsn op x y =>
    .decl "int64_t" i (.binary (String.singleton op.toChar) (.ident (.v x)) (.ident (.v y)))
  | .BeginLoopInsn range _ => .forOpen i (fmt_zd range)
  | .EndLoopInsn => .blockClose
  | .LoadInsn input idx => .decl cty i (.index (.param (.input input)) (.ident (.v idx)))
  | .StoreInsn offset value =>
    .assign (.index (.param .output) (.ident (.v offset))) "=" (.ident (.v value))
  | .LoadImmediateInsn value => .decl cty i (.literal (fmt_f value))
  | .UnaryInsn type x => .decl cty i (.call1 type.op_str (.ident (.v x)))
  | .BinaryInsn type x y =>
    match type with
    | .MAX =>
      .decl cty i (.cond (.binary ">" (.ident (.v x)) (.ident (.v y)))
        (.ident (.v x)) (.ident (.v y)))
    | .POW => .decl cty i (.call2 "pow" (.ident (.v x)) (.ident (.v y)))
    | t => .decl cty i (.cast cty (.binary t.infixText (.ident (.v x)) (.ident (.v y))))
  | .AccumulateInsn type accumulator x =>
    match type with
    | .MAX =>
      .assign (.ident (.v accumulator)) "="
        (.cond (.binary ">" (.ident (.v accumulator)) (.ident (.v x)))
          (.ident (.v accumulator)) (.ident (.v x)))
    | .SUM => .assign (.ident (.v accumulator)) "+=" (.ident (.v x))

/-- The statements spelled for a list of instructions, from running position `i`. -/
def stmtsOf (cty : String) : List Instruction → Nat → List CStmt
  | [], _ => []
  | insn :: rest, i => stmtOf cty insn i :: stmtsOf cty rest (i + 1)

/-- The indentation in force after a statement written at indentation `w`. -/
def CStmt.indentAfter (w : Int) : CStmt → Int
  | .forOpen _ _ => w + 4
  | .blockClose => w - 4
  | _ => w

/-! ## Scopes of positions and of identifiers -/

/-- The positions an instruction names as operands (`v<k>` in its text). -/
def Instruction.operands : Instruction → List Nat
  | .LoadIntImmediateInsn _ => []
  | .IntArithmeticInsn _ x y => [x, y]
  | .BeginLoopInsn _ _ => []
  | .EndLoopInsn => []
  | .LoadInsn _ idx => [idx]
  | .StoreInsn offset value => [offset, value]
  | .LoadImmediateInsn _ => []
  | .UnaryInsn _ x => [x]
  | .BinaryInsn _ x y => [x, y]
  | .AccumulateInsn _ accumulator x => [accumulator, x]

/-- Whether the instruction yields a value, that is, whether its text introduces the
variable `v<i>` of its position: every instruction but `EndLoopInsn`, `StoreInsn` and
`AccumulateInsn`. -/
def Instruction.yieldsValue : Instruction → Bool
  | .EndLoopInsn => false
  | .StoreInsn _ _ => false
  | .AccumulateInsn _ _ _ => false
  | _ => true

/-- Whether a `LoadInsn` names one of the `m` declared inputs. -/
def Instruction.inputDeclared (m : Nat) : Instruction → Bool
  | .LoadInsn input _ => decide (input < m)
  | _ => true

/-- Adds an entry to the innermost of a stack of scopes. -/
def pushInner {α : Type} (x : α) : List (List α) → List (List α)
  | [] => [[x]]
  | f :: fs => (x :: f) :: fs

/-- The loop scopes open after the instruction at position `i`, given those open before
it (innermost first, the function's own scope last); each scope lists the positions
recorded in it. A `BeginLoopInsn` opens a scope that holds its own position, an
`EndLoopInsn` closes the innermost loop scope and is `none` when no loop is open.
With `everyPosition` every position is recorded, otherwise only the positions of
instructions that yield a value. -/
def scopesAfter (everyPosition : Bool) (scopes : List (List Nat)) (insn : Instruction)
    (i : Nat) : Option (List (List Nat)) :=
  match insn with
  | .BeginLoopInsn _ _ => some ([i] :: scopes)
  | .EndLoopInsn =>
    match scopes with
    | _ :: f :: fs => some (if everyPosition then (i :: f) :: fs else f :: fs)
    | _ => none
  | other => some (if everyPosition || other.yieldsValue then pushInner i scopes else scopes)

/-- The condition on an instruction sequence (from running position `i`, in a function
with `m` declared inputs): loops are well nested, every operand is a position recorded
in the same or an enclosing still-open scope, and every `LoadInsn` names a declared
input. -/
def operandsInScope (everyPosition : Bool) (m : Nat) :
    List (List Nat) → Nat → List Instruction → Bool
  | _, _, [] => true
  | scopes, i, insn :: rest =>
    insn.operands.all (fun k => decide (k ∈ scopes.flatten)) && insn.inputDeclared m &&
      match scopesAfter everyPosition scopes insn i with
      | none => false
      | some scopes1 => operandsInScope everyPosition m scopes1 (i + 1) rest

/-- Whether every identifier a statement list uses is declared earlier, in a block that
is still open where it is used; `blocks` are the blocks open at the start (innermost
first), each with the identifiers declared in it so far. The variable of a loop head
belongs to the block of the loop. -/
def identifiersDeclared : List (List CIdent) → List CStmt → Bool
  | _, [] => true
  | blocks, .decl _ k init :: rest =>
    init.uses.all (fun x => decide (x ∈ blocks.flatten)) &&
      identifiersDeclared (pushInner (.v k) blocks) rest
  | blocks, .assign lhs _ rhs :: rest =>
    (lhs.uses ++ rhs.uses).all (fun x => decide (x ∈ blocks.flatten)) &&
      identifiersDeclared blocks rest
  | blocks, .forOpen k _ :: rest => identifiersDeclared ([.v k] :: blocks) rest
  | blocks, .blockClose :: rest =>
    match blocks with
    | _ :: f :: fs => identifiersDeclared (f :: fs) rest
    | _ => false

/-- The identifiers the parameter list of a routine with `m` inputs declares. -/
def paramIdents (m : Nat) : List CIdent :=
  (List.range m).map (fun j => .param (.input j)) ++ [.param .output]

/-- The blocks of identifiers that stand for a stack of scopes of positions inside a
routine with `m` inputs: `v<k>` for position `k`, and the parameters in the routine's
own block. -/
def blocksOf (m : Nat) : List (List Nat) → List (List CIdent)
  | [] => []
  | [f] => [f.map .v ++ paramIdents m]
  | f :: g :: fs => f.map .v :: blocksOf m (g :: fs)

/-! ## Emitter calls and loop nesting -/

/-- The instruction an emitter call is to append; `Input` is no emitter. -/
def BuilderCall.insn? : BuilderCall → Option Instruction
  | .Loop range stride => some (.BeginLoopInsn range stride)
  | .EndLoop => some .EndLoopInsn
  | .Input _ => none
  | .Load input_idx load_idx => some (.LoadInsn input_idx load_idx)
  | .Store offset value => some (.StoreInsn offset value)
  | .Immediate value => some (.LoadImmediateInsn value)
  | .IntImmediate value => some (.LoadIntImmediateInsn value)
  | .Arithmetic x op y => some (.IntArithmeticInsn op x y)
  | .Unary type x => some (.UnaryInsn type x)
  | .Binary type x y => some (.BinaryInsn type x y)
  | .Accumulate type accumulator x => some (.AccumulateInsn type accumulator x)

/-- The values returned by the emitter calls among `calls`, made in order on `fb`
(calls of `Input` may come in between; their return values are left out). -/
def FunctionBuilder.returns (fb : FunctionBuilder) : List BuilderCall → List Nat
  | [] => []
  | c :: cs =>
    match c.insn? with
    | none => FunctionBuilder.returns (fb.call c).1 cs
    | some _ => (fb.call c).2 :: FunctionBuilder.returns (fb.call c).1 cs

def Instruction.isBeginLoop : Instruction → Bool
  | .BeginLoopInsn _ _ => true
  | _ => false

def Instruction.isEndLoop : Instruction → Bool
  | .EndLoopInsn => true
  | _ => false

def BuilderCall.isLoop : BuilderCall → Bool
  | .Loop _ _ => true
  | _ => false

def BuilderCall.isEndLoop : BuilderCall → Bool
  | .EndLoop => true
  | _ => false

/-- Loop begin/end instructions nest: in every prefix of the sequence the number of
`EndLoopInsn` does not exceed the number of `BeginLoopInsn`. -/
def LoopsNest (insns : List Instruction) : Prop :=
  ∀ n : Nat, (insns.take n).countP Instruction.isEndLoop ≤
    (insns.take n).countP Instruction.isBeginLoop

/-- The caller keeps the loop discipline: in every prefix of its calls the number of
`EndLoop` calls does not exceed the number of `Loop` calls. -/
def CallsNest (calls : List BuilderCall) : Prop :=
  ∀ n : Nat, (calls.take n).countP BuilderCall.isEndLoop ≤
    (calls.take n).countP BuilderCall.isLoop

/-! ## Reading the driver -/

/-- The lines of the body of the driver routine. -/
inductive DriverItem
  /-- The line `#if __linux__`. -/
  | ifLinux
  /-- The statement `feenableexcept(m1 | m2 | ...);` that enables the traps `masks`. -/
  | enableTraps (masks : List String)
  /-- The line `#endif`. -/
  | endIf
  /-- A call of a routine. -/
  | call (c : CallStmt)
  deriving DecidableEq, Repr

def DriverItem.text : DriverItem → String
  | .ifLinux => "#if __linux__\n"
  | .enableTraps masks => "    feenableexcept(" ++ String.intercalate " | " masks ++ ");\n"
  | .endIf => "#endif\n"
  | .call c => c.text

def DriverItem.texts : List DriverItem → String
  | [] => ""
  | x :: xs => x.text ++ DriverItem.texts xs

def DriverItem.isCall : DriverItem → Bool
  | .call _ => true
  | _ => false

/-! ## Shapes of matrix products -/

/-- Modelled from the spec: the shape rule of the matrix product `operator%` of graph.h,
which is not in the source tree. "Matmul requires the inner dimensions to match,
producing an outer-product shape" and "shape violations fail immediately with a
construction error": `{m, k} % {k, n}` has shape `{m, n}`, and differing inner
dimensions are a construction error. A right operand of rank one `{k}` is taken as the
column `{k, 1}`, as test TestXor requires; other ranks are not described and are
refused. -/
def matmulShape : Shape → Shape → Except String Shape
  | [m, k], [k1, n] =>
    if k = k1 then .ok [m, n] else .error "matmul: inner dimensions differ"
  | [m, k], [k1] =>
    if k = k1 then .ok [m, 1] else .error "matmul: inner dimensions differ"
  | _, _ => .error "matmul: unsupported operand ranks"

/-! ## Values of the conditional expression -/

/-- The value of the C expression `a > b ? a : b`, for values compared by `gt`. -/
def condValue {V : Type} (gt : V → V → Bool) (a b : V) : V :=
  if gt a b then a else b

/-- The value `(-1)^neg * mant * 2^exp2` as an integer multiple of `2^e`, for `e ≤ exp2`. -/
def FloatVal.scaled (neg : Bool) (mant : Nat) (exp2 e : Int) : Int :=
  (if neg then -1 else 1) * (mant : Int) * 2 ^ (exp2 - e).toNat

/-- The comparison `a > b` of C on `float` values: false when an operand is a NaN,
otherwise the order of the extended reals (the two zeros are not greater than each
other). -/
def FloatVal.gt : FloatVal → FloatVal → Bool
  | .nan _, _ => false
  | _, .nan _ => false
  | .inf n1, .inf n2 => !n1 && n2
  | .inf n1, .finite _ _ _ => !n1
  | .finite _ _ _, .inf n2 => n2
  | .finite n1 m1 e1, .finite n2 m2 e2 =>
    decide (FloatVal.scaled n2 m2 e2 (min e1 e2) < FloatVal.scaled n1 m1 e1 (min e1 e2))

/-- The comparison `a == b` of C on `float` values: false when an operand is a NaN,
otherwise equality of the values (the two zeros are equal). -/
def FloatVal.ceq : FloatVal → FloatVal → Bool
  | .nan _, _ => false
  | _, .nan _ => false
  | .inf n1, .inf n2 => n1 == n2
  | .inf _, .finite _ _ _ => false
  | .finite _ _ _, .inf _ => false
  | .finite n1 m1 e1, .finite n2 m2 e2 =>
    decide (FloatVal.scaled n1 m1 e1 (min e1 e2) = FloatVal.scaled n2 m2 e2 (min e1 e2))

/-! ## Values of a loop variable -/

/-- The values that the variable of a loop with the head
`for(int64_t v = 0; v < bound; v++)` takes, in order. -/
def forValues (bound : Int) : List Int :=
  (List.range bound.toNat).map Int.ofNat

/-! ## The product of a shape's extents in 64 bits -/

theorem to_size_t_cast (x : Int) :
    ((to_size_t x : Nat) : Int) = x % 18446744073709551616 := by
  unfold to_size_t
  exact Int.toNat_of_nonneg (Int.emod_nonneg _ (by norm_num))

/-- Wrapping into the range of `dim_t` does not change the value modulo `2^64`. -/
theorem to_size_t_wrap_dim_t (x : Int) : to_size_t (wrap_dim_t x) = to_size_t x := by
  unfold to_size_t wrap_dim_t
  congr 1
  omega

theorem to_size_t_mul (a : Int) (d : Nat) :
    to_size_t (a * (d : Int)) = (to_size_t a * d) % 18446744073709551616 := by
  have h : ((to_size_t (a * (d : Int)) : Nat) : Int) =
      (((to_size_t a * d) % 18446744073709551616 : Nat) : Int) := by
    rw [to_size_t_cast]
    push_cast
    rw [to_size_t_cast]
    conv_rhs => rw [Int.mul_emod, Int.emod_emod]
    exact Int.mul_emod _ _ _
  exact_mod_cast h

theorem foldl_wrap_dim_t : ∀ (shape : Shape) (acc : Int),
    to_size_t (shape.foldl (fun (acc : dim_t) (d : Nat) => wrap_dim_t (acc * (d : Int))) acc) =
      (to_size_t acc * shape.prod) % 18446744073709551616 := by
  intro shape
  induction shape with
  | nil =>
    intro acc
    simp only [List.foldl_nil, List.prod_nil, Nat.mul_one]
    have h : ((to_size_t acc : Nat) : Int) < 18446744073709551616 := by
      rw [to_size_t_cast]
      exact Int.emod_lt_of_pos _ (by norm_num)
    have h2 : to_size_t acc < 18446744073709551616 := by exact_mod_cast h
    exact (Nat.mod_eq_of_lt h2).symm
  | cons d rest ih =>
    intro acc
    rw [List.foldl_cons, ih, to_size_t_wrap_dim_t, to_size_t_mul, List.prod_cons,
      Nat.mod_mul_mod, Nat.mul_assoc]

/-- The size the source computes for a shape is the product of the extents modulo `2^64`. -/
theorem shapeProduct_eq_mod (shape : Shape) :
    shapeProduct shape = shape.prod % 2 ^ 64 := by
  unfold shapeProduct
  rw [foldl_wrap_dim_t]
  have h1 : to_size_t 1 = 1 := by decide
  have h2 : (2 : Nat) ^ 64 = 18446744073709551616 := by norm_num
  rw [h1, h2, Nat.one_mul]

/-- When no partial product of the extents leaves the range of `dim_t`, the size the
source computes is the product of the extents. -/
theorem shapeProduct_of_bound (shape : Shape)
    (h : ∀ k : Nat, (shape.take k).prod < 2 ^ 63) :
    shapeProduct shape = shape.prod := by
  rw [shapeProduct_eq_mod]
  have h1 := h shape.length
  rw [List.take_length] at h1
  have h2 : (2 : Nat) ^ 63 < 2 ^ 64 := by norm_num
  exact Nat.mod_eq_of_lt (by omega)

/-- Beyond that range the product wraps: the extents `2^32, 2^32` (and `2^32, 2^32, 3`)
give the size 0. -/
theorem shapeProduct_wraps :
    shapeProduct [4294967296, 4294967296] = 0 ∧
    shapeProduct [4294967296, 4294967296, 3] = 0 ∧
    (FunctionBuilder.new [4294967296, 4294967296] 0).output_size = 0 := by
  decide

/-! ## Facts about the buffer table -/

theorem Program.scan_eq_none (id : BufferId) :
    ∀ (l : List BufferDescriptor) (s : Nat),
      Program.scan id l s = none ↔ ∀ d ∈ l, d.id ≠ id := by
  intro l
  induction l with
  | nil => intro s; simp [Program.scan]
  | cons d ds ih =>
    intro s
    by_cases h : d.id = id
    · simp [Program.scan, h]
    · simp [Program.scan, h, ih]

theorem Program.scan_eq_some (id : BufferId) :
    ∀ (l : List BufferDescriptor) (s i : Nat), Program.scan id l s = some i →
      s ≤ i ∧ ∃ d, l[i - s]? = some d ∧ d.id = id := by
  intro l
  induction l with
  | nil => intro s i h; simp [Program.scan] at h
  | cons d ds ih =>
    intro s i h
    by_cases hd : d.id = id
    · simp [Program.scan, hd] at h
      subst h
      exact ⟨le_refl _, d, by simp, hd⟩
    · simp [Program.scan, hd] at h
      obtain ⟨hle, e, he, hid⟩ := ih (s + 1) i h
      refine ⟨by omega, e, ?_, hid⟩
      have : i - s = (i - (s + 1)) + 1 := by omega
      rw [this]
      simpa using he

/-- The scan returns the first slot that carries the identity: when slot `j` of the
table carries `id` and no earlier slot does, the scan from `0` answers `j`. -/
theorem Program.scan_first (id : BufferId) :
    ∀ (l : List BufferDescriptor) (s j : Nat) (d : BufferDescriptor),
      l[j]? = some d → d.id = id → (∀ k e, k < j → l[k]? = some e → e.id ≠ id) →
      Program.scan id l s = some (s + j) := by
  intro l
  induction l with
  | nil => intro s j d h; simp at h
  | cons e es ih =>
    intro s j d h hid hfirst
    cases j with
    | zero =>
      simp at h
      subst h
      simp [Program.scan, hid]
    | succ j =>
      have he : e.id ≠ id := hfirst 0 e (by omega) (by simp)
      simp only [Program.scan, he, if_false]
      have := ih (s + 1) j d (by simpa using h) hid
        (fun k x hk hx => hfirst (k + 1) x (by omega) (by simpa using hx))
      rw [this]
      congr 1
      omega

theorem Program.scan_none_not_mem {id : BufferId} {p : Program}
    (h : Program.scan id p.buffers 0 = none) : id ∉ p.ids := by
  intro hm
  obtain ⟨d, hd, rfl⟩ := List.mem_map.1 hm
  exact (Program.scan_eq_none _ _ _).1 h d hd rfl

theorem Program.setBackOutput_length (fs : List FunctionBuilder) (v : Nat) :
    (Program.setBackOutput fs v).length = fs.length := by
  induction fs with
  | nil => rfl
  | cons f rest ih =>
    cases rest with
    | nil => rfl
    | cons g rest => simpa [Program.setBackOutput] using ih

theorem Program.setBackOutput_append (fs : List FunctionBuilder) (f : FunctionBuilder)
    (v : Nat) :
    Program.setBackOutput (fs ++ [f]) v = fs ++ [{ f with output_buffer := v }] := by
  induction fs with
  | nil => rfl
  | cons g rest ih =>
    cases rest with
    | nil => simp [Program.setBackOutput]
    | cons h rest =>
      have e : (g :: h :: rest) ++ [f] = g :: (h :: (rest ++ [f])) := rfl
      rw [e, Program.setBackOutput]
      have ih2 : Program.setBackOutput (h :: (rest ++ [f])) v =
          h :: (rest ++ [{ f with output_buffer := v }]) := ih
      rw [ih2]
      rfl

/-- What `AddBuffer(const Tensor &)` does to the table: nothing when the tensor has
a slot, one appended descriptor otherwise. -/
theorem Program.AddBufferTensor_cases (shapeOf : TensorPtr → Shape) (p : Program)
    (t : TensorPtr) :
    (∃ i, Program.scan (.tensor t) p.buffers 0 = some i ∧
        p.AddBufferTensor shapeOf t = (p, i)) ∨
    (Program.scan (.tensor t) p.buffers 0 = none ∧
      p.AddBufferTensor shapeOf t =
        ({ p with buffers := p.buffers ++
            [{ id := .tensor t, size_elts := shapeProduct (shapeOf t) }] },
         p.buffers.length)) := by
  unfold Program.AddBufferTensor
  cases h : Program.scan (.tensor t) p.buffers 0 with
  | some i => exact Or.inl ⟨i, rfl, rfl⟩
  | none => right; simp

/-- What `AddBuffer(size_t)` does when it returns. -/
theorem Program.AddBufferFn_cases (p : Program) (k : Nat) (q : Program) (i : Nat)
    (h : p.AddBufferFn k = some (q, i)) :
    (Program.scan (.fn k) p.buffers 0 = some i ∧ q = p) ∨
    (Program.scan (.fn k) p.buffers 0 = none ∧ ∃ f, p.functions[k]? = some f ∧
      q = { p with buffers := p.buffers ++ [{ id := .fn k, size_elts := f.output_size }] } ∧
      i = p.buffers.length) := by
  unfold Program.AddBufferFn at h
  cases hs : Program.scan (.fn k) p.buffers 0 with
  | some j =>
    rw [hs] at h
    simp at h
    exact Or.inl ⟨by rw [h.2], h.1.symm⟩
  | none =>
    rw [hs] at h
    right
    refine ⟨rfl, ?_⟩
    cases hf : p.functions[k]? with
    | none => rw [hf] at h; simp at h
    | some f =>
      rw [hf] at h
      simp at h
      exact ⟨f, rfl, h.1.symm, h.2.symm⟩

/-- What `PushFunction` does when it returns. -/
theorem Program.PushFunction_cases (p : Program) (f : FunctionBuilder) (q : Program)
    (h : p.PushFunction f = some q) :
    (∃ i, Program.scan (.fn p.functions.length) p.buffers 0 = some i ∧
      q = { functions := p.functions ++ [{ f with output_buffer := i }],
            buffers := p.buffers }) ∨
    (Program.scan (.fn p.functions.length) p.buffers 0 = none ∧
      q = { functions := p.functions ++ [{ f with output_buffer := p.buffers.length }],
            buffers := p.buffers ++
              [{ id := .fn p.functions.length, size_elts := f.output_size }] }) := by
  unfold Program.PushFunction at h
  simp only [List.length_append, List.length_singleton, Nat.add_sub_cancel] at h
  cases ha : Program.AddBufferFn { p with functions := p.functions ++ [f] }
      p.functions.length with
  | none => rw [ha] at h; simp at h
  | some r =>
    obtain ⟨p2, ob⟩ := r
    rw [ha] at h
    simp only [Option.some.injEq] at h
    rcases Program.AddBufferFn_cases _ _ _ _ ha with ⟨hs, hq⟩ | ⟨hs, g, hg, hq, hi⟩
    · left
      refine ⟨ob, hs, ?_⟩
      subst hq
      rw [← h]
      simp [Program.setBackOutput_append]
    · right
      refine ⟨hs, ?_⟩
      simp at hg
      subst hq hi hg
      rw [← h]
      simp [Program.setBackOutput_append]

/-- `PushFunction` always returns: the function it hands to `AddBuffer(size_t)` is
the one it has just appended. -/
theorem Program.PushFunction_isSome (p : Program) (f : FunctionBuilder) :
    ∃ q, p.PushFunction f = some q := by
  unfold Program.PushFunction Program.AddBufferFn
  simp only [List.length_append, List.length_singleton, Nat.add_sub_cancel]
  cases Program.scan (.fn p.functions.length) p.buffers 0 with
  | some i => exact ⟨_, rfl⟩
  | none => simp

theorem Program.inv_empty (shapeOf : TensorPtr → Shape) : Program.empty.Inv shapeOf := by
  constructor
  · simp [Program.ids, Program.empty]
  · intro d hd; simp [Program.empty] at hd
  · intro d hd; simp [Program.empty] at hd
  · intro k f h; simp [Program.empty] at h

theorem Program.getElem?_append_some {α : Type} (l : List α) (x : α) (i : Nat) (d : α)
    (h : l[i]? = some d) : (l ++ [x])[i]? = some d := by
  have hi : i < l.length := by
    by_contra hc
    rw [List.getElem?_eq_none (by omega)] at h
    exact absurd h (by simp)
  rw [List.getElem?_append_left hi]
  exact h

theorem Program.inv_AddBufferTensor (shapeOf : TensorPtr → Shape) (p : Program)
    (t : TensorPtr) (h : p.Inv shapeOf) : (p.AddBufferTensor shapeOf t).1.Inv shapeOf := by
  rcases Program.AddBufferTensor_cases shapeOf p t with ⟨i, _, he⟩ | ⟨hs, he⟩
  · rw [he]; exact h
  · rw [he]
    constructor
    · have hn := Program.scan_none_not_mem hs
      have hnd := h.nodup
      simp only [Program.ids, List.map_append, List.map_cons, List.map_nil] at hn hnd ⊢
      exact List.Nodup.append hnd (List.nodup_singleton _) (by simpa using hn)
    · intro d hd u hu
      simp only [List.mem_append, List.mem_singleton] at hd
      rcases hd with hd | hd
      · exact h.sized d hd u hu
      · subst hd
        simp only [BufferId.tensor.injEq] at hu
        simp [hu]
    · intro d hd k hk
      simp only [List.mem_append, List.mem_singleton] at hd
      rcases hd with hd | hd
      · exact h.fnBound d hd k hk
      · subst hd; simp at hk
    · intro k f hf
      obtain ⟨d, hd, hid⟩ := h.outputs k f hf
      exact ⟨d, Program.getElem?_append_some _ _ _ _ hd, hid⟩

theorem Program.inv_AddBufferFn (shapeOf : TensorPtr → Shape) (p : Program) (k : Nat)
    (q : Program) (i : Nat) (h : p.Inv shapeOf) (hq : p.AddBufferFn k = some (q, i)) :
    q.Inv shapeOf := by
  rcases Program.AddBufferFn_cases p k q i hq with ⟨_, he⟩ | ⟨hs, f, hf, he, _⟩
  · rw [he]; exact h
  · exfalso
    obtain ⟨d, hd, hid, _⟩ := h.outputs k f hf
    exact (Program.scan_eq_none _ _ _).1 hs d (List.getElem?_mem hd) hid

theorem Program.inv_PushFunction (shapeOf : TensorPtr → Shape) (p : Program)
    (f : FunctionBuilder) (q : Program) (h : p.Inv shapeOf) (hq : p.PushFunction f = some q) :
    q.Inv shapeOf := by
  rcases Program.PushFunction_cases p f q hq with ⟨i, hs, _⟩ | ⟨hs, he⟩
  · exfalso
    obtain ⟨_, d, hd, hid⟩ := Program.scan_eq_some _ _ _ _ hs
    have := h.fnBound d (List.getElem?_mem hd) _ hid
    omega
  · subst he
    constructor
    · have hn := Program.scan_none_not_mem hs
      have hnd := h.nodup
      simp only [Program.ids, List.map_append, List.map_cons, List.map_nil] at hn hnd ⊢
      exact List.Nodup.append hnd (List.nodup_singleton _) (by simpa using hn)
    · intro d hd u hu
      simp only [List.mem_append, List.mem_singleton] at hd
      rcases hd with hd | hd
      · exact h.sized d hd u hu
      · subst hd; simp at hu
    · intro d hd k hk
      simp only [List.mem_append, List.mem_singleton] at hd
      simp only [List.length_append, List.length_singleton]
      rcases hd with hd | hd
      · have := h.fnBound d hd k hk; omega
      · subst hd
        simp only [BufferId.fn.injEq] at hk
        omega
    · intro k g hg
      by_cases hk : k < p.functions.length
      · rw [List.getElem?_append_left hk] at hg
        obtain ⟨d, hd, hid⟩ := h.outputs k g hg
        exact ⟨d, Program.getElem?_append_some _ _ _ _ hd, hid⟩
      · have hk2 : k = p.functions.length := by
          by_contra hne
          rw [List.getElem?_eq_none (by simp; omega)] at hg
          exact absurd hg (by simp)
        subst hk2
        simp at hg
        subst hg
        exact ⟨{ id := .fn p.functions.length, size_elts := f.output_size }, by simp, rfl, rfl⟩

theorem Program.inv_call (shapeOf : TensorPtr → Shape) (p q : Program) (c : ProgramCall)
    (h : p.Inv shapeOf) (hq : p.call shapeOf c = some q) : q.Inv shapeOf := by
  cases c with
  | AddBufferTensor t =>
    simp only [Program.call, Option.some.injEq] at hq
    rw [← hq]
    exact Program.inv_AddBufferTensor shapeOf p t h
  | AddBufferFn k =>
    simp only [Program.call, Option.map_eq_some'] at hq
    obtain ⟨⟨q2, i⟩, ha, rfl⟩ := hq
    exact Program.inv_AddBufferFn shapeOf p k q2 i h ha
  | PushFunction f => exact Program.inv_PushFunction shapeOf p f q h hq

theorem Program.inv_run (shapeOf : TensorPtr → Shape) (calls : List ProgramCall) :
    ∀ (p q : Program), p.Inv shapeOf → Program.run shapeOf p calls = some q →
      q.Inv shapeOf := by
  induction calls with
  | nil =>
    intro p q h hq
    simp only [Program.run, Option.some.injEq] at hq
    rw [← hq]; exact h
  | cons c cs ih =>
    intro p q h hq
    simp only [Program.run] at hq
    cases hc : p.call shapeOf c with
    | none => rw [hc] at hq; simp at hq
    | some r =>
      rw [hc] at hq
      exact ih r q (Program.inv_call shapeOf p r c h hc) hq

theorem FunctionBuilder.call_output_size (fb : FunctionBuilder) (c : BuilderCall) :
    (fb.call c).1.output_size = fb.output_size := by
  cases c <;> rfl

theorem FunctionBuilder.foldl_call_output_size (calls : List BuilderCall) :
    ∀ fb : FunctionBuilder,
      (calls.foldl (fun fb c => (fb.call c).1) fb).output_size = fb.output_size := by
  induction calls with
  | nil => intro fb; rfl
  | cons c cs ih =>
    intro fb
    simp only [List.foldl_cons]
    rw [ih, FunctionBuilder.call_output_size]

/-! ## The buffer table: identity, idempotence, output slots -/

/-- C1: in every Program reached from the empty Program by any sequence of
AddBuffer(tensor), AddBuffer(function index) and PushFunction calls, two slots of the
buffer table that carry the same identity are the same slot, every tensor and every
function index occurs in at most one slot, and a tensor identity is never equal to a
function-index identity. -/
theorem Program.buffer_identities_unique (shapeOf : TensorPtr → Shape)
    (calls : List ProgramCall) (p : Program)
    (h : Program.run shapeOf Program.empty calls = some p) :
    (∀ (i j : Nat) (di dj : BufferDescriptor),
        p.buffers[i]? = some di → p.buffers[j]? = some dj → di.id = dj.id → i = j) ∧
    (∀ t : TensorPtr, p.ids.count (.tensor t) ≤ 1) ∧
    (∀ k : Nat, p.ids.count (.fn k) ≤ 1) ∧
    (∀ (t : TensorPtr) (k : Nat), BufferId.tensor t ≠ BufferId.fn k) := by
  have hinv := Program.inv_run shapeOf calls _ p (Program.inv_empty shapeOf) h
  have hnd := hinv.nodup
  refine ⟨?_, fun t => List.nodup_iff_count_le_one.1 hnd _,
    fun k => List.nodup_iff_count_le_one.1 hnd _, fun t k hc => by cases hc⟩
  intro i j di dj hi hj hid
  have hi2 : p.ids[i]? = some di.id := by simp [Program.ids, hi]
  have hj2 : p.ids[j]? = some dj.id := by simp [Program.ids, hj]
  have hil : i < p.ids.length := by
    by_contra hc
    rw [List.getElem?_eq_none (by omega)] at hi2
    exact absurd hi2 (by simp)
  have hjl : j < p.ids.length := by
    by_contra hc
    rw [List.getElem?_eq_none (by omega)] at hj2
    exact absurd hj2 (by simp)
  rw [List.getElem?_eq_getElem hil] at hi2
  rw [List.getElem?_eq_getElem hjl] at hj2
  simp only [Option.some.injEq] at hi2 hj2
  exact (List.Nodup.getElem_inj_iff hnd).1 (by rw [hi2, hj2, hid])

/-- The claim C1 at a program built with a tensor added twice, a pushed function and
its index added again. -/
theorem Program.buffer_identities_unique_witness :
    Program.run (fun _ => [2, 3]) Program.empty
        [.AddBufferTensor 7, .PushFunction (FunctionBuilder.new [4] 0),
         .AddBufferTensor 7, .AddBufferFn 0] =
      some { functions := [{ insns := [], inputs := [], output_size := 4, output_buffer := 1 }],
             buffers := [⟨.tensor 7, 6⟩, ⟨.fn 0, 4⟩] } ∧
    ((∀ (i j : Nat) (di dj : BufferDescriptor),
        [(⟨.tensor 7, 6⟩ : BufferDescriptor), ⟨.fn 0, 4⟩][i]? = some di →
        [(⟨.tensor 7, 6⟩ : BufferDescriptor), ⟨.fn 0, 4⟩][j]? = some dj →
        di.id = dj.id → i = j) ∧
     (∀ t : TensorPtr, [BufferId.tensor 7, BufferId.fn 0].count (.tensor t) ≤ 1) ∧
     (∀ k : Nat, [BufferId.tensor 7, BufferId.fn 0].count (.fn k) ≤ 1) ∧
     (∀ (t : TensorPtr) (k : Nat), BufferId.tensor t ≠ BufferId.fn k)) :=
  ⟨by decide,
   Program.buffer_identities_unique (fun _ => [2, 3])
     [.AddBufferTensor 7, .PushFunction (FunctionBuilder.new [4] 0),
      .AddBufferTensor 7, .AddBufferFn 0]
     { functions := [{ insns := [], inputs := [], output_size := 4, output_buffer := 1 }],
       buffers := [⟨.tensor 7, 6⟩, ⟨.fn 0, 4⟩] } (by decide)⟩

/-- A second `AddBuffer(const Tensor &)` for the same tensor finds the slot that the
first one returned and changes nothing; this holds for any table whatever. -/
theorem Program.AddBufferTensor_again (shapeOf : TensorPtr → Shape) (p : Program)
    (t : TensorPtr) :
    (p.AddBufferTensor shapeOf t).1.AddBufferTensor shapeOf t = p.AddBufferTensor shapeOf t := by
  rcases Program.AddBufferTensor_cases shapeOf p t with ⟨i, hs, he⟩ | ⟨hs, he⟩
  · rw [he]
    exact he
  · rw [he]
    have hfirst : Program.scan (.tensor t)
        (p.buffers ++ [{ id := .tensor t, size_elts := shapeProduct (shapeOf t) }]) 0 =
        some (0 + p.buffers.length) := by
      apply Program.scan_first _ _ 0 p.buffers.length
        { id := .tensor t, size_elts := shapeProduct (shapeOf t) }
      · simp
      · rfl
      · intro k e hk hke
        rw [List.getElem?_append_left hk] at hke
        exact (Program.scan_eq_none _ _ _).1 hs e (List.getElem?_mem hke)
    simp only [Nat.zero_add] at hfirst
    simp only [Program.AddBufferTensor, hfirst]

/-- C2: for every Program built from the empty Program through its member functions
and every tensor `t`, `AddBuffer(t)` returns an index whose descriptor has identity
`t` and as `size_elts` the value the source computes from `t`'s shape, which is the
product of the extents whenever no partial product of them leaves the range of `dim_t`
(in general it is that product modulo `2^64`), and a second `AddBuffer(t)` returns the
same index and leaves the Program, hence its buffer table, as it was. -/
theorem Program.AddBufferTensor_idempotent (shapeOf : TensorPtr → Shape)
    (calls : List ProgramCall) (p : Program) (t : TensorPtr)
    (h : Program.run shapeOf Program.empty calls = some p) :
    (p.AddBufferTensor shapeOf t).1.buffers[(p.AddBufferTensor shapeOf t).2]? =
        some { id := .tensor t, size_elts := shapeProduct (shapeOf t) } ∧
    ((∀ k : Nat, ((shapeOf t).take k).prod < 2 ^ 63) →
      (p.AddBufferTensor shapeOf t).1.buffers[(p.AddBufferTensor shapeOf t).2]? =
        some { id := .tensor t, size_elts := (shapeOf t).prod }) ∧
    shapeProduct (shapeOf t) = (shapeOf t).prod % 2 ^ 64 ∧
    (p.AddBufferTensor shapeOf t).1.functions = p.functions ∧
    (p.AddBufferTensor shapeOf t).1.AddBufferTensor shapeOf t =
        ((p.AddBufferTensor shapeOf t).1, (p.AddBufferTensor shapeOf t).2) ∧
    ((p.AddBufferTensor shapeOf t).1.AddBufferTensor shapeOf t).1.buffers.length =
        (p.AddBufferTensor shapeOf t).1.buffers.length := by
  have hinv := Program.inv_run shapeOf calls _ p (Program.inv_empty shapeOf) h
  have hagain := Program.AddBufferTensor_again shapeOf p t
  have hslot : (p.AddBufferTensor shapeOf t).1.buffers[(p.AddBufferTensor shapeOf t).2]? =
      some { id := .tensor t, size_elts := shapeProduct (shapeOf t) } := by
    rcases Program.AddBufferTensor_cases shapeOf p t with ⟨i, hs, he⟩ | ⟨hs, he⟩
    · rw [he]
      obtain ⟨_, d, hd, hid⟩ := Program.scan_eq_some _ _ _ _ hs
      have hsz := hinv.sized d (List.getElem?_mem hd) t hid
      simp only [Nat.sub_zero] at hd
      rw [hd]
      cases d
      simp only [Option.some.injEq, BufferDescriptor.mk.injEq]
      exact ⟨hid, hsz⟩
    · rw [he]
      simp
  refine ⟨hslot, ?_, shapeProduct_eq_mod _, ?_, by rw [hagain], by rw [hagain]⟩
  · intro hbound
    rw [hslot, shapeProduct_of_bound _ hbound]
  · rcases Program.AddBufferTensor_cases shapeOf p t with ⟨i, hs, he⟩ | ⟨hs, he⟩ <;> rw [he]

/-- The claim C2 at a program that already holds a function slot and the tensor, whose
shape has the extents 2 and 3. -/
theorem Program.AddBufferTensor_idempotent_witness :
    Program.run (fun _ => [2, 3]) Program.empty
        [.PushFunction (FunctionBuilder.new [4] 9), .AddBufferTensor 7] =
      some { functions := [{ insns := [], inputs := [], output_size := 4, output_buffer := 0 }],
             buffers := [⟨.fn 0, 4⟩, ⟨.tensor 7, 6⟩] } ∧
    (∀ k : Nat, (([2, 3] : Shape).take k).prod < 2 ^ 63) ∧
    (({ functions := [{ insns := [], inputs := [], output_size := 4, output_buffer := 0 }],
        buffers := [⟨.fn 0, 4⟩, ⟨.tensor 7, 6⟩] } : Program).AddBufferTensor
          (fun _ => [2, 3]) 7).1.buffers[
      (({ functions := [{ insns := [], inputs := [], output_size := 4, output_buffer := 0 }],
          buffers := [⟨.fn 0, 4⟩, ⟨.tensor 7, 6⟩] } : Program).AddBufferTensor
            (fun _ => [2, 3]) 7).2]? =
        some { id := .tensor 7, size_elts := ([2, 3] : Shape).prod } :=
  have hb : ∀ k : Nat, (([2, 3] : Shape).take k).prod < 2 ^ 63 := by
    intro k
    rcases k with _ | _ | k <;> simp
  ⟨by decide, hb,
   (Program.AddBufferTensor_idempotent (fun _ => [2, 3])
      [.PushFunction (FunctionBuilder.new [4] 9), .AddBufferTensor 7]
      { functions := [{ insns := [], inputs := [], output_size := 4, output_buffer := 0 }],
        buffers := [⟨.fn 0, 4⟩, ⟨.tensor 7, 6⟩] } 7 (by decide)).2.1 hb⟩

/-- C3: in every Program built from the empty Program through its member functions
(in particular one built only with PushFunction and AddBuffer(tensor)),
`PushFunction(f)` returns; afterwards the function list is the old one followed by
`f` with its `output_buffer` set, that `output_buffer` is a valid index into the
buffer table, the descriptor there has the new function's index as identity and
`f.output_size` as `size_elts`, a builder constructed for a shape has as `output_size`,
whatever was emitted into it, the value the constructor computes from the shape, which
is the product of the shape's extents whenever no partial product of them leaves the
range of `dim_t` (in general it is that product modulo `2^64`), and two functions at
different positions have different `output_buffer` slots. -/
theorem Program.PushFunction_output_slot (shapeOf : TensorPtr → Shape)
    (calls : List ProgramCall) (p : Program) (f : FunctionBuilder)
    (h : Program.run shapeOf Program.empty calls = some p) :
    ∃ (q : Program) (ob : Nat),
      p.PushFunction f = some q ∧
      q.functions = p.functions ++ [{ f with output_buffer := ob }] ∧
      q.functions.getLast? = some { f with output_buffer := ob } ∧
      ob < q.buffers.length ∧
      q.buffers[ob]? = some { id := .fn p.functions.length, size_elts := f.output_size } ∧
      (∀ (shape : Shape) (uninit : Nat) (bcalls : List BuilderCall),
        (FunctionBuilder.build shape uninit bcalls).output_size = shapeProduct shape ∧
        (FunctionBuilder.build shape uninit bcalls).output_size = shape.prod % 2 ^ 64 ∧
        ((∀ k : Nat, (shape.take k).prod < 2 ^ 63) →
          (FunctionBuilder.build shape uninit bcalls).output_size = shape.prod)) ∧
      (∀ (i j : Nat) (fi fj : FunctionBuilder),
        q.functions[i]? = some fi → q.functions[j]? = some fj → i ≠ j →
        fi.output_buffer ≠ fj.output_buffer) := by
  have hinv := Program.inv_run shapeOf calls _ p (Program.inv_empty shapeOf) h
  obtain ⟨q, hq⟩ := Program.PushFunction_isSome p f
  have hqinv := Program.inv_PushFunction shapeOf p f q hinv hq
  rcases Program.PushFunction_cases p f q hq with ⟨i, hs, _⟩ | ⟨hs, he⟩
  · exfalso
    obtain ⟨_, d, hd, hid⟩ := Program.scan_eq_some _ _ _ _ hs
    have := hinv.fnBound d (List.getElem?_mem hd) _ hid
    omega
  · refine ⟨q, p.buffers.length, hq, by rw [he], by rw [he]; simp, by rw [he]; simp,
      by rw [he]; simp, ?_, ?_⟩
    · intro shape uninit bcalls
      have hsz : (FunctionBuilder.build shape uninit bcalls).output_size =
          shapeProduct shape := by
        unfold FunctionBuilder.build
        rw [FunctionBuilder.foldl_call_output_size]
        rfl
      refine ⟨hsz, ?_, ?_⟩
      · rw [hsz]; exact shapeProduct_eq_mod shape
      · intro hbound
        rw [hsz]; exact shapeProduct_of_bound shape hbound
    · intro i j fi fj hi hj hij hob
      obtain ⟨di, hdi, hidi, _⟩ := hqinv.outputs i fi hi
      obtain ⟨dj, hdj, hidj, _⟩ := hqinv.outputs j fj hj
      rw [hob, hdj] at hdi
      simp only [Option.some.injEq] at hdi
      rw [← hdi, hidj] at hidi
      simp only [BufferId.fn.injEq] at hidi
      exact hij hidi.symm

/-- The claim C3 at a program that holds one tensor and one function, for a builder
constructed for the shape with extents 2 and 5. -/
theorem Program.PushFunction_output_slot_witness :
    (∀ k : Nat, (([2, 5] : Shape).take k).prod < 2 ^ 63) ∧
    (FunctionBuilder.build [2, 5] 99 [.Input 1, .IntImmediate 0]).output_size =
      ([2, 5] : Shape).prod ∧
    ∃ (q : Program) (ob : Nat),
      ({ functions := [{ insns := [], inputs := [0], output_size := 4, output_buffer := 1 }],
         buffers := [⟨.tensor 7, 6⟩, ⟨.fn 0, 4⟩] } : Program).PushFunction
          (FunctionBuilder.build [2, 5] 99 [.Input 1, .IntImmediate 0]) = some q ∧
      q.functions =
        [{ insns := [], inputs := [0], output_size := 4, output_buffer := 1 }] ++
          [{ (FunctionBuilder.build [2, 5] 99 [.Input 1, .IntImmediate 0]) with
              output_buffer := ob }] ∧
      q.functions.getLast? =
        some { (FunctionBuilder.build [2, 5] 99 [.Input 1, .IntImmediate 0]) with
                output_buffer := ob } ∧
      ob < q.buffers.length ∧
      q.buffers[ob]? = some ⟨.fn 1,
        (FunctionBuilder.build [2, 5] 99 [.Input 1, .IntImmediate 0]).output_size⟩ ∧
      (∀ (shape : Shape) (uninit : Nat) (bcalls : List BuilderCall),
        (FunctionBuilder.build shape uninit bcalls).output_size = shapeProduct shape ∧
        (FunctionBuilder.build shape uninit bcalls).output_size = shape.prod % 2 ^ 64 ∧
        ((∀ k : Nat, (shape.take k).prod < 2 ^ 63) →
          (FunctionBuilder.build shape uninit bcalls).output_size = shape.prod)) ∧
      (∀ (i j : Nat) (fi fj : FunctionBuilder),
        q.functions[i]? = some fi → q.functions[j]? = some fj → i ≠ j →
        fi.output_buffer ≠ fj.output_buffer) :=
  have hb : ∀ k : Nat, (([2, 5] : Shape).take k).prod < 2 ^ 63 := by
    intro k
    rcases k with _ | _ | k <;> simp
  have h := Program.PushFunction_output_slot (fun _ => [2, 3])
    [.AddBufferTensor 7,
     .PushFunction { insns := [], inputs := [0], output_size := 4, output_buffer := 5 }]
    { functions := [{ insns := [], inputs := [0], output_size := 4, output_buffer := 1 }],
      buffers := [⟨.tensor 7, 6⟩, ⟨.fn 0, 4⟩] }
    (FunctionBuilder.build [2, 5] 99 [.Input 1, .IntImmediate 0]) (by decide)
  ⟨hb,
   by
    obtain ⟨_, _, _, _, _, _, _, hs, _⟩ := h
    exact (hs [2, 5] 99 [.Input 1, .IntImmediate 0]).2.2 hb,
   h⟩

/-! ## The emitted driver -/

theorem LowerCtx.fprintf_fprintf (ctx : LowerCtx) (a b : String) :
    (ctx.fprintf a).fprintf b = ctx.fprintf (a ++ b) := by
  simp [LowerCtx.fprintf, String.append_assoc]

theorem LowerCtx.fprintf_empty (ctx : LowerCtx) : ctx.fprintf "" = ctx := by
  simp [LowerCtx.fprintf]

theorem CallStmt.argLines_cons (a : Nat) (l : List Nat) (h : l ≠ []) :
    CallStmt.argLines (a :: l) =
      "        buffers[" ++ fmt_zu a ++ "],\n" ++ CallStmt.argLines l := by
  cases l with
  | nil => exact absurd rfl h
  | cons b rest => rfl

theorem GenerateMain_inputs_eq (ob : Nat) :
    ∀ (inputs : List Nat) (ctx : LowerCtx),
      (GenerateMain_inputs inputs ctx).fprintf ("        buffers[" ++ fmt_zu ob ++ "]);\n\n") =
        ctx.fprintf (CallStmt.argLines (inputs ++ [ob]) ++ ");\n\n") := by
  intro inputs
  induction inputs with
  | nil =>
    intro ctx
    have e : "]);\n\n" = "]" ++ ");\n\n" := by decide
    simp only [GenerateMain_inputs, List.nil_append, CallStmt.argLines]
    rw [e]
    simp only [String.append_assoc]
  | cons b rest ih =>
    intro ctx
    simp only [GenerateMain_inputs, List.cons_append]
    rw [ih, LowerCtx.fprintf_fprintf, CallStmt.argLines_cons b (rest ++ [ob]) (by simp)]
    simp only [String.append_assoc]

theorem GenerateMain_calls_eq :
    ∀ (fns : List FunctionBuilder) (ifn : Nat) (ctx : LowerCtx),
      GenerateMain_calls fns ifn ctx =
        ctx.fprintf (CallStmt.texts (driverCalls ctx.pfx fns ifn)) := by
  intro fns
  induction fns with
  | nil =>
    intro ifn ctx
    simp [GenerateMain_calls, driverCalls, CallStmt.texts, LowerCtx.fprintf]
  | cons fn rest ih =>
    intro ifn ctx
    simp only [GenerateMain_calls, driverCalls, CallStmt.texts, CallStmt.text]
    rw [GenerateMain_inputs_eq, LowerCtx.fprintf_fprintf, ih, LowerCtx.fprintf_fprintf]
    simp only [LowerCtx.fprintf, String.append_assoc]

theorem driverCalls_length (pfx : String) :
    ∀ (fns : List FunctionBuilder) (ifn : Nat), (driverCalls pfx fns ifn).length = fns.length := by
  intro fns
  induction fns with
  | nil => intro ifn; rfl
  | cons fn rest ih => intro ifn; simp [driverCalls, ih]

theorem driverCalls_getElem? (pfx : String) :
    ∀ (fns : List FunctionBuilder) (ifn k : Nat),
      (driverCalls pfx fns ifn)[k]? =
        (fns[k]?).map (fun f =>
          { callee := pfx ++ "_" ++ fmt_zu (ifn + k), args := f.inputs ++ [f.output_buffer] }) := by
  intro fns
  induction fns with
  | nil => intro ifn k; simp [driverCalls]
  | cons fn rest ih =>
    intro ifn k
    cases k with
    | zero => simp [driverCalls]
    | succ k =>
      simp only [driverCalls, List.getElem?_cons_succ]
      rw [ih]
      have : ifn + 1 + k = ifn + (k + 1) := by omega
      rw [this]

/-- C4: for every Program with functions `f_0 .. f_{n-1}`, the text that `GenerateMain`
appends to the file is the driver routine whose body, after the statement that
enables the traps, consists of exactly `n` call statements; the `k`-th one calls
`<prefix>_<k>` with the arguments `buffers[f_k.inputs[0]]`, ..., in input-list
order, followed last by `buffers[f_k.output_buffer]`. -/
theorem GenerateMain_calls_every_function (program : Program) (ctx : LowerCtx) :
    ∃ calls : List CallStmt,
      (GenerateMain program ctx).file = ctx.file ++ driverText calls ∧
      calls.length = program.functions.length ∧
      ∀ k : Nat, calls[k]? =
        (program.functions[k]?).map (fun f_k =>
          { callee := ctx.pfx ++ "_" ++ fmt_zu k,
            args := f_k.inputs ++ [f_k.output_buffer] }) := by
  refine ⟨driverCalls ctx.pfx program.functions 0, ?_, driverCalls_length _ _ _, ?_⟩
  · simp only [GenerateMain, LowerCtx.fprintf_fprintf, GenerateMain_calls_eq]
    simp only [LowerCtx.fprintf, driverText, String.append_assoc]
  · intro k
    rw [driverCalls_getElem?]
    simp

/-! ## Decimal numerals are injective -/

theorem toDigitsCore_eq_digits (fuel : Nat) :
    ∀ (n : Nat) (ds : List Char), 0 < n → n < fuel →
      Nat.toDigitsCore 10 fuel n ds = ((Nat.digits 10 n).reverse.map Nat.digitChar) ++ ds := by
  induction fuel with
  | zero => intro n ds _ h; omega
  | succ fuel ih =>
    intro n ds hpos hlt
    have hdef : Nat.digits 10 n = (n % 10) :: Nat.digits 10 (n / 10) :=
      Nat.digits_def' (by norm_num) hpos
    by_cases h0 : n / 10 = 0
    · simp [Nat.toDigitsCore, h0, hdef]
    · have hlt2 : n / 10 < fuel := by omega
      simp only [Nat.toDigitsCore, h0, if_false]
      rw [ih (n / 10) _ (by omega) hlt2, hdef]
      simp

theorem digitChar_inj (a b : Nat) (ha : a < 10) (hb : b < 10)
    (h : Nat.digitChar a = Nat.digitChar b) : a = b := by
  have key : ∀ x : Fin 10, ∀ y : Fin 10,
      Nat.digitChar x.val = Nat.digitChar y.val → x = y := by decide
  exact congrArg Fin.val (key ⟨a, ha⟩ ⟨b, hb⟩ h)

theorem map_digitChar_inj :
    ∀ (l1 l2 : List Nat), (∀ d ∈ l1, d < 10) → (∀ d ∈ l2, d < 10) →
      l1.map Nat.digitChar = l2.map Nat.digitChar → l1 = l2 := by
  intro l1
  induction l1 with
  | nil =>
    intro l2 _ _ h
    cases l2 with
    | nil => rfl
    | cons b l2 => simp at h
  | cons a l1 ih =>
    intro l2 h1 h2 h
    cases l2 with
    | nil => simp at h
    | cons b l2 =>
      simp only [List.map_cons, List.cons.injEq] at h
      have hab := digitChar_inj a b (h1 a (by simp)) (h2 b (by simp)) h.1
      have := ih l2 (fun d hd => h1 d (by simp [hd])) (fun d hd => h2 d (by simp [hd])) h.2
      rw [hab, this]

theorem toDigits_of_pos (n : Nat) (h : 0 < n) :
    Nat.toDigits 10 n = (Nat.digits 10 n).reverse.map Nat.digitChar := by
  unfold Nat.toDigits
  rw [toDigitsCore_eq_digits (n + 1) n [] h (by omega)]
  simp

theorem toDigits_inj (n m : Nat) (h : Nat.toDigits 10 n = Nat.toDigits 10 m) : n = m := by
  have key : ∀ a b : Nat, 0 < a → 0 < b → Nat.toDigits 10 a = Nat.toDigits 10 b → a = b := by
    intro a b ha hb hab
    rw [toDigits_of_pos a ha, toDigits_of_pos b hb] at hab
    have := map_digitChar_inj _ _
      (fun d hd => Nat.digits_lt_base (by norm_num) (List.mem_reverse.1 hd))
      (fun d hd => Nat.digits_lt_base (by norm_num) (List.mem_reverse.1 hd)) hab
    exact Nat.digits_inj_iff.1 (List.reverse_injective this)
  have zero : ∀ b : Nat, 0 < b → Nat.toDigits 10 0 ≠ Nat.toDigits 10 b := by
    intro b hb hc
    rw [toDigits_of_pos b hb] at hc
    have h0 : Nat.toDigits 10 0 = [0].map Nat.digitChar := by decide
    rw [h0] at hc
    have := map_digitChar_inj _ _ (by simp)
      (fun d hd => Nat.digits_lt_base (by norm_num) (List.mem_reverse.1 hd)) hc
    have hl := Nat.getLast_digit_ne_zero 10 (Nat.pos_iff_ne_zero.1 hb)
    have hd : Nat.digits 10 b = [0] := by
      have := congrArg List.reverse this
      simpa using this.symm
    simp [hd] at hl
  rcases Nat.eq_zero_or_pos n with hn | hn <;> rcases Nat.eq_zero_or_pos m with hm | hm
  · omega
  · subst hn; exact absurd h (zero m hm)
  · subst hm; exact absurd h.symm (zero n hn)
  · exact key n m hn hm h

/-- Two numbers that `%zu` prints alike are equal. -/
theorem fmt_zu_inj (n m : Nat) (h : fmt_zu n = fmt_zu m) : n = m := by
  have : (Nat.repr n).data = (Nat.repr m).data := congrArg String.data h
  exact toDigits_inj n m this

/-- Different parameters of a routine are spelled differently. -/
theorem ParamName.text_injective : Function.Injective ParamName.text := by
  intro a b h
  cases a with
  | input i =>
    cases b with
    | input j =>
      have hd := congrArg String.data h
      simp only [ParamName.text, String.data_append] at hd
      have := fmt_zu_inj i j (String.ext (List.append_cancel_left hd))
      rw [this]
    | output =>
      exfalso
      have hd := congrArg String.data h
      simp only [ParamName.text, String.data_append] at hd
      have h1 := congrArg List.head? hd
      simp at h1
  | output =>
    cases b with
    | input j =>
      exfalso
      have hd := congrArg String.data h
      simp only [ParamName.text, String.data_append] at hd
      have h1 := congrArg List.head? hd
      simp at h1
    | output => rfl

/-! ## The emitted routines -/

theorem Lower_ScalarC_insn_prepend (cty text : String) (ctx : LowerCtx) (insn : Instruction)
    (i : Nat) :
    Lower_ScalarC_insn cty (ctx.prepend text) insn i =
      (Lower_ScalarC_insn cty ctx insn i).prepend text := by
  cases insn <;>
    simp only [Lower_ScalarC_insn, LowerCtx.fprintf, LowerCtx.prepend, String.append_assoc] <;>
    split_ifs <;> rfl

theorem Lower_ScalarC_insns_prepend (cty text : String) :
    ∀ (insns : List Instruction) (i : Nat) (ctx : LowerCtx),
      Lower_ScalarC_insns cty insns i (ctx.prepend text) =
        (Lower_ScalarC_insns cty insns i ctx).prepend text := by
  intro insns
  induction insns with
  | nil => intro i ctx; rfl
  | cons insn rest ih =>
    intro i ctx
    simp only [Lower_ScalarC_insns]
    rw [Lower_ScalarC_insn_prepend, ih]

theorem Lower_ScalarC_insn_pfx (cty : String) (ctx : LowerCtx) (insn : Instruction) (i : Nat) :
    (Lower_ScalarC_insn cty ctx insn i).pfx = ctx.pfx := by
  cases insn <;> simp only [Lower_ScalarC_insn, LowerCtx.fprintf] <;> split_ifs <;> rfl

theorem Lower_ScalarC_insns_pfx (cty : String) :
    ∀ (insns : List Instruction) (i : Nat) (ctx : LowerCtx),
      (Lower_ScalarC_insns cty insns i ctx).pfx = ctx.pfx := by
  intro insns
  induction insns with
  | nil => intro i ctx; rfl
  | cons insn rest ih =>
    intro i ctx
    simp only [Lower_ScalarC_insns]
    rw [ih, Lower_ScalarC_insn_pfx]

theorem ParamDecl.lines_cons (a : ParamDecl) (l : List ParamDecl) (h : l ≠ []) :
    ParamDecl.lines (a :: l) = "    " ++ a.ctype ++ a.name.text ++ ",\n" ++ ParamDecl.lines l := by
  cases l with
  | nil => exact absurd rfl h
  | cons b rest => rfl

theorem Lower_ScalarC_params_eq (cty : String) :
    ∀ (inputs : List Nat) (i : Nat) (ctx : LowerCtx),
      (Lower_ScalarC_params cty inputs i ctx).fprintf ("    " ++ cty ++ " *output)\n\x7b\n") =
        ctx.fprintf (ParamDecl.lines
          ((List.range' i inputs.length).map (fun j => ⟨"const " ++ cty ++ " *", .input j⟩) ++
            [⟨cty ++ " *", .output⟩]) ++ ")\n\x7b\n") := by
  intro inputs
  induction inputs with
  | nil =>
    intro i ctx
    have e : " *output)\n\x7b\n" = " *" ++ ("output" ++ ")\n\x7b\n") := by decide
    simp only [Lower_ScalarC_params, List.length_nil, List.range'_zero, List.map_nil,
      List.nil_append, ParamDecl.lines, ParamName.text]
    rw [e]
    simp only [String.append_assoc]
  | cons b rest ih =>
    intro i ctx
    have e1 : "    const " = "    " ++ "const " := by decide
    have e2 : " *i" = " *" ++ "i" := by decide
    simp only [Lower_ScalarC_params, List.length_cons, List.range'_succ, List.map_cons,
      List.cons_append]
    rw [ih, LowerCtx.fprintf_fprintf, ParamDecl.lines_cons _ _ (by simp)]
    simp only [ParamName.text]
    rw [e1, e2]
    simp only [String.append_assoc]

theorem Lower_ScalarC_fn_file (cty : String) (ctx : LowerCtx) (fn : FunctionBuilder)
    (ifn : Nat) :
    (Lower_ScalarC_fn cty ctx fn ifn).file =
      ctx.file ++ RoutineDef.text
        { name := ctx.pfx ++ "_" ++ fmt_zu ifn, params := routineParams cty fn,
          body := routineBody cty ctx.pfx fn } := by
  have hp := Lower_ScalarC_params_eq cty fn.inputs 0
    (ctx.fprintf ("static void " ++ ctx.pfx ++ "_" ++ fmt_zu ifn ++ "(\n"))
  have hctx : ∀ c : LowerCtx, ({ c with indentation := 4 } : LowerCtx) =
      ({ pfx := c.pfx, file := "", indentation := 4 } : LowerCtx).prepend c.file := by
    intro c; simp [LowerCtx.prepend]
  simp only [Lower_ScalarC_fn]
  rw [hp, LowerCtx.fprintf_fprintf, hctx, Lower_ScalarC_insns_prepend]
  simp only [LowerCtx.fprintf, LowerCtx.prepend, RoutineDef.text, routineParams, routineBody,
    List.range_eq_range', String.append_assoc]

theorem Lower_ScalarC_fn_pfx (cty : String) (ctx : LowerCtx) (fn : FunctionBuilder)
    (ifn : Nat) : (Lower_ScalarC_fn cty ctx fn ifn).pfx = ctx.pfx := by
  have hpar : ∀ (inputs : List Nat) (i : Nat) (c : LowerCtx),
      (Lower_ScalarC_params cty inputs i c).pfx = c.pfx := by
    intro inputs
    induction inputs with
    | nil => intro i c; rfl
    | cons b rest ih => intro i c; simp only [Lower_ScalarC_params]; rw [ih]; rfl
  simp only [Lower_ScalarC_fn, LowerCtx.fprintf, Lower_ScalarC_insns_pfx, hpar]

theorem Lower_ScalarC_fns_eq (cty : String) :
    ∀ (fns : List FunctionBuilder) (ifn : Nat) (ctx : LowerCtx),
      (Lower_ScalarC_fns cty fns ifn ctx).pfx = ctx.pfx ∧
      (Lower_ScalarC_fns cty fns ifn ctx).file =
        ctx.file ++ RoutineDef.texts (routineDefs cty ctx.pfx fns ifn) := by
  intro fns
  induction fns with
  | nil => intro ifn ctx; simp [Lower_ScalarC_fns, routineDefs, RoutineDef.texts]
  | cons fn rest ih =>
    intro ifn ctx
    simp only [Lower_ScalarC_fns, routineDefs, RoutineDef.texts]
    obtain ⟨h1, h2⟩ := ih (ifn + 1) (Lower_ScalarC_fn cty ctx fn ifn)
    rw [h1, h2, Lower_ScalarC_fn_pfx, Lower_ScalarC_fn_file]
    exact ⟨rfl, by simp only [String.append_assoc]⟩

theorem routineDefs_getElem? (cty pfx : String) :
    ∀ (fns : List FunctionBuilder) (ifn k : Nat),
      (routineDefs cty pfx fns ifn)[k]? =
        (fns[k]?).map (fun f =>
          { name := pfx ++ "_" ++ fmt_zu (ifn + k), params := routineParams cty f,
            body := routineBody cty pfx f }) := by
  intro fns
  induction fns with
  | nil => intro ifn k; simp [routineDefs]
  | cons fn rest ih =>
    intro ifn k
    cases k with
    | zero => simp [routineDefs]
    | succ k =>
      simp only [routineDefs, List.getElem?_cons_succ]
      rw [ih]
      have : ifn + 1 + k = ifn + (k + 1) := by omega
      rw [this]

theorem routineDefs_length (cty pfx : String) :
    ∀ (fns : List FunctionBuilder) (ifn : Nat),
      (routineDefs cty pfx fns ifn).length = fns.length := by
  intro fns
  induction fns with
  | nil => intro ifn; rfl
  | cons fn rest ih => intro ifn; simp [routineDefs, ih]

/-- In a list of pairwise different keys zipped with values, looking up the key at a
position gives the value at that position. -/
theorem lookup_zip_of_nodup :
    ∀ (ks : List String) (vs : List Nat) (j : Nat) (key : String) (v : Nat),
      ks.Nodup → ks[j]? = some key → vs[j]? = some v →
      (List.zip ks vs).lookup key = some v := by
  intro ks
  induction ks with
  | nil => intro vs j key v _ h; simp at h
  | cons a ks ih =>
    intro vs j key v hnd hk hv
    cases vs with
    | nil => simp at hv
    | cons b vs =>
      cases j with
      | zero =>
        simp only [List.getElem?_cons_zero, Option.some.injEq] at hk hv
        subst hk hv
        simp [List.lookup]
      | succ j =>
        simp only [List.getElem?_cons_succ] at hk hv
        have hne : key ≠ a := by
          intro hc
          subst hc
          exact (List.nodup_cons.1 hnd).1 (List.getElem?_mem hk)
        have hbeq : (key == a) = false := by simpa using hne
        simp only [List.zip_cons_cons, List.lookup, hbeq]
        exact ih vs j key v (List.nodup_cons.1 hnd).2 hk hv

theorem routineParams_names_nodup (cty : String) (fn : FunctionBuilder) :
    ((routineParams cty fn).map (fun d => d.name.text)).Nodup := by
  have h1 : (routineParams cty fn).map (fun d => d.name.text) =
      (((List.range fn.inputs.length).map ParamName.input) ++ [ParamName.output]).map
        ParamName.text := by
    simp [routineParams, Function.comp_def]
  rw [h1]
  apply List.Nodup.map ParamName.text_injective
  apply List.Nodup.append
  · exact List.Nodup.map (fun a b h => by injection h) (List.nodup_range _)
  · exact List.nodup_singleton _
  · simp

theorem Lower_ScalarC_source_eq (pfx : String) (program : Program) (cty : String) :
    Lower_ScalarC_source pfx program cty =
      "#define _GNU_SOURCE\n#include <fenv.h>\n" ++ "#include <stdint.h>\n#include <math.h>\n\n" ++
        RoutineDef.texts (routineDefs cty pfx program.functions 0) ++
        driverText (driverCalls pfx program.functions 0) := by
  simp only [Lower_ScalarC_source, GenerateMain, LowerCtx.fprintf_fprintf, GenerateMain_calls_eq]
  obtain ⟨h1, h2⟩ := Lower_ScalarC_fns_eq cty program.functions 0
    (({ pfx := pfx, file := "", indentation := 0 } : LowerCtx).fprintf
      ("#define _GNU_SOURCE\n#include <fenv.h>\n" ++ "#include <stdint.h>\n#include <math.h>\n\n"))
  simp only [LowerCtx.fprintf] at h1 h2 ⊢
  rw [h1, h2]
  simp only [driverText, String.append_assoc, String.empty_append]

set_option maxRecDepth 100000 in
/-- The source text of a program with one function that copies its input, letter
for letter. -/
theorem Lower_ScalarC_source_example :
    Lower_ScalarC_source "gg_scalar"
      { functions := [{ insns := [.BeginLoopInsn 4 1, .LoadInsn 0 0, .StoreInsn 0 1, .EndLoopInsn],
                        inputs := [0], output_size := 4, output_buffer := 1 }],
        buffers := [⟨.tensor 7, 4⟩, ⟨.fn 0, 4⟩] } "float" =
    "#define _GNU_SOURCE\n#include <fenv.h>\n#include <stdint.h>\n#include <math.h>\n\n" ++
    "static void gg_scalar_0(\n    const float *i0,\n    float *output)\n\x7b\n" ++
    "    for(int64_t v0 = 0; v0 < 4; v0++)\n    \x7b\n" ++
    "        float v1 = i0[v0];\n        output[v0] = v1;\n    \x7d\n\x7d\n\n" ++
    "void gigagrad_main(void **buffers)\n\x7b\n#if __linux__\n" ++
    "    feenableexcept(FE_DIVBYZERO | FE_INVALID | FE_OVERFLOW);\n#endif\n" ++
    "    gg_scalar_0(\n        buffers[0],\n        buffers[1]);\n\n\x7d\n" := by
  decide

/-- C5: for the function `f` at index `k` of a Program, the source text consists of
the routine definitions followed by the driver; the `k`-th definition is named
`<prefix>_<k>` and declares the input pointers `i0 .. i{m-1}` (`m` the number of
inputs of `f`) followed by one output pointer; the `k`-th call of the driver calls
that name with as many arguments, `buffers[f.inputs[0]]`, ..., `buffers[f.output_buffer]`;
so, binding parameters to arguments by position, the name `i<j>` denotes buffer
slot `f.inputs[j]` and `output` denotes slot `f.output_buffer`. A LoadInsn with input
field `j` is emitted as a read of `i<j>`, a StoreInsn as a write to `output`, and
`FunctionBuilder::Input(b)` returns the local index at which the input list has `b`,
keeping the earlier entries in place. -/
theorem routine_definition_matches_call (cty pfx : String) (program : Program) (k : Nat)
    (f : FunctionBuilder) (hk : program.functions[k]? = some f) :
    ∃ (defs : List RoutineDef) (calls : List CallStmt) (d : RoutineDef) (c : CallStmt),
      Lower_ScalarC_source pfx program cty =
        "#define _GNU_SOURCE\n#include <fenv.h>\n" ++
          "#include <stdint.h>\n#include <math.h>\n\n" ++
          RoutineDef.texts defs ++ driverText calls ∧
      defs[k]? = some d ∧ calls[k]? = some c ∧
      d.name = pfx ++ "_" ++ fmt_zu k ∧ c.callee = d.name ∧
      d.params =
        (List.range f.inputs.length).map (fun j => ⟨"const " ++ cty ++ " *", .input j⟩) ++
          [⟨cty ++ " *", .output⟩] ∧
      d.body = routineBody cty pfx f ∧
      c.args = f.inputs ++ [f.output_buffer] ∧
      c.args.length = d.params.length ∧
      (∀ (j b : Nat), f.inputs[j]? = some b →
        slotOf (bindArgs d.params c.args) (ParamName.input j).text = some b) ∧
      slotOf (bindArgs d.params c.args) ParamName.output.text = some f.output_buffer ∧
      (∀ (ctx : LowerCtx) (j idx i : Nat),
        (Lower_ScalarC_insn cty ctx (.LoadInsn j idx) i).file =
          ctx.file ++ (indent ctx.indentation ++ cty ++ " v" ++ fmt_zu i ++ " = " ++
            (ParamName.input j).text ++ "[v" ++ fmt_zu idx ++ "];\n")) ∧
      (∀ (ctx : LowerCtx) (offset value i : Nat),
        (Lower_ScalarC_insn cty ctx (.StoreInsn offset value) i).file =
          ctx.file ++ (indent ctx.indentation ++ ParamName.output.text ++ "[v" ++
            fmt_zu offset ++ "] = v" ++ fmt_zu value ++ ";\n")) ∧
      (∀ (fb : FunctionBuilder) (b : Nat),
        (fb.Input b).1.inputs[(fb.Input b).2]? = some b ∧
        (fb.Input b).1.insns = fb.insns ∧
        ∀ (j x : Nat), fb.inputs[j]? = some x → (fb.Input b).1.inputs[j]? = some x) := by
  have hnd := routineParams_names_nodup cty f
  have hlen : (f.inputs ++ [f.output_buffer]).length = (routineParams cty f).length := by
    simp [routineParams]
  refine ⟨routineDefs cty pfx program.functions 0, driverCalls pfx program.functions 0,
    { name := pfx ++ "_" ++ fmt_zu k, params := routineParams cty f,
      body := routineBody cty pfx f },
    { callee := pfx ++ "_" ++ fmt_zu k, args := f.inputs ++ [f.output_buffer] },
    Lower_ScalarC_source_eq pfx program cty, ?_, ?_, rfl, rfl, rfl, rfl, rfl, hlen,
    ?_, ?_, ?_, ?_, ?_⟩
  · rw [routineDefs_getElem?, hk]; simp
  · rw [driverCalls_getElem?, hk]; simp
  · intro j b hj
    have hjl : j < f.inputs.length := by
      by_contra hc
      rw [List.getElem?_eq_none (by omega)] at hj
      exact absurd hj (by simp)
    apply lookup_zip_of_nodup _ _ j _ _ hnd
    · simp [routineParams, List.getElem?_append_left, hjl, List.getElem?_range]
    · rw [List.getElem?_append_left hjl]; exact hj
  · apply lookup_zip_of_nodup _ _ f.inputs.length _ _ hnd
    · simp [routineParams, List.getElem?_append_right]
    · simp [List.getElem?_append_right]
  · intro ctx j idx i
    have e : " = i" = " = " ++ "i" := by decide
    simp only [Lower_ScalarC_insn, LowerCtx.fprintf, ParamName.text]
    rw [e]
    simp only [String.append_assoc]
  · intro ctx offset value i
    have e : "output[v" = "output" ++ "[v" := by decide
    simp only [Lower_ScalarC_insn, LowerCtx.fprintf, ParamName.text]
    rw [e]
    simp only [String.append_assoc]
  · intro fb b
    refine ⟨by simp [FunctionBuilder.Input], rfl, ?_⟩
    intro j x hj
    exact Program.getElem?_append_some _ _ _ _ hj

/-- The claim C5 at a program whose one function loads from its second input and
stores: `i1` is bound to buffer slot 5 and `output` to slot 2. -/
theorem routine_definition_matches_call_witness :
    ({ functions := [{ insns := [.LoadInsn 1 0, .StoreInsn 0 0], inputs := [3, 5],
                       output_size := 1, output_buffer := 2 }],
       buffers := [] } : Program).functions[0]? =
      some { insns := [.LoadInsn 1 0, .StoreInsn 0 0], inputs := [3, 5],
             output_size := 1, output_buffer := 2 } ∧
    ∃ (d : RoutineDef) (c : CallStmt),
      d.name = "gg_scalar_0" ∧ c.callee = "gg_scalar_0" ∧ c.args = [3, 5, 2] ∧
      c.args.length = d.params.length ∧
      slotOf (bindArgs d.params c.args) "i1" = some 5 ∧
      slotOf (bindArgs d.params c.args) "output" = some 2 := by
  obtain ⟨_, _, d, c, _, _, _, hname, hcallee, _, _, hargs, hlen, hin, hout, _⟩ :=
    routine_definition_matches_call "float" "gg_scalar"
      { functions := [{ insns := [.LoadInsn 1 0, .StoreInsn 0 0], inputs := [3, 5],
                        output_size := 1, output_buffer := 2 }],
        buffers := [] } 0
      { insns := [.LoadInsn 1 0, .StoreInsn 0 0], inputs := [3, 5],
        output_size := 1, output_buffer := 2 } rfl
  have e1 : (ParamName.input 1).text = "i1" := by decide
  have e2 : ParamName.output.text = "output" := by decide
  have e3 : "gg_scalar" ++ "_" ++ fmt_zu 0 = "gg_scalar_0" := by decide
  refine ⟨rfl, d, c, by rw [hname, e3], by rw [hcallee, hname, e3], hargs, hlen, ?_, ?_⟩
  · rw [← e1]; exact hin 1 5 rfl
  · rw [← e2]; exact hout

/-! ## The buffer loops of the backend -/

theorem InitBuffers_loop_eq :
    ∀ (descs : List BufferDescriptor) (ibuff : Nat) (w : World),
      InitBuffers_loop descs ibuff w =
        { w with
          backend := { w.backend with
            buffers := w.backend.buffers ++ initPtrs w.data descs w.nextSerial }
          nextSerial := w.nextSerial + fnCount descs
          allocs := w.allocs ++ initAllocs descs ibuff w.nextSerial } := by
  intro descs
  induction descs with
  | nil => intro ibuff w; simp [InitBuffers_loop, initPtrs, initAllocs, fnCount]
  | cons d rest ih =>
    intro ibuff w
    cases hid : d.id with
    | tensor t =>
      simp only [InitBuffers_loop, initPtrs, initAllocs, fnCount, hid]
      rw [ih]
      simp
    | fn k =>
      simp only [InitBuffers_loop, initPtrs, initAllocs, fnCount, hid]
      rw [ih]
      simp [Nat.add_assoc, Nat.add_comm 1]

theorem initPtrs_length (data : TensorPtr → Ptr) :
    ∀ (descs : List BufferDescriptor) (serial : Nat),
      (initPtrs data descs serial).length = descs.length := by
  intro descs
  induction descs with
  | nil => intro serial; rfl
  | cons d rest ih =>
    intro serial
    cases hid : d.id <;> simp [initPtrs, hid, ih]

/-- Slot by slot, what one pass of the `InitBuffers` loop appends: the tensor's data
pointer for a tensor descriptor, a fresh array for a function-output descriptor. -/
theorem initPtrs_getElem? (data : TensorPtr → Ptr) :
    ∀ (descs : List BufferDescriptor) (serial i : Nat) (d : BufferDescriptor),
      descs[i]? = some d →
      (initPtrs data descs serial)[i]? =
        some (match d.id with
          | .tensor t => data t
          | .fn _ => Ptr.scratch (serial + fnCount (descs.take i))) := by
  intro descs
  induction descs with
  | nil => intro serial i d h; simp at h
  | cons e rest ih =>
    intro serial i d h
    cases i with
    | zero =>
      simp only [List.getElem?_cons_zero, Option.some.injEq] at h
      subst h
      cases hid : e.id <;> simp [initPtrs, hid, fnCount]
    | succ i =>
      simp only [List.getElem?_cons_succ] at h
      cases hid : e.id with
      | tensor t =>
        simp only [initPtrs, hid, List.getElem?_cons_succ, List.take_succ_cons, fnCount]
        exact ih serial i d h
      | fn k =>
        simp only [initPtrs, hid, List.getElem?_cons_succ, List.take_succ_cons, fnCount]
        rw [ih (serial + 1) i d h]
        cases d.id <;> simp [Nat.add_assoc, Nat.add_comm 1]

theorem initAllocs_slots :
    ∀ (descs : List BufferDescriptor) (ibuff serial : Nat),
      (initAllocs descs ibuff serial).map (fun a => a.1) = fnSlots descs ibuff := by
  intro descs
  induction descs with
  | nil => intro ibuff serial; rfl
  | cons d rest ih =>
    intro ibuff serial
    cases hid : d.id <;> simp [initAllocs, fnSlots, hid, ih]

/-- Every allocation recorded by one pass of the `InitBuffers` loop is made for a
function-output descriptor, has that descriptor's element count, and is a fresh array
whose serial number is at least `serial`. -/
theorem initAllocs_mem :
    ∀ (descs : List BufferDescriptor) (ibuff serial : Nat) (a : Nat × Ptr × Nat),
      a ∈ initAllocs descs ibuff serial →
      ∃ (i : Nat) (d : BufferDescriptor) (k r : Nat),
        a = (ibuff + i, Ptr.scratch r, d.size_elts) ∧ descs[i]? = some d ∧ d.id = .fn k ∧
        serial ≤ r ∧ r = serial + fnCount (descs.take i) := by
  intro descs
  induction descs with
  | nil => intro ibuff serial a h; simp [initAllocs] at h
  | cons e rest ih =>
    intro ibuff serial a h
    cases hid : e.id with
    | tensor t =>
      simp only [initAllocs, hid] at h
      obtain ⟨i, d, k, r, ha, hd, hk, hr, hr2⟩ := ih (ibuff + 1) serial a h
      refine ⟨i + 1, d, k, r, ?_, by simpa using hd, hk, hr, ?_⟩
      · rw [ha]; congr 1; omega
      · simp [List.take_succ_cons, fnCount, hid, hr2]
    | fn k0 =>
      simp only [initAllocs, hid, List.mem_cons] at h
      rcases h with h | h
      · exact ⟨0, e, k0, serial, by simpa using h, by simp, hid, le_refl _, by simp [fnCount]⟩
      · obtain ⟨i, d, k, r, ha, hd, hk, hr, hr2⟩ := ih (ibuff + 1) (serial + 1) a h
        refine ⟨i + 1, d, k, r, ?_, by simpa using hd, hk, by omega, ?_⟩
        · rw [ha]; congr 1; omega
        · simp [List.take_succ_cons, fnCount, hid, hr2]; omega

/-- The allocation made for a function-output descriptor at position `i` is recorded. -/
theorem initAllocs_of_fn :
    ∀ (descs : List BufferDescriptor) (ibuff serial i : Nat) (d : BufferDescriptor) (k : Nat),
      descs[i]? = some d → d.id = .fn k →
      (ibuff + i, Ptr.scratch (serial + fnCount (descs.take i)), d.size_elts) ∈
        initAllocs descs ibuff serial := by
  intro descs
  induction descs with
  | nil => intro ibuff serial i d k h; simp at h
  | cons e rest ih =>
    intro ibuff serial i d k h hk
    cases i with
    | zero =>
      simp only [List.getElem?_cons_zero, Option.some.injEq] at h
      subst h
      simp [initAllocs, hk, fnCount]
    | succ i =>
      simp only [List.getElem?_cons_succ] at h
      cases hid : e.id with
      | tensor t =>
        simp only [initAllocs, hid, List.take_succ_cons, fnCount]
        have := ih (ibuff + 1) serial i d k h hk
        have e1 : ibuff + 1 + i = ibuff + (i + 1) := by omega
        rw [e1] at this
        exact this
      | fn k0 =>
        simp only [initAllocs, hid, List.take_succ_cons, fnCount, List.mem_cons]
        right
        have := ih (ibuff + 1) (serial + 1) i d k h hk
        have e1 : ibuff + 1 + i = ibuff + (i + 1) := by omega
        have e2 : serial + 1 + fnCount (List.take i rest) =
            serial + (fnCount (List.take i rest) + 1) := by omega
        rw [e1, e2] at this
        exact this

theorem fnSlots_mem :
    ∀ (descs : List BufferDescriptor) (ibuff i : Nat), i ∈ fnSlots descs ibuff →
      ∃ (j : Nat) (d : BufferDescriptor) (k : Nat),
        i = ibuff + j ∧ descs[j]? = some d ∧ d.id = .fn k := by
  intro descs
  induction descs with
  | nil => intro ibuff i h; simp [fnSlots] at h
  | cons e rest ih =>
    intro ibuff i h
    cases hid : e.id with
    | tensor t =>
      simp only [fnSlots, hid] at h
      obtain ⟨j, d, k, hi, hd, hk⟩ := ih (ibuff + 1) i h
      exact ⟨j + 1, d, k, by omega, by simpa using hd, hk⟩
    | fn k0 =>
      simp only [fnSlots, hid, List.mem_cons] at h
      rcases h with h | h
      · exact ⟨0, e, k0, by omega, by simp, hid⟩
      · obtain ⟨j, d, k, hi, hd, hk⟩ := ih (ibuff + 1) i h
        exact ⟨j + 1, d, k, by omega, by simpa using hd, hk⟩

/-- The `Execute` loop returns when the buffer array is as long as the table; it puts
the current data pointer in every tensor slot and leaves every other slot alone. -/
theorem Execute_loop_spec (data : TensorPtr → Ptr) :
    ∀ (descs : List BufferDescriptor) (ibuff : Nat) (buffers : List Ptr),
      ibuff + descs.length ≤ buffers.length →
      ∃ out : List Ptr,
        Execute_loop data descs ibuff buffers = some out ∧
        out.length = buffers.length ∧
        (∀ i : Nat, i < ibuff → out[i]? = buffers[i]?) ∧
        (∀ i : Nat, ibuff + descs.length ≤ i → out[i]? = buffers[i]?) ∧
        (∀ (i : Nat) (d : BufferDescriptor), descs[i]? = some d →
          (∀ t : TensorPtr, d.id = .tensor t → out[ibuff + i]? = some (data t)) ∧
          (∀ k : Nat, d.id = .fn k → out[ibuff + i]? = buffers[ibuff + i]?)) := by
  intro descs
  induction descs with
  | nil =>
    intro ibuff buffers _
    exact ⟨buffers, rfl, rfl, fun _ _ => rfl, fun _ _ => rfl, fun i d h => by simp at h⟩
  | cons e rest ih =>
    intro ibuff buffers hlen
    simp only [List.length_cons] at hlen
    cases hid : e.id with
    | tensor t =>
      have hlt : ibuff < buffers.length := by omega
      obtain ⟨out, hout, hl, hlow, hhigh, hmid⟩ :=
        ih (ibuff + 1) (buffers.set ibuff (data t)) (by simp; omega)
      refine ⟨out, by simp [Execute_loop, hid, hlt, hout], by simpa using hl, ?_, ?_, ?_⟩
      · intro i hi
        rw [hlow i (by omega), List.getElem?_set_ne (by omega)]
      · intro i hi
        simp only [List.length_cons] at hi
        rw [hhigh i (by omega), List.getElem?_set_ne (by omega)]
      · intro i d hd
        cases i with
        | zero =>
          simp only [List.getElem?_cons_zero, Option.some.injEq] at hd
          subst hd
          refine ⟨fun u hu => ?_, fun k hk => ?_⟩
          · rw [hid] at hu
            simp only [BufferId.tensor.injEq] at hu
            subst hu
            rw [Nat.add_zero, hlow ibuff (by omega)]
            simp [List.getElem?_set, hlt]
          · rw [hid] at hk; cases hk
        | succ i =>
          simp only [List.getElem?_cons_succ] at hd
          obtain ⟨h1, h2⟩ := hmid i d hd
          have e1 : ibuff + 1 + i = ibuff + (i + 1) := by omega
          rw [e1] at h1 h2
          refine ⟨h1, fun k hk => ?_⟩
          rw [h2 k hk, List.getElem?_set_ne (by omega)]
    | fn k0 =>
      obtain ⟨out, hout, hl, hlow, hhigh, hmid⟩ := ih (ibuff + 1) buffers (by omega)
      refine ⟨out, by simp [Execute_loop, hid, hout], hl, ?_, ?_, ?_⟩
      · intro i hi
        exact hlow i (by omega)
      · intro i hi
        simp only [List.length_cons] at hi
        exact hhigh i (by omega)
      · intro i d hd
        cases i with
        | zero =>
          simp only [List.getElem?_cons_zero, Option.some.injEq] at hd
          subst hd
          refine ⟨fun u hu => ?_, fun k hk => ?_⟩
          · rw [hid] at hu; cases hu
          · exact hlow ibuff (by omega)
        | succ i =>
          simp only [List.getElem?_cons_succ] at hd
          obtain ⟨h1, h2⟩ := hmid i d hd
          have e1 : ibuff + 1 + i = ibuff + (i + 1) := by omega
          rw [e1] at h1 h2
          exact ⟨h1, h2⟩

/-- When the destructor's loop returns it has changed nothing but the record of
`delete[]`, to which it has added one entry per function-output slot, in slot
order, each with the pointer found in that slot. -/
theorem Teardown_loop_of_some :
    ∀ (descs : List BufferDescriptor) (ibuff : Nat) (w w1 : World),
      Teardown_loop descs ibuff w = some w1 →
      w1.backend = w.backend ∧ w1.allocs = w.allocs ∧ w1.closed = w.closed ∧
      w1.nextSerial = w.nextSerial ∧
      ∃ new : List (Nat × Ptr),
        w1.frees = w.frees ++ new ∧
        new.map (fun fr => fr.1) = fnSlots descs ibuff ∧
        ∀ fr ∈ new, w.backend.buffers[fr.1]? = some fr.2 := by
  intro descs
  induction descs with
  | nil =>
    intro ibuff w w1 h
    simp only [Teardown_loop, Option.some.injEq] at h
    subst h
    exact ⟨rfl, rfl, rfl, rfl, [], by simp, rfl, by simp⟩
  | cons e rest ih =>
    intro ibuff w w1 h
    cases hid : e.id with
    | tensor t =>
      simp only [Teardown_loop, hid] at h
      obtain ⟨h1, h2, h3, h4, new, h5, h6, h7⟩ := ih (ibuff + 1) w w1 h
      exact ⟨h1, h2, h3, h4, new, h5, by simp [fnSlots, hid, h6], h7⟩
    | fn k0 =>
      simp only [Teardown_loop, hid] at h
      cases hp : w.backend.buffers[ibuff]? with
      | none => rw [hp] at h; simp at h
      | some p =>
        rw [hp] at h
        obtain ⟨h1, h2, h3, h4, new, h5, h6, h7⟩ := ih (ibuff + 1) _ w1 h
        refine ⟨h1, h2, h3, h4, (ibuff, p) :: new, by simp [h5], by simp [fnSlots, hid, h6], ?_⟩
        intro fr hfr
        simp only [List.mem_cons] at hfr
        rcases hfr with hfr | hfr
        · subst hfr; exact hp
        · exact h7 fr hfr

/-- The destructor's loop returns when the buffer array is as long as the table. -/
theorem Teardown_loop_isSome :
    ∀ (descs : List BufferDescriptor) (ibuff : Nat) (w : World),
      ibuff + descs.length ≤ w.backend.buffers.length →
      ∃ w1 : World, Teardown_loop descs ibuff w = some w1 := by
  intro descs
  induction descs with
  | nil => intro ibuff w _; exact ⟨w, rfl⟩
  | cons e rest ih =>
    intro ibuff w hlen
    simp only [List.length_cons] at hlen
    cases hid : e.id with
    | tensor t =>
      simp only [Teardown_loop, hid]
      exact ih (ibuff + 1) w (by omega)
    | fn k0 =>
      simp only [Teardown_loop, hid]
      have hlt : ibuff < w.backend.buffers.length := by omega
      rw [List.getElem?_eq_getElem hlt]
      exact ih (ibuff + 1) _ (by simpa using (by omega : ibuff + 1 + rest.length ≤ w.backend.buffers.length))

/-- When the `Execute` loop returns, the array has kept its length and every slot
that is not the slot of a tensor descriptor has kept its pointer. -/
theorem Execute_loop_of_some (data : TensorPtr → Ptr) :
    ∀ (descs : List BufferDescriptor) (ibuff : Nat) (buffers out : List Ptr),
      Execute_loop data descs ibuff buffers = some out →
      out.length = buffers.length ∧
      ∀ i : Nat,
        (∀ (j : Nat) (d : BufferDescriptor) (t : TensorPtr),
          descs[j]? = some d → d.id = .tensor t → i ≠ ibuff + j) →
        out[i]? = buffers[i]? := by
  intro descs
  induction descs with
  | nil =>
    intro ibuff buffers out h
    simp only [Execute_loop, Option.some.injEq] at h
    subst h
    exact ⟨rfl, fun _ _ => rfl⟩
  | cons e rest ih =>
    intro ibuff buffers out h
    cases hid : e.id with
    | tensor t =>
      simp only [Execute_loop, hid] at h
      by_cases hlt : ibuff < buffers.length
      · simp only [hlt, if_true] at h
        obtain ⟨h1, h2⟩ := ih (ibuff + 1) _ out h
        refine ⟨by simpa using h1, fun i hi => ?_⟩
        have hne : ibuff ≠ i := by
          have := hi 0 e t (by simp) hid
          omega
        rw [h2 i (fun j d u hd hu => by
          have := hi (j + 1) d u (by simpa using hd) hu
          omega), List.getElem?_set_ne hne]
      · simp [hlt] at h
    | fn k0 =>
      simp only [Execute_loop, hid] at h
      obtain ⟨h1, h2⟩ := ih (ibuff + 1) buffers out h
      refine ⟨h1, fun i hi => ?_⟩
      exact h2 i (fun j d u hd hu => by
        have := hi (j + 1) d u (by simpa using hd) hu
        omega)

theorem World.InitBuffers_of_some (w w1 : World) (p : Ptr)
    (h : w.InitBuffers = some (w1, p)) :
    w1 = InitBuffers_loop w.backend.program.buffers 0 w := by
  unfold World.InitBuffers at h
  simp only at h
  split at h
  · simp at h
  · split at h
    · simp at h
    · simp only [Option.some.injEq, Prod.mk.injEq] at h
      exact h.1.symm

theorem World.inv_lowered (prog : Program) (eval_fn handle : Nat) (data : TensorPtr → Ptr)
    (serial : Nat) : (World.lowered prog eval_fn handle data serial).Inv prog := by
  constructor
  · rfl
  · left; rfl
  · intro a ha; simp [World.lowered] at ha
  · intro i d k p _ _ hp; simp [World.lowered] at hp
  · rfl

theorem World.inv_backend_call (prog : Program) (w w1 : World) (c : BackendCall)
    (h : w.Inv prog) (hc : w.call c = some w1) : w1.Inv prog := by
  cases c with
  | Rebind t p =>
    simp only [World.call, Option.some.injEq] at hc
    subst hc
    exact ⟨h.program, h.len, h.allocFn, h.owned, h.frees⟩
  | Execute =>
    simp only [World.call, World.Execute, World.Execute_args] at hc
    cases ho : Execute_loop w.data w.backend.program.buffers 0 w.backend.buffers with
    | none => rw [ho] at hc; simp at hc
    | some out =>
      rw [ho] at hc
      simp only [Option.some.injEq] at hc
      subst hc
      obtain ⟨hl, hkeep⟩ := Execute_loop_of_some _ _ _ _ _ ho
      refine ⟨h.program, ?_, h.allocFn, ?_, h.frees⟩
      · rcases h.len with he | hge
        · left
          simp only [he, List.length_nil] at hl
          exact List.eq_nil_of_length_eq_zero hl
        · right; simp only; omega
      · intro i d k p hd hk hp
        apply h.owned i d k p hd hk
        rw [← hkeep i (fun j e t he ht hij => ?_)]
        · exact hp
        · rw [h.program, Nat.zero_add] at *
          subst hij
          rw [hd] at he
          simp only [Option.some.injEq] at he
          subst he
          rw [hk] at ht
          cases ht
  | InitBuffers =>
    simp only [World.call, Option.map_eq_some'] at hc
    obtain ⟨⟨w2, p⟩, hinit, rfl⟩ := hc
    have hw := World.InitBuffers_of_some w w2 p hinit
    rw [InitBuffers_loop_eq, h.program] at hw
    subst hw
    refine ⟨h.program, ?_, ?_, ?_, h.frees⟩
    · right
      simp [initPtrs_length]
    · intro a ha
      simp only [List.mem_append] at ha
      rcases ha with ha | ha
      · exact h.allocFn a ha
      · obtain ⟨i, d, k, r, hae, hd, hk, _, _⟩ := initAllocs_mem _ _ _ _ ha
        subst hae
        exact ⟨d, k, r, by simpa using hd, hk, rfl, rfl⟩
    · intro i d k p hd hk hp
      simp only [List.mem_append]
      have hil : i < prog.buffers.length := by
        by_contra hcon
        rw [List.getElem?_eq_none (by omega)] at hd
        exact absurd hd (by simp)
      rcases h.len with he | hge
      · right
        simp only [he, List.nil_append] at hp
        rw [initPtrs_getElem? _ _ _ _ _ hd, hk] at hp
        simp only [Option.some.injEq] at hp
        subst hp
        have := initAllocs_of_fn prog.buffers 0 w.nextSerial i d k hd hk
        rwa [Nat.zero_add] at this
      · left
        apply h.owned i d k p hd hk
        simp only at hp
        rwa [List.getElem?_append_left (by omega)] at hp

theorem World.inv_backend_run (prog : Program) (calls : List BackendCall) :
    ∀ (w w1 : World), w.Inv prog → World.run w calls = some w1 → w1.Inv prog := by
  induction calls with
  | nil =>
    intro w w1 h hr
    simp only [World.run, Option.some.injEq] at hr
    subst hr; exact h
  | cons c cs ih =>
    intro w w1 h hr
    simp only [World.run] at hr
    cases hc : w.call c with
    | none => rw [hc] at hr; simp at hr
    | some w2 =>
      rw [hc] at hr
      exact ih w2 w1 (World.inv_backend_call prog w w2 c h hc) hr

theorem World.Teardown_of_some (w w1 : World) (h : w.Teardown = some w1) :
    w1.backend = w.backend ∧ w1.allocs = w.allocs ∧
    ∃ new : List (Nat × Ptr),
      w1.frees = w.frees ++ new ∧
      new.map (fun fr => fr.1) = fnSlots w.backend.program.buffers 0 ∧
      ∀ fr ∈ new, w.backend.buffers[fr.1]? = some fr.2 := by
  obtain ⟨h1, h2, _, _, new, h5, h6, h7⟩ := Teardown_loop_of_some _ _ _ _ h
  exact ⟨h1, h2, new, h5, h6, h7⟩

/-! ## Execute re-reads the tensors; the backend owns only its scratch arrays -/

/-- C6: for every backend state reached after `InitBuffers` (through any further
calls of `InitBuffers` and `Execute` and any rebinding of tensor data by the caller),
`Execute` gets as far as invoking the entry routine, and the buffer array it passes
holds, in every slot whose descriptor is tensor-backed, the data pointer the tensor
has at that moment, and in every slot whose descriptor is a function output the
pointer the slot held before the call. -/
theorem World.Execute_rereads_tensors (prog : Program) (eval_fn handle : Nat)
    (data : TensorPtr → Ptr) (serial : Nat) (calls : List BackendCall) (w : World)
    (h : World.run (World.lowered prog eval_fn handle data serial)
      (.InitBuffers :: calls) = some w) :
    w.backend.program = prog ∧
    ∃ args : List Ptr,
      w.Execute_args = some args ∧
      w.Execute = some { w with backend := { w.backend with buffers := args } } ∧
      args.length = w.backend.buffers.length ∧
      ∀ (i : Nat) (d : BufferDescriptor), prog.buffers[i]? = some d →
        (∀ t : TensorPtr, d.id = .tensor t → args[i]? = some (w.data t)) ∧
        (∀ k : Nat, d.id = .fn k → args[i]? = w.backend.buffers[i]?) := by
  have hinv := World.inv_backend_run prog _ _ w (World.inv_lowered prog eval_fn handle data serial) h
  have hlen : prog.buffers.length ≤ w.backend.buffers.length := by
    simp only [World.run] at h
    cases hc : (World.lowered prog eval_fn handle data serial).call .InitBuffers with
    | none => rw [hc] at h; simp at h
    | some w2 =>
      rw [hc] at h
      have hinv2 := World.inv_backend_call prog _ w2 _
        (World.inv_lowered prog eval_fn handle data serial) hc
      have hlen2 : prog.buffers.length ≤ w2.backend.buffers.length := by
        simp only [World.call, Option.map_eq_some'] at hc
        obtain ⟨⟨w3, p⟩, hinit, rfl⟩ := hc
        have hw := World.InitBuffers_of_some _ w3 p hinit
        rw [InitBuffers_loop_eq] at hw
        subst hw
        simp [World.lowered, initPtrs_length]
      have key : ∀ (cs : List BackendCall) (u v : World), u.Inv prog →
          prog.buffers.length ≤ u.backend.buffers.length → World.run u cs = some v →
          prog.buffers.length ≤ v.backend.buffers.length := by
        intro cs
        induction cs with
        | nil =>
          intro u v _ hu hr
          simp only [World.run, Option.some.injEq] at hr
          subst hr; exact hu
        | cons c cs ih =>
          intro u v hiu hu hr
          simp only [World.run] at hr
          cases hcu : u.call c with
          | none => rw [hcu] at hr; simp at hr
          | some u2 =>
            rw [hcu] at hr
            have hiu2 := World.inv_backend_call prog u u2 c hiu hcu
            apply ih u2 v hiu2 _ hr
            rcases hiu2.len with he | hge
            · cases c with
              | Rebind t p =>
                simp only [World.call, Option.some.injEq] at hcu
                subst hcu; exact hu
              | Execute =>
                simp only [World.call, World.Execute] at hcu
                cases ho : u.Execute_args with
                | none => rw [ho] at hcu; simp at hcu
                | some out =>
                  rw [ho] at hcu
                  simp only [Option.some.injEq] at hcu
                  subst hcu
                  have := (Execute_loop_of_some _ _ _ _ _ ho).1
                  simp only; omega
              | InitBuffers =>
                simp only [World.call, Option.map_eq_some'] at hcu
                obtain ⟨⟨w3, p⟩, hinit, rfl⟩ := hcu
                have hw := World.InitBuffers_of_some _ w3 p hinit
                rw [InitBuffers_loop_eq] at hw
                subst hw
                simp only [List.length_append]
                omega
            · exact hge
      exact key calls w2 w hinv2 hlen2 h
  refine ⟨hinv.program, ?_⟩
  obtain ⟨out, hout, hl, _, _, hmid⟩ := Execute_loop_spec w.data prog.buffers 0
    w.backend.buffers (by omega)
  have hargs : w.Execute_args = some out := by
    simp only [World.Execute_args, hinv.program]; exact hout
  refine ⟨out, hargs, by simp [World.Execute, hargs], hl, ?_⟩
  intro i d hd
  have := hmid i d hd
  simpa using this

/-- The claim C6 at a program with a tensor slot and a function slot: the tensor is
rebound after `InitBuffers` and again after an `Execute`. -/
theorem World.Execute_rereads_tensors_witness :
    ∃ w : World,
      World.run
        (World.lowered
          { functions := [{ insns := [], inputs := [0], output_size := 4, output_buffer := 1 }],
            buffers := [⟨.tensor 7, 4⟩, ⟨.fn 0, 4⟩] } 1 2 (fun _ => .external 100) 0)
        [.InitBuffers, .Rebind 7 (.external 200), .Execute, .Rebind 7 (.external 300)] =
        some w ∧
      w.backend.buffers = [.external 200, .scratch 0] ∧
      w.data 7 = .external 300 ∧
      ∃ args : List Ptr,
        w.Execute_args = some args ∧
        args[0]? = some (w.data 7) ∧ args[1]? = w.backend.buffers[1]? := by
  refine ⟨_, rfl, rfl, rfl, ?_⟩
  obtain ⟨_, args, hargs, _, _, hslots⟩ := World.Execute_rereads_tensors
    { functions := [{ insns := [], inputs := [0], output_size := 4, output_buffer := 1 }],
      buffers := [⟨.tensor 7, 4⟩, ⟨.fn 0, 4⟩] } 1 2 (fun _ => .external 100) 0
    [.Rebind 7 (.external 200), .Execute, .Rebind 7 (.external 300)] _ rfl
  exact ⟨args, hargs, (hslots 0 ⟨.tensor 7, 4⟩ rfl).1 7 rfl, (hslots 1 ⟨.fn 0, 4⟩ rfl).2 0 rfl⟩

/-! ## Compiling and loading -/

/-- C7, evaluated on the code: when the native compiler fails (`std::system` returns
the nonzero status 256) while the loader finds a module at the object path, with the
entry symbol in it, `CompileAndLoad` raises nothing and returns that module's entry
routine and handle; it answers exactly as it does when the compiler succeeds. -/
theorem CompileAndLoad_ignores_compiler_failure :
    CompileAndLoad
        { fopen_errno := none, system_status := 256, dlopen_handle := some 1,
          dlopen_error := "",
          dlsym := fun _ symbol => if symbol = "gigagrad_main" then some 2 else none,
          dlsym_error := none } = .ok (2, 1) ∧
    CompileAndLoad
        { fopen_errno := none, system_status := 0, dlopen_handle := some 1,
          dlopen_error := "",
          dlsym := fun _ symbol => if symbol = "gigagrad_main" then some 2 else none,
          dlsym_error := none } = .ok (2, 1) :=
  ⟨rfl, rfl⟩

/-- C8: `CompileAndLoad` returns the pair (entry routine, module handle) exactly when
the module load yields that non-null handle and the lookup of `gigagrad_main` in it
yields that non-null routine; it raises an error exactly when the load fails or the
lookup yields null, whether or not the loader has an error message; and
`gigagrad_main` is the name of the routine that `GenerateMain` emits. -/
theorem CompileAndLoad_returns_iff (env : Toolchain) :
    (∀ r : Nat × Nat, CompileAndLoad env = .ok r ↔
      (env.dlopen_handle = some r.2 ∧ env.dlsym r.2 "gigagrad_main" = some r.1)) ∧
    ((∃ e : CompileError, CompileAndLoad env = .error e) ↔
      (env.dlopen_handle = none ∨
        ∃ handle : Nat, env.dlopen_handle = some handle ∧
          env.dlsym handle "gigagrad_main" = none)) ∧
    ((∃ e : CompileError, CompileAndLoad env = .error e) ↔
      ¬ ∃ r : Nat × Nat, CompileAndLoad env = .ok r) ∧
    (∀ (program : Program) (ctx : LowerCtx), ∃ rest : String,
      (GenerateMain program ctx).file =
        ctx.file ++ ("void " ++ "gigagrad_main" ++ "(void **buffers)\n\x7b\n" ++ rest)) := by
  refine ⟨?_, ?_, ?_, ?_⟩
  · rintro ⟨main_fn, handle⟩
    cases h1 : env.dlopen_handle with
    | none => simp [CompileAndLoad, h1]
    | some h =>
      cases h2 : env.dlsym h "gigagrad_main" with
      | none =>
        cases h3 : env.dlsym_error <;> simp only [CompileAndLoad, h1, h2, h3] <;> simp <;>
          intro hh <;> subst hh <;> simp [h2]
      | some m =>
        simp only [CompileAndLoad, h1, h2, Except.ok.injEq, Prod.mk.injEq, Option.some.injEq]
        constructor
        · rintro ⟨rfl, rfl⟩; exact ⟨rfl, h2⟩
        · rintro ⟨rfl, hm⟩
          rw [h2] at hm
          simp only [Option.some.injEq] at hm
          exact ⟨hm, rfl⟩
  · cases h1 : env.dlopen_handle with
    | none => simp [CompileAndLoad, h1]
    | some h =>
      cases h2 : env.dlsym h "gigagrad_main" with
      | none => cases h3 : env.dlsym_error <;> simp [CompileAndLoad, h1, h2, h3]
      | some m => simp [CompileAndLoad, h1, h2]
  · cases h1 : env.dlopen_handle with
    | none => simp [CompileAndLoad, h1]
    | some h =>
      cases h2 : env.dlsym h "gigagrad_main" with
      | none => cases h3 : env.dlsym_error <;> simp [CompileAndLoad, h1, h2, h3]
      | some m => simp [CompileAndLoad, h1, h2]
  · intro program ctx
    refine ⟨"#if __linux__\n" ++
      "    feenableexcept(FE_DIVBYZERO | FE_INVALID | FE_OVERFLOW);\n" ++ "#endif\n" ++
      CallStmt.texts (driverCalls ctx.pfx program.functions 0) ++ "\x7d\n", ?_⟩
    have e : "void gigagrad_main(void **buffers)\n\x7b\n" =
        "void " ++ "gigagrad_main" ++ "(void **buffers)\n\x7b\n" := by decide
    simp only [GenerateMain, LowerCtx.fprintf_fprintf, GenerateMain_calls_eq]
    rw [e]
    simp only [LowerCtx.fprintf, String.append_assoc]

/-! ## Allocation and release of the scratch arrays -/

theorem fnSlots_nodup :
    ∀ (descs : List BufferDescriptor) (ibuff : Nat), (fnSlots descs ibuff).Nodup := by
  intro descs
  induction descs with
  | nil => intro ibuff; simp [fnSlots]
  | cons e rest ih =>
    intro ibuff
    cases hid : e.id with
    | tensor t => simpa [fnSlots, hid] using ih (ibuff + 1)
    | fn k0 =>
      simp only [fnSlots, hid, List.nodup_cons]
      refine ⟨fun hm => ?_, ih (ibuff + 1)⟩
      obtain ⟨j, _, _, hj, _, _⟩ := fnSlots_mem rest (ibuff + 1) ibuff hm
      omega

theorem initAllocs_ptr_nodup :
    ∀ (descs : List BufferDescriptor) (ibuff serial : Nat),
      ((initAllocs descs ibuff serial).map (fun a => a.2.1)).Nodup := by
  intro descs
  induction descs with
  | nil => intro ibuff serial; simp [initAllocs]
  | cons e rest ih =>
    intro ibuff serial
    cases hid : e.id with
    | tensor t => simpa [initAllocs, hid] using ih (ibuff + 1) serial
    | fn k0 =>
      simp only [initAllocs, hid, List.map_cons, List.nodup_cons]
      refine ⟨fun hm => ?_, ih (ibuff + 1) (serial + 1)⟩
      obtain ⟨a, ha, hp⟩ := List.mem_map.1 hm
      obtain ⟨i, d, k, r, hae, _, _, hr, _⟩ := initAllocs_mem rest (ibuff + 1) (serial + 1) a ha
      subst hae
      simp only [Ptr.scratch.injEq] at hp
      omega

/-- Two lists of (slot, pointer) pairs over the same slots, each pairing a slot with
the pointer found in it, are the same list. -/
theorem pairs_eq_of_slots (f : Nat → Option Ptr) :
    ∀ (l1 l2 : List (Nat × Ptr)),
      l1.map (fun x => x.1) = l2.map (fun x => x.1) →
      (∀ x ∈ l1, f x.1 = some x.2) → (∀ x ∈ l2, f x.1 = some x.2) → l1 = l2 := by
  intro l1
  induction l1 with
  | nil =>
    intro l2 h _ _
    cases l2 with
    | nil => rfl
    | cons y l2 => simp at h
  | cons x l1 ih =>
    intro l2 h h1 h2
    cases l2 with
    | nil => simp at h
    | cons y l2 =>
      simp only [List.map_cons, List.cons.injEq] at h
      have hx := h1 x (by simp)
      have hy := h2 y (by simp)
      rw [h.1, hy] at hx
      simp only [Option.some.injEq] at hx
      have hxy : x = y := Prod.ext h.1 hx.symm
      rw [hxy, ih l2 h.2 (fun z hz => h1 z (by simp [hz])) (fun z hz => h2 z (by simp [hz]))]

/-- C10: whatever sequence of `InitBuffers`, `Execute` and rebinding follows
`LowerProgram`, every allocation the backend has made was made by `InitBuffers` for
a slot whose descriptor identity is a function index, and every pointer that the
destructor passes to `delete[]` is taken from such a slot and is an array the
backend allocated for that slot; for a slot whose descriptor is tensor-backed
nothing is allocated and the destructor frees nothing. -/
theorem World.backend_never_owns_tensor_storage (prog : Program) (eval_fn handle : Nat)
    (data : TensorPtr → Ptr) (serial : Nat) (calls : List BackendCall) (w : World)
    (h : World.run (World.lowered prog eval_fn handle data serial) calls = some w) :
    (∀ a ∈ w.allocs, ∃ (d : BufferDescriptor) (k : Nat),
      prog.buffers[a.1]? = some d ∧ d.id = .fn k) ∧
    (∀ w1 : World, w.Teardown = some w1 → ∀ fr ∈ w1.frees,
      (∃ (d : BufferDescriptor) (k : Nat), prog.buffers[fr.1]? = some d ∧ d.id = .fn k) ∧
      (∃ r n : Nat, fr.2 = Ptr.scratch r ∧ (fr.1, fr.2, n) ∈ w.allocs)) ∧
    (∀ (i : Nat) (d : BufferDescriptor) (t : TensorPtr),
      prog.buffers[i]? = some d → d.id = .tensor t →
      (∀ a ∈ w.allocs, a.1 ≠ i) ∧
      (∀ w1 : World, w.Teardown = some w1 → ∀ fr ∈ w1.frees, fr.1 ≠ i)) := by
  have hinv := World.inv_backend_run prog _ _ w (World.inv_lowered prog eval_fn handle data serial) h
  have hallocs : ∀ a ∈ w.allocs, ∃ (d : BufferDescriptor) (k : Nat),
      prog.buffers[a.1]? = some d ∧ d.id = .fn k := by
    intro a ha
    obtain ⟨d, k, _, hd, hk, _⟩ := hinv.allocFn a ha
    exact ⟨d, k, hd, hk⟩
  have hfrees : ∀ w1 : World, w.Teardown = some w1 → ∀ fr ∈ w1.frees,
      (∃ (d : BufferDescriptor) (k : Nat), prog.buffers[fr.1]? = some d ∧ d.id = .fn k) ∧
      (∃ r n : Nat, fr.2 = Ptr.scratch r ∧ (fr.1, fr.2, n) ∈ w.allocs) := by
    intro w1 ht fr hfr
    obtain ⟨_, _, new, hnew, hslots, hptr⟩ := World.Teardown_of_some w w1 ht
    rw [hnew, hinv.frees, List.nil_append] at hfr
    have hmem : fr.1 ∈ fnSlots prog.buffers 0 := by
      rw [← hinv.program, ← hslots]
      exact List.mem_map.2 ⟨fr, hfr, rfl⟩
    obtain ⟨j, d, k, hj, hd, hk⟩ := fnSlots_mem _ _ _ hmem
    rw [Nat.zero_add] at hj
    rw [← hj] at hd
    have hown := hinv.owned fr.1 d k fr.2 hd hk (hptr fr hfr)
    obtain ⟨_, _, r, _, _, hr, _⟩ := hinv.allocFn _ hown
    exact ⟨⟨d, k, hd, hk⟩, r, d.size_elts, hr, hown⟩
  refine ⟨hallocs, hfrees, ?_⟩
  intro i d t hd ht
  refine ⟨fun a ha hai => ?_, fun w1 hw1 fr hfr hfi => ?_⟩
  · obtain ⟨e, k, he, hk⟩ := hallocs a ha
    rw [hai, hd] at he
    simp only [Option.some.injEq] at he
    rw [← he, ht] at hk
    cases hk
  · obtain ⟨⟨e, k, he, hk⟩, _⟩ := hfrees w1 hw1 fr hfr
    rw [hfi, hd] at he
    simp only [Option.some.injEq] at he
    rw [← he, ht] at hk
    cases hk

/-- The claim C10 at a program with a tensor slot and a function slot, after
`InitBuffers` and one `Execute`: slot 1 is allocated and freed, slot 0 is not. -/
theorem World.backend_never_owns_tensor_storage_witness :
    ∃ w : World,
      World.run
        (World.lowered
          { functions := [{ insns := [], inputs := [0], output_size := 4, output_buffer := 1 }],
            buffers := [⟨.tensor 7, 4⟩, ⟨.fn 0, 4⟩] } 1 2 (fun _ => .external 100) 0)
        [.InitBuffers, .Execute] = some w ∧
      w.allocs = [(1, .scratch 0, 4)] ∧
      (w.Teardown.map (fun w1 => w1.frees)) = some [(1, .scratch 0)] ∧
      (∀ a ∈ w.allocs, a.1 ≠ 0) := by
  refine ⟨_, rfl, rfl, rfl, ?_⟩
  exact ((World.backend_never_owns_tensor_storage
    { functions := [{ insns := [], inputs := [0], output_size := 4, output_buffer := 1 }],
      buffers := [⟨.tensor 7, 4⟩, ⟨.fn 0, 4⟩] } 1 2 (fun _ => .external 100) 0
    [.InitBuffers, .Execute] _ rfl).2.2 0 ⟨.tensor 7, 4⟩ 7 rfl rfl).1

/-- C9 fails as stated: on the program made of one pushed function, two calls of
`InitBuffers` allocate the function's output buffer twice, and the destructor frees
the first array only; the second one is never freed. -/
theorem World.second_InitBuffers_leaks :
    (Program.empty.PushFunction (FunctionBuilder.new [4] 0)).bind (fun prog =>
      (World.run (World.lowered prog 1 2 (fun _ => .external 100) 0)
        [.InitBuffers, .InitBuffers]).bind (fun w =>
          w.Teardown.map (fun w1 => (w1.allocs, w1.frees)))) =
      some ([(0, .scratch 0, 4), (0, .scratch 1, 4)], [(0, .scratch 0)]) := by
  decide

/-- C9, amended: when `InitBuffers` is called exactly once, as the first call after
`LowerProgram`, and returns, then every later sequence of `Execute` calls and
rebindings runs, the destructor runs, each function-output buffer of the Program
has been allocated exactly once (the allocations are those of the function-output
slots, each slot once, with the slot's element count, as pairwise different arrays),
and the destructor frees exactly these allocations, each once. -/
theorem World.scratch_allocated_and_freed_once (prog : Program) (eval_fn handle : Nat)
    (data : TensorPtr → Ptr) (serial : Nat) (w1 : World) (out : Ptr)
    (rest : List BackendCall)
    (hinit : (World.lowered prog eval_fn handle data serial).InitBuffers = some (w1, out))
    (hrest : ∀ c ∈ rest, c.isInitBuffers = false) :
    ∃ w2 w3 : World,
      World.run w1 rest = some w2 ∧ w2.Teardown = some w3 ∧
      w3.allocs.map (fun a => a.1) = fnSlots prog.buffers 0 ∧
      (fnSlots prog.buffers 0).Nodup ∧
      (∀ a ∈ w3.allocs, ∃ (d : BufferDescriptor) (k : Nat),
        prog.buffers[a.1]? = some d ∧ d.id = .fn k ∧ a.2.2 = d.size_elts) ∧
      (w3.allocs.map (fun a => a.2.1)).Nodup ∧
      w3.frees = w3.allocs.map (fun a => (a.1, a.2.1)) := by
  have hw1 := World.InitBuffers_of_some _ w1 out hinit
  rw [InitBuffers_loop_eq] at hw1
  simp only [World.lowered, List.nil_append] at hw1
  have hslot : ∀ a ∈ initAllocs prog.buffers 0 serial,
      (initPtrs data prog.buffers serial)[a.1]? = some a.2.1 := by
    intro a ha
    obtain ⟨i, d, k, r, hae, hd, hk, _, hr⟩ := initAllocs_mem _ _ _ _ ha
    subst hae
    rw [Nat.zero_add, initPtrs_getElem? _ _ _ _ _ hd, hk, hr]
  have key : ∀ (cs : List BackendCall) (u : World),
      (∀ c ∈ cs, c.isInitBuffers = false) →
      u.backend.program = prog → u.backend.buffers.length = prog.buffers.length →
      u.allocs = initAllocs prog.buffers 0 serial → u.frees = [] →
      (∀ a ∈ u.allocs, u.backend.buffers[a.1]? = some a.2.1) →
      ∃ v : World, World.run u cs = some v ∧
        v.backend.program = prog ∧ v.backend.buffers.length = prog.buffers.length ∧
        v.allocs = initAllocs prog.buffers 0 serial ∧ v.frees = [] ∧
        (∀ a ∈ v.allocs, v.backend.buffers[a.1]? = some a.2.1) := by
    intro cs
    induction cs with
    | nil => intro u _ h1 h2 h3 h4 h5; exact ⟨u, rfl, h1, h2, h3, h4, h5⟩
    | cons c cs ih =>
      intro u hcs h1 h2 h3 h4 h5
      have hcs2 : ∀ c ∈ cs, c.isInitBuffers = false := fun c hc => hcs c (by simp [hc])
      cases c with
      | InitBuffers => exact absurd (hcs .InitBuffers (by simp)) (by simp [BackendCall.isInitBuffers])
      | Rebind t p =>
        simp only [World.run, World.call]
        exact ih _ hcs2 h1 h2 h3 h4 h5
      | Execute =>
        obtain ⟨args, hargs, hl, _, _, hmid⟩ := Execute_loop_spec u.data prog.buffers 0
          u.backend.buffers (by omega)
        have hex : u.Execute_args = some args := by
          simp only [World.Execute_args, h1]; exact hargs
        simp only [World.run, World.call, World.Execute, hex]
        refine ih _ hcs2 h1 ?_ h3 h4 ?_
        · show args.length = prog.buffers.length
          omega
        intro a ha
        have ha2 : a ∈ initAllocs prog.buffers 0 serial := by
          have : a ∈ u.allocs := ha
          rwa [h3] at this
        obtain ⟨i, d, k, r, hae, hd, hk, _, _⟩ := initAllocs_mem _ _ _ _ ha2
        have := (hmid i d hd).2 k hk
        have hu := h5 a ha
        subst hae
        simp only at this hu ⊢
        rw [this]
        exact hu
  obtain ⟨w2, hrun, hp, hlen, hal, hfr, hown⟩ := key rest w1 hrest
    (by rw [hw1]) (by rw [hw1]; simp [initPtrs_length]) (by rw [hw1]) (by rw [hw1])
    (by rw [hw1]; exact hslot)
  obtain ⟨w3, hw3⟩ := Teardown_loop_isSome w2.backend.program.buffers 0
    { w2 with closed := w2.closed ++ [w2.backend.handle] } (by rw [hp]; simp only; omega)
  have ht : w2.Teardown = some w3 := hw3
  obtain ⟨hb, ha, new, hnew, hslots, hptr⟩ := World.Teardown_of_some w2 w3 ht
  refine ⟨w2, w3, hrun, ht, ?_, fnSlots_nodup _ _, ?_, ?_, ?_⟩
  · rw [ha, hal, initAllocs_slots]
  · intro a haa
    rw [ha, hal] at haa
    obtain ⟨i, d, k, r, hae, hd, hk, _, _⟩ := initAllocs_mem _ _ _ _ haa
    subst hae
    exact ⟨d, k, by simpa using hd, hk, rfl⟩
  · rw [ha, hal]
    exact initAllocs_ptr_nodup _ _ _
  · rw [hnew, hfr, List.nil_append, ha]
    apply pairs_eq_of_slots (fun i => w2.backend.buffers[i]?) _ _ _ hptr
    · intro x hx
      obtain ⟨a, haa, rfl⟩ := List.mem_map.1 hx
      exact hown a haa
    · rw [hslots, hp, hal, List.map_map]
      exact (initAllocs_slots prog.buffers 0 serial).symm

/-- The amended claim C9 at the program made of a tensor and one pushed function,
with an `Execute`, a rebinding and another `Execute` after the one `InitBuffers`. -/
theorem World.scratch_allocated_and_freed_once_witness :
    ∃ (w1 : World) (out : Ptr),
      (World.lowered
        { functions := [{ insns := [], inputs := [0], output_size := 4, output_buffer := 1 }],
          buffers := [⟨.tensor 7, 4⟩, ⟨.fn 0, 4⟩] } 1 2 (fun _ => .external 100) 0).InitBuffers =
        some (w1, out) ∧
      (∀ c ∈ [BackendCall.Execute, .Rebind 7 (.external 200), .Execute],
        c.isInitBuffers = false) ∧
      ∃ w2 w3 : World,
        World.run w1 [.Execute, .Rebind 7 (.external 200), .Execute] = some w2 ∧
        w2.Teardown = some w3 ∧
        w3.allocs.map (fun a => a.1) =
          fnSlots [(⟨.tensor 7, 4⟩ : BufferDescriptor), ⟨.fn 0, 4⟩] 0 ∧
        (fnSlots [(⟨.tensor 7, 4⟩ : BufferDescriptor), ⟨.fn 0, 4⟩] 0).Nodup ∧
        (∀ a ∈ w3.allocs, ∃ (d : BufferDescriptor) (k : Nat),
          [(⟨.tensor 7, 4⟩ : BufferDescriptor), ⟨.fn 0, 4⟩][a.1]? = some d ∧
            d.id = .fn k ∧ a.2.2 = d.size_elts) ∧
        (w3.allocs.map (fun a => a.2.1)).Nodup ∧
        w3.frees = w3.allocs.map (fun a => (a.1, a.2.1)) :=
  ⟨_, _, rfl, by decide,
    World.scratch_allocated_and_freed_once
      { functions := [{ insns := [], inputs := [0], output_size := 4, output_buffer := 1 }],
        buffers := [⟨.tensor 7, 4⟩, ⟨.fn 0, 4⟩] } 1 2 (fun _ => .external 100) 0 _ _
      [.Execute, .Rebind 7 (.external 200), .Execute] rfl (by decide)⟩

/-! ## One pass of InitBuffers -/

/-- C11: for every Program built through its member functions that has at least one
function, a single `InitBuffers` on a freshly lowered backend returns; the runtime
pointer array then has exactly one entry per buffer descriptor, in table order; the
entry of a tensor-backed descriptor is that tensor's data pointer, the entry of a
function-output descriptor is a fresh array allocated with exactly `size_elts`
elements (one allocation per such descriptor, all different); and the value returned
is the entry at the last function's `output_buffer`. -/
theorem World.InitBuffers_fills_table (shapeOf : TensorPtr → Shape)
    (calls : List ProgramCall) (prog : Program) (eval_fn handle : Nat)
    (data : TensorPtr → Ptr) (serial : Nat)
    (hprog : Program.run shapeOf Program.empty calls = some prog)
    (hfn : prog.functions ≠ []) :
    ∃ (w1 : World) (out : Ptr) (last : FunctionBuilder),
      (World.lowered prog eval_fn handle data serial).InitBuffers = some (w1, out) ∧
      w1.backend.program = prog ∧
      w1.backend.buffers.length = prog.buffers.length ∧
      (∀ (i : Nat) (d : BufferDescriptor), prog.buffers[i]? = some d →
        (∀ t : TensorPtr, d.id = .tensor t → w1.backend.buffers[i]? = some (data t)) ∧
        (∀ k : Nat, d.id = .fn k → ∃ r : Nat,
          w1.backend.buffers[i]? = some (.scratch r) ∧
          (i, Ptr.scratch r, d.size_elts) ∈ w1.allocs)) ∧
      w1.allocs.map (fun a => a.1) = fnSlots prog.buffers 0 ∧
      (w1.allocs.map (fun a => a.2.1)).Nodup ∧
      prog.functions.getLast? = some last ∧
      w1.backend.buffers[last.output_buffer]? = some out := by
  have hinv := Program.inv_run shapeOf calls _ prog (Program.inv_empty shapeOf) hprog
  obtain ⟨last, hlast⟩ : ∃ last, prog.functions.getLast? = some last := by
    cases h : prog.functions.getLast? with
    | none => exact absurd (List.getLast?_eq_none_iff.1 h) hfn
    | some f => exact ⟨f, rfl⟩
  have hlast2 : prog.functions[prog.functions.length - 1]? = some last := by
    rw [← List.getLast?_eq_getElem?]; exact hlast
  obtain ⟨dl, hdl, _, _⟩ := hinv.outputs _ last hlast2
  have hob : last.output_buffer < prog.buffers.length := by
    by_contra hc
    rw [List.getElem?_eq_none (by omega)] at hdl
    exact absurd hdl (by simp)
  have hloop := InitBuffers_loop_eq prog.buffers 0 (World.lowered prog eval_fn handle data serial)
  simp only [World.lowered, List.nil_append] at hloop
  have hlen : (initPtrs data prog.buffers serial).length = prog.buffers.length :=
    initPtrs_length _ _ _
  have hout : ∃ out, (initPtrs data prog.buffers serial)[last.output_buffer]? = some out := by
    rw [List.getElem?_eq_getElem (by omega)]; exact ⟨_, rfl⟩
  obtain ⟨out, hout⟩ := hout
  refine ⟨{ backend := { program := prog, buffers := initPtrs data prog.buffers serial,
                         eval_fn := eval_fn, handle := handle },
            data := data, nextSerial := serial + fnCount prog.buffers,
            allocs := initAllocs prog.buffers 0 serial, frees := [], closed := [] },
    out, last, ?_, ?_, ?_, ?_, ?_, ?_, hlast, ?_⟩
  · unfold World.InitBuffers
    simp only [World.lowered, hloop, hlast, hout]
  · rfl
  · exact hlen
  · intro i d hd
    have hp := initPtrs_getElem? data prog.buffers serial i d hd
    refine ⟨fun t ht => ?_, fun k hk => ?_⟩
    · show (initPtrs data prog.buffers serial)[i]? = some (data t)
      rw [hp, ht]
    · refine ⟨serial + fnCount (prog.buffers.take i), ?_, ?_⟩
      · show (initPtrs data prog.buffers serial)[i]? = _
        rw [hp, hk]
      · have := initAllocs_of_fn prog.buffers 0 serial i d k hd hk
        rw [Nat.zero_add] at this
        exact this
  · exact initAllocs_slots _ _ _
  · exact initAllocs_ptr_nodup _ _ _
  · exact hout

/-- The claim C11 at the program made of a tensor and one pushed function. -/
theorem World.InitBuffers_fills_table_witness :
    Program.run (fun _ => [2, 2]) Program.empty
        [.AddBufferTensor 7,
         .PushFunction { insns := [], inputs := [0], output_size := 4, output_buffer := 9 }] =
      some { functions := [{ insns := [], inputs := [0], output_size := 4, output_buffer := 1 }],
             buffers := [⟨.tensor 7, 4⟩, ⟨.fn 0, 4⟩] } ∧
    ∃ (w1 : World) (out : Ptr),
      (World.lowered
        { functions := [{ insns := [], inputs := [0], output_size := 4, output_buffer := 1 }],
          buffers := [⟨.tensor 7, 4⟩, ⟨.fn 0, 4⟩] } 1 2 (fun _ => .external 100) 0).InitBuffers =
        some (w1, out) ∧
      w1.backend.buffers.length = 2 ∧
      w1.allocs.map (fun a => a.1) =
        fnSlots [(⟨.tensor 7, 4⟩ : BufferDescriptor), ⟨.fn 0, 4⟩] 0 := by
  refine ⟨by decide, ?_⟩
  obtain ⟨w1, out, _, h1, _, h3, _, h5, _⟩ := World.InitBuffers_fills_table (fun _ => [2, 2])
    [.AddBufferTensor 7,
     .PushFunction { insns := [], inputs := [0], output_size := 4, output_buffer := 9 }]
    { functions := [{ insns := [], inputs := [0], output_size := 4, output_buffer := 1 }],
      buffers := [⟨.tensor 7, 4⟩, ⟨.fn 0, 4⟩] } 1 2 (fun _ => .external 100) 0
    (by decide) (by decide)
  exact ⟨w1, out, h1, h3, h5⟩

/-! ## The emitted text, statement by statement -/

/-- The text `Lower_ScalarC` writes for an instruction is the text of the statement
`stmtOf` reads from it. -/
theorem Lower_ScalarC_insn_file (cty : String) (ctx : LowerCtx) (insn : Instruction) (i : Nat) :
    (Lower_ScalarC_insn cty ctx insn i).file =
      ctx.file ++ CStmt.texts ctx.indentation [stmtOf cty insn i] := by
  have s1 : " v" = " " ++ "v" := by decide
  have s2 : ");\n" = ")" ++ ";\n" := by decide
  have s3 : "(v" = "(" ++ "v" := by decide
  cases insn with
  | LoadIntImmediateInsn value =>
    have e1 : "int64_t v" = "int64_t" ++ (" " ++ "v") := by decide
    simp only [Lower_ScalarC_insn, LowerCtx.fprintf, stmtOf, CStmt.texts, CStmt.text,
      CExpr.text, CIdent.text, e1, String.append_assoc, String.append_empty]
  | IntArithmeticInsn op x y =>
    have e1 : "int64_t v" = "int64_t" ++ (" " ++ "v") := by decide
    have e2 : " = v" = " = " ++ "v" := by decide
    simp only [Lower_ScalarC_insn, LowerCtx.fprintf, stmtOf, CStmt.texts, CStmt.text,
      CExpr.text, CIdent.text, e1, e2, s1, String.append_assoc, String.append_empty]
  | BeginLoopInsn range stride =>
    have e1 : "for(int64_t v" = "for(int64_t " ++ "v" := by decide
    have e2 : " = 0; v" = " = 0; " ++ "v" := by decide
    have e3 : "; v" = "; " ++ "v" := by decide
    simp only [Lower_ScalarC_insn, LowerCtx.fprintf, stmtOf, CStmt.texts, CStmt.text,
      CExpr.text, CIdent.text, e1, e2, e3, String.append_assoc, String.append_empty]
  | EndLoopInsn =>
    simp only [Lower_ScalarC_insn, LowerCtx.fprintf, stmtOf, CStmt.texts, CStmt.text,
      String.append_assoc, String.append_empty]
  | LoadInsn input idx =>
    have e1 : " = i" = " = " ++ "i" := by decide
    have e2 : "[v" = "[" ++ "v" := by decide
    have e3 : "];\n" = "]" ++ ";\n" := by decide
    simp only [Lower_ScalarC_insn, LowerCtx.fprintf, stmtOf, CStmt.texts, CStmt.text,
      CExpr.text, CIdent.text, ParamName.text, e1, e2, e3, s1, String.append_assoc,
      String.append_empty]
  | StoreInsn offset value =>
    have e1 : "output[v" = "output" ++ ("[" ++ "v") := by decide
    have e2 : "] = v" = "]" ++ (" " ++ ("=" ++ (" " ++ "v"))) := by decide
    simp only [Lower_ScalarC_insn, LowerCtx.fprintf, stmtOf, CStmt.texts, CStmt.text,
      CExpr.text, CIdent.text, ParamName.text, e1, e2, String.append_assoc,
      String.append_empty]
  | LoadImmediateInsn value =>
    simp only [Lower_ScalarC_insn, LowerCtx.fprintf, stmtOf, CStmt.texts, CStmt.text,
      CExpr.text, CIdent.text, s1, String.append_assoc, String.append_empty]
  | UnaryInsn type x =>
    simp only [Lower_ScalarC_insn, LowerCtx.fprintf, stmtOf, CStmt.texts, CStmt.text,
      CExpr.text, CIdent.text, s1, s2, s3, String.append_assoc, String.append_empty]
  | BinaryInsn type x y =>
    have e1 : " = (" = " = " ++ "(" := by decide
    have e2 : ")(v" = ")(" ++ "v" := by decide
    have e3 : " = v" = " = " ++ "v" := by decide
    have e4 : " > v" = " " ++ (">" ++ (" " ++ "v")) := by decide
    have e5 : " ? v" = " ? " ++ "v" := by decide
    have e6 : " : v" = " : " ++ "v" := by decide
    have e7 : " = pow(v" = " = " ++ ("pow" ++ ("(" ++ "v")) := by decide
    have e8 : ", v" = ", " ++ "v" := by decide
    cases type <;>
      simp [Lower_ScalarC_insn, LowerCtx.fprintf, stmtOf, CStmt.texts, CStmt.text,
        CExpr.text, CIdent.text, BinaryOpType.infixText, e1, e2, e3, e4, e5, e6, e7, e8, s1, s2,
        String.append_assoc, -String.reduceAppend]
  | AccumulateInsn type accumulator x =>
    have e1 : " = v" = " " ++ ("=" ++ (" " ++ "v")) := by decide
    have e4 : " > v" = " " ++ (">" ++ (" " ++ "v")) := by decide
    have e5 : " ? v" = " ? " ++ "v" := by decide
    have e6 : " : v" = " : " ++ "v" := by decide
    have e7 : " += v" = " " ++ ("+=" ++ (" " ++ "v")) := by decide
    cases type <;>
      simp [Lower_ScalarC_insn, LowerCtx.fprintf, stmtOf, CStmt.texts, CStmt.text,
        CExpr.text, CIdent.text, e1, e4, e5, e6, e7, String.append_assoc, -String.reduceAppend]

theorem Lower_ScalarC_insn_indentation (cty : String) (ctx : LowerCtx) (insn : Instruction)
    (i : Nat) :
    (Lower_ScalarC_insn cty ctx insn i).indentation =
      (stmtOf cty insn i).indentAfter ctx.indentation := by
  cases insn with
  | BinaryInsn type x y =>
    cases type <;> simp [Lower_ScalarC_insn, LowerCtx.fprintf, stmtOf, CStmt.indentAfter]
  | AccumulateInsn type accumulator x =>
    cases type <;> simp [Lower_ScalarC_insn, LowerCtx.fprintf, stmtOf, CStmt.indentAfter]
  | _ => simp [Lower_ScalarC_insn, LowerCtx.fprintf, stmtOf, CStmt.indentAfter]

theorem CStmt.texts_cons (w : Int) (s : CStmt) (rest : List CStmt) :
    CStmt.texts w (s :: rest) = CStmt.texts w [s] ++ CStmt.texts (s.indentAfter w) rest := by
  cases s <;> simp [CStmt.texts, CStmt.indentAfter, String.append_assoc]

theorem Lower_ScalarC_insns_file (cty : String) :
    ∀ (insns : List Instruction) (i : Nat) (ctx : LowerCtx),
      (Lower_ScalarC_insns cty insns i ctx).file =
        ctx.file ++ CStmt.texts ctx.indentation (stmtsOf cty insns i) := by
  intro insns
  induction insns with
  | nil => intro i ctx; simp [Lower_ScalarC_insns, stmtsOf, CStmt.texts]
  | cons insn rest ih =>
    intro i ctx
    simp only [Lower_ScalarC_insns, stmtsOf]
    rw [ih, Lower_ScalarC_insn_file, Lower_ScalarC_insn_indentation,
      CStmt.texts_cons ctx.indentation (stmtOf cty insn i) (stmtsOf cty rest (i + 1)),
      String.append_assoc]

/-- The body of an emitted routine is the text of the statements read from its
instructions, starting at indentation 4. -/
theorem routineBody_eq_texts (cty pfx : String) (fn : FunctionBuilder) :
    routineBody cty pfx fn = CStmt.texts 4 (stmtsOf cty fn.insns 0) := by
  unfold routineBody
  rw [Lower_ScalarC_insns_file]
  simp

theorem blocksOf_ne_nil (m : Nat) (scopes : List (List Nat)) (h : scopes ≠ []) :
    blocksOf m scopes ≠ [] := by
  cases scopes with
  | nil => exact absurd rfl h
  | cons f fs => cases fs <;> simp [blocksOf]

theorem mem_blocksOf_v (m : Nat) :
    ∀ (scopes : List (List Nat)) (k : Nat), k ∈ scopes.flatten →
      CIdent.v k ∈ (blocksOf m scopes).flatten := by
  intro scopes
  induction scopes with
  | nil => intro k h; simp at h
  | cons f fs ih =>
    intro k h
    cases fs with
    | nil =>
      simp only [List.flatten_cons, List.flatten_nil, List.append_nil] at h
      simp only [blocksOf, List.flatten_cons, List.flatten_nil, List.append_nil,
        List.mem_append, List.mem_map]
      exact Or.inl ⟨k, h, rfl⟩
    | cons g gs =>
      simp only [List.flatten_cons, List.mem_append] at h
      simp only [blocksOf, List.flatten_cons, List.mem_append, List.mem_map]
      rcases h with h | h
      · exact Or.inl ⟨k, h, rfl⟩
      · right
        have := ih k (by simpa using h)
        simpa using this

theorem mem_blocksOf_param (m : Nat) :
    ∀ (scopes : List (List Nat)) (x : CIdent), scopes ≠ [] → x ∈ paramIdents m →
      x ∈ (blocksOf m scopes).flatten := by
  intro scopes
  induction scopes with
  | nil => intro x h; exact absurd rfl h
  | cons f fs ih =>
    intro x _ hx
    cases fs with
    | nil => simp [blocksOf, hx]
    | cons g gs =>
      simp only [blocksOf, List.flatten_cons, List.mem_append]
      exact Or.inr (ih x (by simp) hx)

theorem blocksOf_pushInner (m k : Nat) (scopes : List (List Nat)) (h : scopes ≠ []) :
    pushInner (CIdent.v k) (blocksOf m scopes) = blocksOf m (pushInner k scopes) := by
  cases scopes with
  | nil => exact absurd rfl h
  | cons f fs => cases fs <;> simp [blocksOf, pushInner]

theorem blocksOf_open (m i : Nat) (scopes : List (List Nat)) (h : scopes ≠ []) :
    [CIdent.v i] :: blocksOf m scopes = blocksOf m ([i] :: scopes) := by
  cases scopes with
  | nil => exact absurd rfl h
  | cons f fs => simp [blocksOf]

theorem pushInner_ne_nil {α : Type} (x : α) (l : List (List α)) : pushInner x l ≠ [] := by
  cases l <;> simp [pushInner]

/-- When every operand of an instruction sequence is the position of a value-yielding
instruction in an open scope (and the loops nest, and the loads name declared inputs),
every identifier of the statements read from it is declared in an open block. -/
theorem identifiersDeclared_of_operandsInScope (cty : String) (m : Nat) :
    ∀ (insns : List Instruction) (scopes : List (List Nat)) (i : Nat), scopes ≠ [] →
      operandsInScope false m scopes i insns = true →
      identifiersDeclared (blocksOf m scopes) (stmtsOf cty insns i) = true := by
  intro insns
  induction insns with
  | nil => intro scopes i _ _; rfl
  | cons insn rest ih =>
    intro scopes i hne h
    simp only [operandsInScope, Bool.and_eq_true, List.all_eq_true, decide_eq_true_eq] at h
    obtain ⟨⟨hops, hin⟩, hrest⟩ := h
    have hv := mem_blocksOf_v m scopes
    have hp := fun x => mem_blocksOf_param m scopes x hne
    have hpush : operandsInScope false m (pushInner i scopes) (i + 1) rest = true →
        identifiersDeclared (pushInner (.v i) (blocksOf m scopes))
          (stmtsOf cty rest (i + 1)) = true := by
      intro hr
      rw [blocksOf_pushInner m i scopes hne]
      exact ih _ _ (pushInner_ne_nil _ _) hr
    cases insn with
    | LoadIntImmediateInsn value =>
      simp only [scopesAfter, Instruction.yieldsValue, Bool.or_true, if_true] at hrest
      simp only [stmtsOf, stmtOf, identifiersDeclared, CExpr.uses, List.all_nil, Bool.true_and]
      exact hpush hrest
    | IntArithmeticInsn op x y =>
      simp only [scopesAfter, Instruction.yieldsValue, Bool.or_true, if_true] at hrest
      simp only [Instruction.operands] at hops
      simp only [stmtsOf, stmtOf, identifiersDeclared, CExpr.uses, Bool.and_eq_true,
        List.all_eq_true, decide_eq_true_eq]
      refine ⟨fun z hz => ?_, hpush hrest⟩
      simp at hz
      rcases hz with rfl | rfl
      · exact hv x (hops x (by simp))
      · exact hv y (hops y (by simp))
    | BeginLoopInsn range stride =>
      simp only [scopesAfter] at hrest
      simp only [stmtsOf, stmtOf, identifiersDeclared]
      rw [blocksOf_open m i scopes hne]
      exact ih _ _ (by simp) hrest
    | EndLoopInsn =>
      simp only [stmtsOf, stmtOf, identifiersDeclared]
      match scopes, hrest with
      | a :: f :: fs, hrest =>
        simp only [scopesAfter, Bool.false_eq_true, if_false] at hrest
        simp only [blocksOf]
        have hb : blocksOf m (f :: fs) ≠ [] := blocksOf_ne_nil m _ (by simp)
        cases hbl : blocksOf m (f :: fs) with
        | nil => exact absurd hbl hb
        | cons g gs =>
          simp only
          rw [← hbl]
          exact ih _ _ (by simp) hrest
      | [a], hrest => simp [scopesAfter] at hrest
      | [], hrest => simp [scopesAfter] at hrest
    | LoadInsn input idx =>
      simp only [scopesAfter, Instruction.yieldsValue, Bool.or_true, if_true] at hrest
      simp only [Instruction.operands] at hops
      simp only [Instruction.inputDeclared, decide_eq_true_eq] at hin
      simp only [stmtsOf, stmtOf, identifiersDeclared, CExpr.uses, Bool.and_eq_true,
        List.all_eq_true, decide_eq_true_eq]
      refine ⟨fun z hz => ?_, hpush hrest⟩
      simp at hz
      rcases hz with rfl | rfl
      · exact hp _ (by simp [paramIdents, hin])
      · exact hv idx (hops idx (by simp))
    | StoreInsn offset value =>
      simp only [scopesAfter, Instruction.yieldsValue, Bool.or_false, Bool.false_eq_true,
        if_false] at hrest
      simp only [Instruction.operands] at hops
      simp only [stmtsOf, stmtOf, identifiersDeclared, CExpr.uses, Bool.and_eq_true,
        List.all_eq_true, decide_eq_true_eq]
      refine ⟨fun z hz => ?_, ih _ _ hne hrest⟩
      simp at hz
      rcases hz with rfl | rfl | rfl
      · exact hp _ (by simp [paramIdents])
      · exact hv offset (hops offset (by simp))
      · exact hv value (hops value (by simp))
    | LoadImmediateInsn value =>
      simp only [scopesAfter, Instruction.yieldsValue, Bool.or_true, if_true] at hrest
      simp only [stmtsOf, stmtOf, identifiersDeclared, CExpr.uses, List.all_nil, Bool.true_and]
      exact hpush hrest
    | UnaryInsn type x =>
      simp only [scopesAfter, Instruction.yieldsValue, Bool.or_true, if_true] at hrest
      simp only [Instruction.operands] at hops
      simp only [stmtsOf, stmtOf, identifiersDeclared, CExpr.uses, Bool.and_eq_true,
        List.all_eq_true, decide_eq_true_eq]
      refine ⟨fun z hz => ?_, hpush hrest⟩
      simp at hz
      subst hz
      exact hv x (hops x (by simp))
    | BinaryInsn type x y =>
      simp only [scopesAfter, Instruction.yieldsValue, Bool.or_true, if_true] at hrest
      simp only [Instruction.operands] at hops
      have hx := hv x (hops x (by simp))
      have hy := hv y (hops y (by simp))
      cases type <;>
        simp only [stmtsOf, stmtOf, identifiersDeclared, CExpr.uses, Bool.and_eq_true,
          List.all_eq_true, decide_eq_true_eq] <;>
        refine ⟨fun z hz => ?_, hpush hrest⟩ <;>
        simp at hz <;>
        casesm* _ ∨ _ <;> subst_vars <;> assumption
    | AccumulateInsn type accumulator x =>
      simp only [scopesAfter, Instruction.yieldsValue, Bool.or_false, Bool.false_eq_true,
        if_false] at hrest
      simp only [Instruction.operands] at hops
      have ha := hv accumulator (hops accumulator (by simp))
      have hx := hv x (hops x (by simp))
      cases type <;>
        simp only [stmtsOf, stmtOf, identifiersDeclared, CExpr.uses, Bool.and_eq_true,
          List.all_eq_true, decide_eq_true_eq] <;>
        refine ⟨fun z hz => ?_, ih _ _ hne hrest⟩ <;>
        simp at hz <;>
        casesm* _ ∨ _ <;> subst_vars <;> assumption

/-! ## Identifiers of an emitted routine are declared before use -/

set_option maxRecDepth 100000 in
/-- C17 fails as stated: in the sequence IntImmediate, Immediate, Store, Unary(exp)
whose last operand is the position of the Store, every operand is an earlier position
of the same scope, yet the emitted text `float v3 = exp(v2);` uses `v2`, which no
statement declares, because a StoreInsn declares no variable. -/
theorem store_position_is_not_declared :
    operandsInScope true 0 [[]] 0
        [.LoadIntImmediateInsn 0, .LoadImmediateInsn (.finite false 1 0), .StoreInsn 0 1,
         .UnaryInsn .EXP 2] = true ∧
    routineBody "float" "gg_scalar"
        { insns := [.LoadIntImmediateInsn 0, .LoadImmediateInsn (.finite false 1 0),
                    .StoreInsn 0 1, .UnaryInsn .EXP 2],
          inputs := [], output_size := 1, output_buffer := 0 } =
      "    int64_t v0 = 0;\n    float v1 = 1.000000;\n    output[v0] = v1;\n" ++
      "    float v3 = exp(v2);\n" ∧
    identifiersDeclared [paramIdents 0]
        (stmtsOf "float"
          [.LoadIntImmediateInsn 0, .LoadImmediateInsn (.finite false 1 0), .StoreInsn 0 1,
           .UnaryInsn .EXP 2] 0) = false := by
  decide

/-- C17, amended: for every instruction sequence whose loops are well nested, in which
every operand is the position of an earlier instruction that yields a value (any
but EndLoopInsn, StoreInsn and AccumulateInsn) within the same or an enclosing
still-open loop scope, and whose LoadInsn input indices are below the number of
declared inputs, the routine body is the text of a statement list in which every
identifier used (each `v<k>` and each parameter `i<j>` or `output`) is declared
earlier, in a block still open at the point of use; the outermost block holds
exactly the parameters the routine declares. -/
theorem routine_identifiers_declared (cty pfx : String) (fn : FunctionBuilder)
    (h : operandsInScope false fn.inputs.length [[]] 0 fn.insns = true) :
    routineBody cty pfx fn = CStmt.texts 4 (stmtsOf cty fn.insns 0) ∧
    identifiersDeclared [paramIdents fn.inputs.length] (stmtsOf cty fn.insns 0) = true ∧
    paramIdents fn.inputs.length =
      (routineParams cty fn).map (fun d => CIdent.param d.name) := by
  refine ⟨routineBody_eq_texts cty pfx fn, ?_, ?_⟩
  · have := identifiersDeclared_of_operandsInScope cty fn.inputs.length fn.insns [[]] 0
      (by simp) h
    simpa [blocksOf] using this
  · simp [paramIdents, routineParams, Function.comp_def]

set_option maxRecDepth 100000 in
/-- The amended claim C17 at a routine that sums its input in a loop and stores the
sum. -/
theorem routine_identifiers_declared_witness :
    operandsInScope false 1 [[]] 0
        [.LoadImmediateInsn (.finite false 0 0), .BeginLoopInsn 4 1, .LoadInsn 0 1,
         .AccumulateInsn .SUM 0 2, .EndLoopInsn, .LoadIntImmediateInsn 0, .StoreInsn 5 0] =
      true ∧
    identifiersDeclared [paramIdents 1]
        (stmtsOf "float"
          [.LoadImmediateInsn (.finite false 0 0), .BeginLoopInsn 4 1, .LoadInsn 0 1,
           .AccumulateInsn .SUM 0 2, .EndLoopInsn, .LoadIntImmediateInsn 0, .StoreInsn 5 0]
          0) = true :=
  ⟨by decide,
   (routine_identifiers_declared "float" "gg_scalar"
      { insns := [.LoadImmediateInsn (.finite false 0 0), .BeginLoopInsn 4 1, .LoadInsn 0 1,
                  .AccumulateInsn .SUM 0 2, .EndLoopInsn, .LoadIntImmediateInsn 0,
                  .StoreInsn 5 0],
        inputs := [3], output_size := 1, output_buffer := 0 } (by decide)).2.1⟩

/-! ## The emitters of FunctionBuilder -/

theorem FunctionBuilder.call_of_insn (fb : FunctionBuilder) (c : BuilderCall)
    (insn : Instruction) (h : c.insn? = some insn) :
    fb.call c = ({ fb with insns := fb.insns ++ [insn] }, fb.insns.length) := by
  cases c <;> simp [BuilderCall.insn?] at h <;> subst h <;>
    simp [FunctionBuilder.call, FunctionBuilder.Loop, FunctionBuilder.EndLoop,
      FunctionBuilder.Load, FunctionBuilder.Store, FunctionBuilder.Immediate,
      FunctionBuilder.IntImmediate, FunctionBuilder.Arithmetic, FunctionBuilder.Unary,
      FunctionBuilder.Binary, FunctionBuilder.Accumulate, FunctionBuilder.pushInsn]

theorem FunctionBuilder.call_insns_length_le (fb : FunctionBuilder) (c : BuilderCall) :
    fb.insns.length ≤ (fb.call c).1.insns.length := by
  cases h : c.insn? with
  | none =>
    cases c <;> simp [BuilderCall.insn?] at h
    simp [FunctionBuilder.call, FunctionBuilder.Input]
  | some insn =>
    rw [FunctionBuilder.call_of_insn fb c insn h]
    simp

theorem FunctionBuilder.returns_ge :
    ∀ (calls : List BuilderCall) (fb : FunctionBuilder),
      ∀ r ∈ fb.returns calls, fb.insns.length ≤ r := by
  intro calls
  induction calls with
  | nil => intro fb r h; simp [FunctionBuilder.returns] at h
  | cons c cs ih =>
    intro fb r h
    have hle := FunctionBuilder.call_insns_length_le fb c
    cases hc : c.insn? with
    | none =>
      simp only [FunctionBuilder.returns, hc] at h
      exact le_trans hle (ih _ r h)
    | some insn =>
      simp only [FunctionBuilder.returns, hc, List.mem_cons] at h
      rcases h with h | h
      · rw [h, FunctionBuilder.call_of_insn fb c insn hc]
      · exact le_trans hle (ih _ r h)

/-- C13: each of the ten emitters appends exactly the one instruction of its kind with
the given fields, leaves the earlier instructions, the input list and the other
fields as they are, and returns the position of the appended instruction, which is
the length of the sequence before the call; hence the values returned by successive
emitter calls on one builder are strictly increasing. -/
theorem FunctionBuilder.emitters_append_one (fb : FunctionBuilder) :
    (∀ range stride : dim_t, fb.Loop range stride =
      ({ fb with insns := fb.insns ++ [.BeginLoopInsn range stride] }, fb.insns.length)) ∧
    fb.EndLoop = ({ fb with insns := fb.insns ++ [.EndLoopInsn] }, fb.insns.length) ∧
    (∀ input_idx load_idx : Nat, fb.Load input_idx load_idx =
      ({ fb with insns := fb.insns ++ [.LoadInsn input_idx load_idx] }, fb.insns.length)) ∧
    (∀ offset value : Nat, fb.Store offset value =
      ({ fb with insns := fb.insns ++ [.StoreInsn offset value] }, fb.insns.length)) ∧
    (∀ value : FloatVal, fb.Immediate value =
      ({ fb with insns := fb.insns ++ [.LoadImmediateInsn value] }, fb.insns.length)) ∧
    (∀ value : Int, fb.IntImmediate value =
      ({ fb with insns := fb.insns ++ [.LoadIntImmediateInsn value] }, fb.insns.length)) ∧
    (∀ (x : Nat) (op : IntArithmeticOp) (y : Nat), fb.Arithmetic x op y =
      ({ fb with insns := fb.insns ++ [.IntArithmeticInsn op x y] }, fb.insns.length)) ∧
    (∀ (type : UnaryOpType) (x : Nat), fb.Unary type x =
      ({ fb with insns := fb.insns ++ [.UnaryInsn type x] }, fb.insns.length)) ∧
    (∀ (type : BinaryOpType) (x y : Nat), fb.Binary type x y =
      ({ fb with insns := fb.insns ++ [.BinaryInsn type x y] }, fb.insns.length)) ∧
    (∀ (type : ReduceOpType) (accumulator x : Nat), fb.Accumulate type accumulator x =
      ({ fb with insns := fb.insns ++ [.AccumulateInsn type accumulator x] },
        fb.insns.length)) ∧
    (∀ calls : List BuilderCall, (fb.returns calls).Pairwise (fun a b => a < b)) := by
  refine ⟨?_, ?_, ?_, ?_, ?_, ?_, ?_, ?_, ?_, ?_, ?_⟩
  · intro r s; exact FunctionBuilder.call_of_insn fb (.Loop r s) _ rfl
  · exact FunctionBuilder.call_of_insn fb .EndLoop _ rfl
  · intro a b; exact FunctionBuilder.call_of_insn fb (.Load a b) _ rfl
  · intro a b; exact FunctionBuilder.call_of_insn fb (.Store a b) _ rfl
  · intro a; exact FunctionBuilder.call_of_insn fb (.Immediate a) _ rfl
  · intro a; exact FunctionBuilder.call_of_insn fb (.IntImmediate a) _ rfl
  · intro x op y; exact FunctionBuilder.call_of_insn fb (.Arithmetic x op y) _ rfl
  · intro t x; exact FunctionBuilder.call_of_insn fb (.Unary t x) _ rfl
  · intro t x y; exact FunctionBuilder.call_of_insn fb (.Binary t x y) _ rfl
  · intro t a x; exact FunctionBuilder.call_of_insn fb (.Accumulate t a x) _ rfl
  · intro calls
    induction calls generalizing fb with
    | nil => simp [FunctionBuilder.returns]
    | cons c cs ih =>
      cases hc : c.insn? with
      | none =>
        simp only [FunctionBuilder.returns, hc]
        exact ih _
      | some insn =>
        simp only [FunctionBuilder.returns, hc, List.pairwise_cons]
        refine ⟨fun r hr => ?_, ih _⟩
        have := FunctionBuilder.returns_ge cs _ r hr
        rw [FunctionBuilder.call_of_insn fb c insn hc] at this ⊢
        simp only [List.length_append, List.length_singleton] at this
        omega

/-! ## Loop nesting of built sequences -/

theorem FunctionBuilder.foldl_call_insns :
    ∀ (calls : List BuilderCall) (fb : FunctionBuilder),
      (calls.foldl (fun fb c => (fb.call c).1) fb).insns =
        fb.insns ++ calls.filterMap BuilderCall.insn? := by
  intro calls
  induction calls with
  | nil => intro fb; simp
  | cons c cs ih =>
    intro fb
    simp only [List.foldl_cons]
    rw [ih]
    cases hc : c.insn? with
    | none =>
      have : (fb.call c).1.insns = fb.insns := by
        cases c <;> simp [BuilderCall.insn?] at hc
        rfl
      simp [List.filterMap_cons, hc, this]
    | some insn =>
      rw [FunctionBuilder.call_of_insn fb c insn hc]
      simp [List.filterMap_cons, hc]

/-- The instructions of a built function are those of its emitter calls, in order. -/
theorem FunctionBuilder.build_insns (shape : Shape) (uninit : Nat) (calls : List BuilderCall) :
    (FunctionBuilder.build shape uninit calls).insns = calls.filterMap BuilderCall.insn? := by
  unfold FunctionBuilder.build
  rw [FunctionBuilder.foldl_call_insns]
  simp [FunctionBuilder.new]

theorem take_filterMap_insn :
    ∀ (calls : List BuilderCall) (n : Nat),
      ∃ m : Nat, (calls.filterMap BuilderCall.insn?).take n =
        (calls.take m).filterMap BuilderCall.insn? := by
  intro calls
  induction calls with
  | nil => intro n; exact ⟨0, by simp⟩
  | cons c cs ih =>
    intro n
    cases hc : c.insn? with
    | none =>
      obtain ⟨m, hm⟩ := ih n
      exact ⟨m + 1, by simp [List.filterMap_cons, hc, hm]⟩
    | some insn =>
      cases n with
      | zero => exact ⟨0, by simp⟩
      | succ n =>
        obtain ⟨m, hm⟩ := ih n
        exact ⟨m + 1, by simp [List.filterMap_cons, hc, hm]⟩

theorem countP_filterMap_insn (calls : List BuilderCall) :
    (calls.filterMap BuilderCall.insn?).countP Instruction.isEndLoop =
      calls.countP BuilderCall.isEndLoop ∧
    (calls.filterMap BuilderCall.insn?).countP Instruction.isBeginLoop =
      calls.countP BuilderCall.isLoop := by
  induction calls with
  | nil => simp
  | cons c cs ih =>
    obtain ⟨h1, h2⟩ := ih
    cases c <;>
      simp [List.filterMap_cons, BuilderCall.insn?, List.countP_cons, Instruction.isEndLoop,
        Instruction.isBeginLoop, BuilderCall.isEndLoop, BuilderCall.isLoop, h1, h2]

/-- C18 fails as stated: `EndLoop` called on a fresh builder appends an `EndLoopInsn`
although no loop is open, so a sequence reachable through the emitters has a prefix
with one `EndLoopInsn` and no `BeginLoopInsn`. -/
theorem EndLoop_without_Loop_does_not_nest :
    (FunctionBuilder.build [1] 0 [.EndLoop]).insns = [.EndLoopInsn] ∧
    ¬ LoopsNest (FunctionBuilder.build [1] 0 [.EndLoop]).insns := by
  refine ⟨by decide, fun h => ?_⟩
  have h1 := h 1
  revert h1
  decide

/-- C18, amended: the emitters record the caller's calls one for one, so in every
instruction sequence built through them by a caller whose calls never hold, in any
prefix, more `EndLoop` than `Loop` calls, the loop begin/end instructions nest: in every
prefix of the sequence the number of `EndLoopInsn` does not exceed the number of
`BeginLoopInsn`. -/
theorem FunctionBuilder.loops_nest_of_calls_nest (shape : Shape) (uninit : Nat)
    (calls : List BuilderCall) (h : CallsNest calls) :
    (FunctionBuilder.build shape uninit calls).insns = calls.filterMap BuilderCall.insn? ∧
    LoopsNest (FunctionBuilder.build shape uninit calls).insns := by
  refine ⟨FunctionBuilder.build_insns shape uninit calls, ?_⟩
  intro n
  rw [FunctionBuilder.build_insns]
  obtain ⟨m, hm⟩ := take_filterMap_insn calls n
  rw [hm]
  obtain ⟨h1, h2⟩ := countP_filterMap_insn (calls.take m)
  rw [h1, h2]
  exact h m

/-- The amended claim C18 at a caller that opens two loops and closes both. -/
theorem FunctionBuilder.loops_nest_of_calls_nest_witness :
    CallsNest [.Loop 2 1, .Loop 3 1, .Load 0 1, .EndLoop, .EndLoop] ∧
    LoopsNest (FunctionBuilder.build [2, 3] 0
      [.Loop 2 1, .Loop 3 1, .Load 0 1, .EndLoop, .EndLoop]).insns := by
  have hc : CallsNest [.Loop 2 1, .Loop 3 1, .Load 0 1, .EndLoop, .EndLoop] := by
    intro n
    have h6 : ∀ k : Fin 6, (List.take k.val
        [BuilderCall.Loop 2 1, .Loop 3 1, .Load 0 1, .EndLoop, .EndLoop]).countP
          BuilderCall.isEndLoop ≤
        (List.take k.val [BuilderCall.Loop 2 1, .Loop 3 1, .Load 0 1, .EndLoop,
          .EndLoop]).countP BuilderCall.isLoop := by decide
    by_cases hn : n < 6
    · exact h6 ⟨n, hn⟩
    · rw [List.take_of_length_le (by simp; omega)]
      decide
  exact ⟨hc, (FunctionBuilder.loops_nest_of_calls_nest [2, 3] 0 _ hc).2⟩

/-! ## Traps are enabled before any routine runs -/

theorem DriverItem.texts_calls (calls : List CallStmt) :
    DriverItem.texts (calls.map DriverItem.call) = CallStmt.texts calls := by
  induction calls with
  | nil => rfl
  | cons c cs ih => simp [DriverItem.texts, DriverItem.text, CallStmt.texts, ih]

/-- C15: for every Program, the body of the emitted driver routine is, line by line,
the Linux platform check, the statement that enables the floating-point traps for
exactly FE_DIVBYZERO, FE_INVALID and FE_OVERFLOW, the end of the check, and then the
routine calls, one per function; so the enabling statement occurs once, at a position
before that of every call; and the source text begins by defining `_GNU_SOURCE` and
including `fenv.h`, which declares `feenableexcept`. -/
theorem GenerateMain_enables_traps_first (program : Program) (ctx : LowerCtx) (cty : String) :
    ∃ (items : List DriverItem) (calls : List CallStmt),
      (GenerateMain program ctx).file =
        ctx.file ++ ("void gigagrad_main(void **buffers)\n\x7b\n" ++
          DriverItem.texts items ++ "\x7d\n") ∧
      items = [.ifLinux, .enableTraps ["FE_DIVBYZERO", "FE_INVALID", "FE_OVERFLOW"], .endIf] ++
        calls.map DriverItem.call ∧
      calls.length = program.functions.length ∧
      items.count (.enableTraps ["FE_DIVBYZERO", "FE_INVALID", "FE_OVERFLOW"]) = 1 ∧
      items[1]? = some (.enableTraps ["FE_DIVBYZERO", "FE_INVALID", "FE_OVERFLOW"]) ∧
      (∀ (j : Nat) (x : DriverItem), items[j]? = some x → x.isCall = true → 1 < j) ∧
      ∃ rest : String, Lower_ScalarC_source ctx.pfx program cty =
        "#define _GNU_SOURCE\n#include <fenv.h>\n" ++ rest := by
  refine ⟨[.ifLinux, .enableTraps ["FE_DIVBYZERO", "FE_INVALID", "FE_OVERFLOW"], .endIf] ++
      (driverCalls ctx.pfx program.functions 0).map DriverItem.call,
    driverCalls ctx.pfx program.functions 0, ?_, rfl, driverCalls_length _ _ _, ?_, rfl, ?_, ?_⟩
  · have e : "    feenableexcept(FE_DIVBYZERO | FE_INVALID | FE_OVERFLOW);\n" =
        DriverItem.text (.enableTraps ["FE_DIVBYZERO", "FE_INVALID", "FE_OVERFLOW"]) := by
      decide
    simp only [GenerateMain, LowerCtx.fprintf_fprintf, GenerateMain_calls_eq]
    rw [e]
    have en : ([] : List DriverItem).append
        ((driverCalls ctx.pfx program.functions 0).map DriverItem.call) =
        (driverCalls ctx.pfx program.functions 0).map DriverItem.call := rfl
    simp only [LowerCtx.fprintf, List.cons_append, List.nil_append, DriverItem.texts,
      DriverItem.text, String.append_assoc, en, DriverItem.texts_calls]
  · rw [List.count_append]
    have h0 : ((driverCalls ctx.pfx program.functions 0).map DriverItem.call).count
        (.enableTraps ["FE_DIVBYZERO", "FE_INVALID", "FE_OVERFLOW"]) = 0 := by
      rw [List.count_eq_zero]
      intro hm
      obtain ⟨c, _, hc⟩ := List.mem_map.1 hm
      cases hc
    rw [h0]
    decide
  · intro j x hj hx
    match j, hj with
    | 0, hj =>
      simp only [List.cons_append, List.getElem?_cons_zero, Option.some.injEq] at hj
      subst hj
      simp [DriverItem.isCall] at hx
    | 1, hj =>
      simp only [List.cons_append, List.getElem?_cons_succ, List.getElem?_cons_zero,
        Option.some.injEq] at hj
      subst hj
      simp [DriverItem.isCall] at hx
    | j + 2, _ => omega
  · rw [Lower_ScalarC_source_eq]
    exact ⟨"#include <stdint.h>\n#include <math.h>\n\n" ++
      (RoutineDef.texts (routineDefs cty ctx.pfx program.functions 0) ++
        driverText (driverCalls ctx.pfx program.functions 0)),
      by simp only [String.append_assoc]⟩

/-! ## Shape of a matrix product -/

/-- C16: for all extents `m`, `k`, `n` the matrix product of a node of shape `{m, k}`
with a node of shape `{k, n}` is built and has shape `{m, n}`; in particular
`{800, 784} % {784, 1}` has shape `{800, 1}` and `{10, 800} % {800, 1}` has shape
`{10, 1}`; and building a product whose inner dimensions differ fails at construction. -/
theorem matmulShape_inner_dimensions (m k k1 n : Nat) (h : k ≠ k1) :
    matmulShape [m, k] [k, n] = .ok [m, n] ∧
    matmulShape [800, 784] [784, 1] = .ok [800, 1] ∧
    matmulShape [10, 800] [800, 1] = .ok [10, 1] ∧
    ∃ e : String, matmulShape [m, k] [k1, n] = .error e := by
  refine ⟨by simp [matmulShape], by simp [matmulShape], by simp [matmulShape], ?_⟩
  exact ⟨"matmul: inner dimensions differ", by simp [matmulShape, h]⟩

/-- The claim C16 at the shapes of the logistic-regression test and at a product of
`{2, 3}` with `{4, 5}`. -/
theorem matmulShape_inner_dimensions_witness :
    (3 : Nat) ≠ 4 ∧
    matmulShape [2, 3] [3, 5] = .ok [2, 5] ∧
    ∃ e : String, matmulShape [2, 3] [4, 5] = .error e :=
  ⟨by decide, (matmulShape_inner_dimensions 2 3 4 5 (by decide)).1,
    (matmulShape_inner_dimensions 2 3 4 5 (by decide)).2.2.2⟩

/-! ## Statements emitted for unary, binary and accumulate instructions -/

theorem CStmt.texts_singleton_decl (w : Int) (ty : String) (k : Nat) (init : CExpr) :
    CStmt.texts w [.decl ty k init] = (CStmt.decl ty k init).text w := by
  simp [CStmt.texts]

/-- C14, evaluated on the code: a UnaryInsn at position `i` is emitted as the
declaration of `v<i>` initialised with a call on `v<x>`; the function called is `exp`,
`log`, `sin`, `sqrtf` for EXP, LOG, SIN, SQRT, but for NOP and for CAST it is the name
`INVALID`, which is no C function, and not the operand itself. -/
theorem Lower_ScalarC_unary_text (cty : String) (ctx : LowerCtx) (x i : Nat) :
    (Lower_ScalarC_insn cty ctx (.UnaryInsn .EXP x) i).file =
      ctx.file ++ (CStmt.decl cty i (.call1 "exp" (.ident (.v x)))).text ctx.indentation ∧
    (Lower_ScalarC_insn cty ctx (.UnaryInsn .LOG x) i).file =
      ctx.file ++ (CStmt.decl cty i (.call1 "log" (.ident (.v x)))).text ctx.indentation ∧
    (Lower_ScalarC_insn cty ctx (.UnaryInsn .SIN x) i).file =
      ctx.file ++ (CStmt.decl cty i (.call1 "sin" (.ident (.v x)))).text ctx.indentation ∧
    (Lower_ScalarC_insn cty ctx (.UnaryInsn .SQRT x) i).file =
      ctx.file ++ (CStmt.decl cty i (.call1 "sqrtf" (.ident (.v x)))).text ctx.indentation ∧
    (Lower_ScalarC_insn cty ctx (.UnaryInsn .NOP x) i).file =
      ctx.file ++ (CStmt.decl cty i (.call1 "INVALID" (.ident (.v x)))).text ctx.indentation ∧
    (Lower_ScalarC_insn cty ctx (.UnaryInsn .CAST x) i).file =
      ctx.file ++ (CStmt.decl cty i (.call1 "INVALID" (.ident (.v x)))).text ctx.indentation ∧
    (Lower_ScalarC_insn "float" { pfx := "gg_scalar", file := "", indentation := 4 }
        (.UnaryInsn .NOP 0) 1).file = "    float v1 = INVALID(v0);\n" ∧
    (Lower_ScalarC_insn "float" { pfx := "gg_scalar", file := "", indentation := 4 }
        (.UnaryInsn .CAST 0) 1).file = "    float v1 = INVALID(v0);\n" := by
  refine ⟨?_, ?_, ?_, ?_, ?_, ?_, by decide, by decide⟩ <;>
    rw [Lower_ScalarC_insn_file, ← CStmt.texts_singleton_decl] <;> rfl

/-- C19: a BinaryInsn at position `i` is emitted as the declaration of `v<i>`
initialised, for ADD, SUB, MUL, DIV, with `v<x>` and `v<y>` joined by `+`, `-`, `*`,
`/` in this order and converted to the element type, for CMP with the equality test
`v<x> == v<y>` converted to the element type, for MAX with
`v<x> > v<y> ? v<x> : v<y>`, whose value over a total order is the larger operand, and
for POW with `pow(v<x>, v<y>)`. -/
theorem Lower_ScalarC_binary_text (cty : String) (ctx : LowerCtx) (x y i : Nat) :
    (Lower_ScalarC_insn cty ctx (.BinaryInsn .ADD x y) i).file =
      ctx.file ++ (CStmt.decl cty i
        (.cast cty (.binary "+" (.ident (.v x)) (.ident (.v y))))).text ctx.indentation ∧
    (Lower_ScalarC_insn cty ctx (.BinaryInsn .SUB x y) i).file =
      ctx.file ++ (CStmt.decl cty i
        (.cast cty (.binary "-" (.ident (.v x)) (.ident (.v y))))).text ctx.indentation ∧
    (Lower_ScalarC_insn cty ctx (.BinaryInsn .MUL x y) i).file =
      ctx.file ++ (CStmt.decl cty i
        (.cast cty (.binary "*" (.ident (.v x)) (.ident (.v y))))).text ctx.indentation ∧
    (Lower_ScalarC_insn cty ctx (.BinaryInsn .DIV x y) i).file =
      ctx.file ++ (CStmt.decl cty i
        (.cast cty (.binary "/" (.ident (.v x)) (.ident (.v y))))).text ctx.indentation ∧
    (Lower_ScalarC_insn cty ctx (.BinaryInsn .CMP x y) i).file =
      ctx.file ++ (CStmt.decl cty i
        (.cast cty (.binary "==" (.ident (.v x)) (.ident (.v y))))).text ctx.indentation ∧
    (Lower_ScalarC_insn cty ctx (.BinaryInsn .MAX x y) i).file =
      ctx.file ++ (CStmt.decl cty i
        (.cond (.binary ">" (.ident (.v x)) (.ident (.v y)))
          (.ident (.v x)) (.ident (.v y)))).text ctx.indentation ∧
    (Lower_ScalarC_insn cty ctx (.BinaryInsn .POW x y) i).file =
      ctx.file ++ (CStmt.decl cty i
        (.call2 "pow" (.ident (.v x)) (.ident (.v y)))).text ctx.indentation ∧
    (∀ (V : Type) [LinearOrder V] (a b : V),
      condValue (fun p q => decide (q < p)) a b = max a b) ∧
    (Lower_ScalarC_insn "float" { pfx := "gg_scalar", file := "", indentation := 4 }
        (.BinaryInsn .SUB 1 2) 3).file = "    float v3 = (float)(v1 - v2);\n" := by
  refine ⟨?_, ?_, ?_, ?_, ?_, ?_, ?_, ?_, by decide⟩
  · rw [Lower_ScalarC_insn_file, ← CStmt.texts_singleton_decl]; rfl
  · rw [Lower_ScalarC_insn_file, ← CStmt.texts_singleton_decl]; rfl
  · rw [Lower_ScalarC_insn_file, ← CStmt.texts_singleton_decl]; rfl
  · rw [Lower_ScalarC_insn_file, ← CStmt.texts_singleton_decl]; rfl
  · rw [Lower_ScalarC_insn_file, ← CStmt.texts_singleton_decl]; rfl
  · rw [Lower_ScalarC_insn_file, ← CStmt.texts_singleton_decl]; rfl
  · rw [Lower_ScalarC_insn_file, ← CStmt.texts_singleton_decl]; rfl
  · intro V _ a b
    unfold condValue
    by_cases hab : b < a
    · simp [hab, max_eq_left (le_of_lt hab)]
    · simp [hab, max_eq_right (not_lt.1 hab)]

theorem Program.call_appends (shapeOf : TensorPtr → Shape) (p q : Program) (c : ProgramCall)
    (h : p.call shapeOf c = some q) :
    (∃ added : List BufferDescriptor, q.buffers = p.buffers ++ added) ∧
    (∃ pushed : List FunctionBuilder, q.functions = p.functions ++ pushed) := by
  cases c with
  | AddBufferTensor t =>
    simp only [Program.call, Option.some.injEq] at h
    rcases Program.AddBufferTensor_cases shapeOf p t with ⟨i, _, he⟩ | ⟨_, he⟩
    · rw [he] at h; subst h
      exact ⟨⟨[], by simp⟩, ⟨[], by simp⟩⟩
    · rw [he] at h; subst h
      exact ⟨⟨_, rfl⟩, ⟨[], by simp⟩⟩
  | AddBufferFn k =>
    simp only [Program.call, Option.map_eq_some'] at h
    obtain ⟨⟨q2, i⟩, ha, rfl⟩ := h
    rcases Program.AddBufferFn_cases p k q2 i ha with ⟨_, he⟩ | ⟨_, f, _, he, _⟩
    · subst he
      exact ⟨⟨[], by simp⟩, ⟨[], by simp⟩⟩
    · subst he
      exact ⟨⟨_, rfl⟩, ⟨[], by simp⟩⟩
  | PushFunction f =>
    rcases Program.PushFunction_cases p f q h with ⟨i, _, he⟩ | ⟨_, he⟩
    · subst he
      exact ⟨⟨[], by simp⟩, ⟨_, rfl⟩⟩
    · subst he
      exact ⟨⟨_, rfl⟩, ⟨_, rfl⟩⟩

theorem Program.run_appends (shapeOf : TensorPtr → Shape) (calls : List ProgramCall) :
    ∀ (p q : Program), Program.run shapeOf p calls = some q →
      (∃ added : List BufferDescriptor, q.buffers = p.buffers ++ added) ∧
      (∃ pushed : List FunctionBuilder, q.functions = p.functions ++ pushed) := by
  induction calls with
  | nil =>
    intro p q h
    simp only [Program.run, Option.some.injEq] at h
    subst h
    exact ⟨⟨[], by simp⟩, ⟨[], by simp⟩⟩
  | cons c cs ih =>
    intro p q h
    simp only [Program.run] at h
    cases hc : p.call shapeOf c with
    | none => rw [hc] at h; simp at h
    | some r =>
      rw [hc] at h
      obtain ⟨⟨a1, h1⟩, ⟨f1, h2⟩⟩ := Program.call_appends shapeOf p r c hc
      obtain ⟨⟨a2, h3⟩, ⟨f2, h4⟩⟩ := ih r q h
      exact ⟨⟨a1 ++ a2, by rw [h3, h1, List.append_assoc]⟩,
        ⟨f1 ++ f2, by rw [h4, h2, List.append_assoc]⟩⟩

theorem getElem?_append_of_some {α : Type} (l added : List α) (i : Nat) (d : α)
    (h : l[i]? = some d) : (l ++ added)[i]? = some d := by
  have hi : i < l.length := by
    by_contra hc
    rw [List.getElem?_eq_none (by omega)] at h
    exact absurd h (by simp)
  rw [List.getElem?_append_left hi]
  exact h

/-- C21: for every Program and every sequence of AddBuffer(tensor), AddBuffer(function
index) and PushFunction calls made on it, the buffer table afterwards is the table
before followed by the descriptors added, and the function list is the list before
followed by the functions pushed: no existing descriptor is removed, moved or
modified, no already pushed function has its inputs or output_buffer (or anything
else) changed, and every buffer index valid before still denotes the same descriptor. -/
theorem Program.tables_append_only (shapeOf : TensorPtr → Shape) (calls : List ProgramCall)
    (p q : Program) (h : Program.run shapeOf p calls = some q) :
    (∃ added : List BufferDescriptor, q.buffers = p.buffers ++ added) ∧
    (∃ pushed : List FunctionBuilder, q.functions = p.functions ++ pushed) ∧
    (∀ (i : Nat) (d : BufferDescriptor), p.buffers[i]? = some d → q.buffers[i]? = some d) ∧
    (∀ (k : Nat) (f : FunctionBuilder), p.functions[k]? = some f →
      q.functions[k]? = some f) := by
  obtain ⟨⟨added, h1⟩, ⟨pushed, h2⟩⟩ := Program.run_appends shapeOf calls p q h
  refine ⟨⟨added, h1⟩, ⟨pushed, h2⟩, ?_, ?_⟩
  · intro i d hd
    rw [h1]
    exact getElem?_append_of_some _ _ _ _ hd
  · intro k f hf
    rw [h2]
    exact getElem?_append_of_some _ _ _ _ hf

/-- The claim C21 at a program holding a tensor and a function, on which the tensor is
added again, a second tensor is added, the function index is added and a function is
pushed. -/
theorem Program.tables_append_only_witness :
    Program.run (fun _ => [2, 3])
        { functions := [{ insns := [], inputs := [0], output_size := 4, output_buffer := 1 }],
          buffers := [⟨.tensor 7, 6⟩, ⟨.fn 0, 4⟩] }
        [.AddBufferTensor 7, .AddBufferTensor 8, .AddBufferFn 0,
         .PushFunction { insns := [], inputs := [2], output_size := 2, output_buffer := 77 }] =
      some { functions := [{ insns := [], inputs := [0], output_size := 4, output_buffer := 1 },
                           { insns := [], inputs := [2], output_size := 2, output_buffer := 3 }],
             buffers := [⟨.tensor 7, 6⟩, ⟨.fn 0, 4⟩, ⟨.tensor 8, 6⟩, ⟨.fn 1, 2⟩] } ∧
    (∃ added : List BufferDescriptor,
      [(⟨.tensor 7, 6⟩ : BufferDescriptor), ⟨.fn 0, 4⟩, ⟨.tensor 8, 6⟩, ⟨.fn 1, 2⟩] =
        [⟨.tensor 7, 6⟩, ⟨.fn 0, 4⟩] ++ added) :=
  ⟨by decide,
   (Program.tables_append_only (fun _ => [2, 3])
      [.AddBufferTensor 7, .AddBufferTensor 8, .AddBufferFn 0,
       .PushFunction { insns := [], inputs := [2], output_size := 2, output_buffer := 77 }]
      { functions := [{ insns := [], inputs := [0], output_size := 4, output_buffer := 1 }],
        buffers := [⟨.tensor 7, 6⟩, ⟨.fn 0, 4⟩] }
      { functions := [{ insns := [], inputs := [0], output_size := 4, output_buffer := 1 },
                      { insns := [], inputs := [2], output_size := 2, output_buffer := 3 }],
        buffers := [⟨.tensor 7, 6⟩, ⟨.fn 0, 4⟩, ⟨.tensor 8, 6⟩, ⟨.fn 1, 2⟩] }
      (by decide)).1⟩

/-! ## Float immediates and loop heads -/

/-- C23, evaluated on the code: the float nearest to 0.0000001, `14073749 * 2^(-47)`, is
a finite immediate different from zero, yet `%f` prints it as `0.000000`, the literal
printed for zero; the statements emitted for the two immediates are the same text. -/
theorem small_immediate_emitted_as_zero :
    fmt_f (.finite false 14073749 (-47)) = "0.000000" ∧
    fmt_f (.finite false 0 0) = "0.000000" ∧
    FloatVal.ceq (.finite false 14073749 (-47)) (.finite false 0 0) = false ∧
    FloatVal.gt (.finite false 14073749 (-47)) (.finite false 0 0) = true ∧
    (Lower_ScalarC_insn "float" { pfx := "gg_scalar", file := "", indentation := 4 }
        (.LoadImmediateInsn (.finite false 14073749 (-47))) 0).file =
      "    float v0 = 0.000000;\n" ∧
    (Lower_ScalarC_insn "float" { pfx := "gg_scalar", file := "", indentation := 4 }
        (.LoadImmediateInsn (.finite false 0 0)) 0).file =
      "    float v0 = 0.000000;\n" := by
  decide

/-- C24: the text emitted for a `BeginLoopInsn{range, stride}` at position `i` does not
depend on `stride`: two such instructions that differ only in stride leave the same
context, and the text is the loop head `for(int64_t v<i> = 0; v<i> < range; v<i>++)`
followed by the opening brace, a loop whose variable takes the values `0, 1, ...`
below `range` in steps of one. -/
theorem Lower_ScalarC_BeginLoop_ignores_stride (cty : String) (ctx : LowerCtx)
    (range stride1 stride2 : dim_t) (i : Nat) :
    Lower_ScalarC_insn cty ctx (.BeginLoopInsn range stride1) i =
      Lower_ScalarC_insn cty ctx (.BeginLoopInsn range stride2) i ∧
    (Lower_ScalarC_insn cty ctx (.BeginLoopInsn range stride1) i).file =
      ctx.file ++ (CStmt.forOpen i (fmt_zd range)).text ctx.indentation ∧
    (Lower_ScalarC_insn cty ctx (.BeginLoopInsn range stride1) i).indentation =
      ctx.indentation + 4 ∧
    (Lower_ScalarC_insn "float" { pfx := "gg_scalar", file := "", indentation := 4 }
        (.BeginLoopInsn 10 784) 2).file =
      "    for(int64_t v2 = 0; v2 < 10; v2++)\n    \x7b\n" ∧
    (∀ k : Nat, (forValues range)[k]? =
      if Int.ofNat k < range then some (Int.ofNat k) else none) := by
  refine ⟨rfl, ?_, rfl, by decide, ?_⟩
  · rw [Lower_ScalarC_insn_file]
    simp [stmtOf, CStmt.texts]
  · intro k
    unfold forValues
    by_cases hk : Int.ofNat k < range
    · have hk2 : k < range.toNat := by
        have : (k : Int) < range := hk
        omega
      rw [List.getElem?_map, List.getElem?_range hk2, if_pos hk]
      rfl
    · have hk2 : ¬ k < range.toNat := by
        have : ¬ (k : Int) < range := hk
        omega
      rw [if_neg hk, List.getElem?_eq_none]
      rw [List.length_map, List.length_range]
      omega

/-! ## Bounds of the runtime pointer array -/

/-- On an empty pointer array the `Execute` loop runs through exactly when the table has
no tensor-backed descriptor: it indexes the array for those and for no others. -/
theorem Execute_loop_nil (data : TensorPtr → Ptr) :
    ∀ (descs : List BufferDescriptor) (ibuff : Nat),
      ((∀ d ∈ descs, ∀ t : TensorPtr, d.id ≠ .tensor t) →
        Execute_loop data descs ibuff [] = some []) ∧
      ((∃ d ∈ descs, ∃ t : TensorPtr, d.id = .tensor t) →
        Execute_loop data descs ibuff [] = none) := by
  intro descs
  induction descs with
  | nil =>
    intro ibuff
    exact ⟨fun _ => rfl, fun h => by simp at h⟩
  | cons e rest ih =>
    intro ibuff
    obtain ⟨ih1, ih2⟩ := ih (ibuff + 1)
    cases hid : e.id with
    | tensor t =>
      refine ⟨fun h => absurd hid (h e (by simp) t), fun _ => ?_⟩
      simp [Execute_loop, hid]
    | fn k =>
      refine ⟨fun h => ?_, fun h => ?_⟩
      · simp only [Execute_loop, hid]
        exact ih1 (fun d hd t => h d (by simp [hd]) t)
      · simp only [Execute_loop, hid]
        apply ih2
        obtain ⟨d, hd, t, ht⟩ := h
        simp only [List.mem_cons] at hd
        rcases hd with hd | hd
        · subst hd; rw [hid] at ht; cases ht
        · exact ⟨d, hd, t, ht⟩

/-- On an empty pointer array the destructor's loop indexes out of bounds as soon as the
table has a function-output descriptor. -/
theorem Teardown_loop_nil :
    ∀ (descs : List BufferDescriptor) (ibuff : Nat) (w : World),
      w.backend.buffers = [] → (∃ d ∈ descs, ∃ k : Nat, d.id = .fn k) →
      Teardown_loop descs ibuff w = none := by
  intro descs
  induction descs with
  | nil => intro ibuff w _ h; simp at h
  | cons e rest ih =>
    intro ibuff w hw h
    cases hid : e.id with
    | tensor t =>
      simp only [Teardown_loop, hid]
      apply ih (ibuff + 1) w hw
      obtain ⟨d, hd, k, hk⟩ := h
      simp only [List.mem_cons] at hd
      rcases hd with hd | hd
      · subst hd; rw [hid] at hk; cases hk
      · exact ⟨d, hd, k, hk⟩
    | fn k0 =>
      simp [Teardown_loop, hid, hw]

/-- On a freshly lowered backend holding a well-formed program with a function,
`InitBuffers` returns and leaves a pointer array as long as the buffer table. -/
theorem World.InitBuffers_lowered (shapeOf : TensorPtr → Shape) (prog : Program)
    (eval_fn handle : Nat) (data : TensorPtr → Ptr) (serial : Nat)
    (hinv : prog.Inv shapeOf) (hfn : prog.functions ≠ []) :
    ∃ (w1 : World) (out : Ptr) (last : FunctionBuilder),
      (World.lowered prog eval_fn handle data serial).InitBuffers = some (w1, out) ∧
      w1.backend.program = prog ∧
      w1.backend.buffers.length = prog.buffers.length ∧
      prog.functions.getLast? = some last ∧
      w1.backend.buffers[last.output_buffer]? = some out := by
  obtain ⟨last, hlast⟩ : ∃ last, prog.functions.getLast? = some last := by
    cases h : prog.functions.getLast? with
    | none => exact absurd (List.getLast?_eq_none_iff.1 h) hfn
    | some f => exact ⟨f, rfl⟩
  have hlast2 : prog.functions[prog.functions.length - 1]? = some last := by
    rw [← List.getLast?_eq_getElem?]; exact hlast
  obtain ⟨dl, hdl, _, _⟩ := hinv.outputs _ last hlast2
  have hob : last.output_buffer < prog.buffers.length := by
    by_contra hc
    rw [List.getElem?_eq_none (by omega)] at hdl
    exact absurd hdl (by simp)
  have hloop := InitBuffers_loop_eq prog.buffers 0 (World.lowered prog eval_fn handle data serial)
  simp only [World.lowered, List.nil_append] at hloop
  have hlen : (initPtrs data prog.buffers serial).length = prog.buffers.length :=
    initPtrs_length _ _ _
  obtain ⟨out, hout⟩ : ∃ out, (initPtrs data prog.buffers serial)[last.output_buffer]? =
      some out := by
    rw [List.getElem?_eq_getElem (by omega)]; exact ⟨_, rfl⟩
  refine ⟨{ backend := { program := prog, buffers := initPtrs data prog.buffers serial,
                         eval_fn := eval_fn, handle := handle },
            data := data, nextSerial := serial + fnCount prog.buffers,
            allocs := initAllocs prog.buffers 0 serial, frees := [], closed := [] },
    out, last, ?_, rfl, hlen, hlast, hout⟩
  unfold World.InitBuffers
  simp only [World.lowered, hloop, hlast, hout]

/-- While `InitBuffers` is not called again, every `Execute` and every rebinding runs
and the pointer array keeps the length of the buffer table. -/
theorem World.run_keeps_length (prog : Program) :
    ∀ (cs : List BackendCall) (u : World),
      (∀ c ∈ cs, c.isInitBuffers = false) →
      u.backend.program = prog → u.backend.buffers.length = prog.buffers.length →
      ∃ v : World, World.run u cs = some v ∧
        v.backend.program = prog ∧ v.backend.buffers.length = prog.buffers.length := by
  intro cs
  induction cs with
  | nil => intro u _ h1 h2; exact ⟨u, rfl, h1, h2⟩
  | cons c cs ih =>
    intro u hcs h1 h2
    have hcs2 : ∀ c ∈ cs, c.isInitBuffers = false := fun c hc => hcs c (by simp [hc])
    cases c with
    | InitBuffers =>
      exact absurd (hcs .InitBuffers (by simp)) (by simp [BackendCall.isInitBuffers])
    | Rebind t p =>
      simp only [World.run, World.call]
      exact ih _ hcs2 h1 h2
    | Execute =>
      obtain ⟨args, hargs, hl, _, _, _⟩ := Execute_loop_spec u.data prog.buffers 0
        u.backend.buffers (by omega)
      have hex : u.Execute_args = some args := by
        simp only [World.Execute_args, h1]; exact hargs
      simp only [World.run, World.call, World.Execute, hex]
      refine ih _ hcs2 h1 ?_
      show args.length = prog.buffers.length
      omega


/-- C22 fails as stated: on the Program made of one pushed function the buffer table is
not empty (it holds the function's output descriptor), and on a backend whose
`InitBuffers` was never called the loop of `Execute` runs through without indexing the
empty pointer array, because it indexes only at tensor-backed descriptors; the empty
array is what it hands to the entry routine. -/
theorem World.Execute_skips_function_slots :
    (Program.empty.PushFunction (FunctionBuilder.new [4] 0)).map (fun prog =>
      (prog.buffers, prog.functions.length,
       (World.lowered prog 1 2 (fun _ => .external 100) 0).backend.buffers,
       (World.lowered prog 1 2 (fun _ => .external 100) 0).Execute_args)) =
      some ([⟨.fn 0, 4⟩], 1, [], some []) := by
  decide

/-- C22, amended: for every Program built from the empty one by `AddBuffer` and
`PushFunction` that has a function, after `LowerProgram` and exactly one `InitBuffers`
the index `InitBuffers` returns through (the last function's `output_buffer`) is in
bounds, every later sequence of `Execute` calls and rebindings runs with the pointer
array as long as the buffer table, and the destructor runs. On a backend whose
`InitBuffers` was never called the destructor indexes the pointer array out of bounds,
and the loop of `Execute` does so exactly when the table has a tensor-backed descriptor:
with one it indexes out of bounds, with none it indexes nothing and hands over the
empty array. -/
theorem World.pointer_array_indices_in_bounds (shapeOf : TensorPtr → Shape)
    (calls : List ProgramCall) (prog : Program) (eval_fn handle : Nat)
    (data : TensorPtr → Ptr) (serial : Nat) (rest : List BackendCall)
    (hprog : Program.run shapeOf Program.empty calls = some prog)
    (hfn : prog.functions ≠ [])
    (hrest : ∀ c ∈ rest, c.isInitBuffers = false) :
    (∃ (w1 : World) (out : Ptr) (last : FunctionBuilder) (w2 w3 : World),
      (World.lowered prog eval_fn handle data serial).InitBuffers = some (w1, out) ∧
      prog.functions.getLast? = some last ∧
      w1.backend.buffers[last.output_buffer]? = some out ∧
      World.run w1 rest = some w2 ∧
      w2.backend.buffers.length = prog.buffers.length ∧
      w2.Teardown = some w3) ∧
    (World.lowered prog eval_fn handle data serial).Teardown = none ∧
    ((∃ d ∈ prog.buffers, ∃ t : TensorPtr, d.id = .tensor t) →
      (World.lowered prog eval_fn handle data serial).Execute_args = none) ∧
    ((∀ d ∈ prog.buffers, ∀ t : TensorPtr, d.id ≠ .tensor t) →
      (World.lowered prog eval_fn handle data serial).Execute_args = some []) := by
  have hinv : prog.Inv shapeOf :=
    Program.inv_run shapeOf calls _ _ (Program.inv_empty shapeOf) hprog
  obtain ⟨w1, out, last, hinit, hp1, hl1, hlast, hout⟩ :=
    World.InitBuffers_lowered shapeOf prog eval_fn handle data serial hinv hfn
  obtain ⟨w2, hrun, hp2, hl2⟩ := World.run_keeps_length prog rest w1 hrest hp1 hl1
  obtain ⟨w3, hw3⟩ := Teardown_loop_isSome w2.backend.program.buffers 0
    { w2 with closed := w2.closed ++ [w2.backend.handle] }
    (by show 0 + w2.backend.program.buffers.length ≤ w2.backend.buffers.length
        rw [hp2]; omega)
  have hlast2 : prog.functions[prog.functions.length - 1]? = some last := by
    rw [← List.getLast?_eq_getElem?]; exact hlast
  obtain ⟨dl, hdl, hid, _⟩ := hinv.outputs _ last hlast2
  have hmem : dl ∈ prog.buffers := List.getElem?_mem hdl
  refine ⟨⟨w1, out, last, w2, w3, hinit, hlast, hout, hrun, hl2, hw3⟩, ?_, ?_, ?_⟩
  · exact Teardown_loop_nil prog.buffers 0 _ rfl ⟨dl, hmem, _, hid⟩
  · intro h
    exact (Execute_loop_nil data prog.buffers 0).2 h
  · intro h
    exact (Execute_loop_nil data prog.buffers 0).1 h

/-- The amended C22 at the program made of a tensor and one pushed function, with an
`Execute`, a rebinding and another `Execute` after `InitBuffers`. -/
theorem World.pointer_array_indices_in_bounds_witness :
    Program.run (fun _ => [2, 2]) Program.empty
        [.AddBufferTensor 7,
         .PushFunction { insns := [], inputs := [0], output_size := 4, output_buffer := 9 }] =
      some { functions := [{ insns := [], inputs := [0], output_size := 4, output_buffer := 1 }],
             buffers := [⟨.tensor 7, 4⟩, ⟨.fn 0, 4⟩] } ∧
    (World.lowered
      { functions := [{ insns := [], inputs := [0], output_size := 4, output_buffer := 1 }],
        buffers := [⟨.tensor 7, 4⟩, ⟨.fn 0, 4⟩] } 1 2 (fun _ => .external 100) 0).Teardown =
      none ∧
    (World.lowered
      { functions := [{ insns := [], inputs := [0], output_size := 4, output_buffer := 1 }],
        buffers := [⟨.tensor 7, 4⟩, ⟨.fn 0, 4⟩] } 1 2 (fun _ => .external 100) 0).Execute_args =
      none ∧
    ∃ (w1 : World) (out : Ptr) (w2 w3 : World),
      (World.lowered
        { functions := [{ insns := [], inputs := [0], output_size := 4, output_buffer := 1 }],
          buffers := [⟨.tensor 7, 4⟩, ⟨.fn 0, 4⟩] } 1 2 (fun _ => .external 100) 0).InitBuffers =
        some (w1, out) ∧
      World.run w1 [.Execute, .Rebind 7 (.external 5), .Execute] = some w2 ∧
      w2.backend.buffers.length = 2 ∧
      w2.Teardown = some w3 := by
  have h := World.pointer_array_indices_in_bounds (fun _ => [2, 2])
    [.AddBufferTensor 7,
     .PushFunction { insns := [], inputs := [0], output_size := 4, output_buffer := 9 }]
    { functions := [{ insns := [], inputs := [0], output_size := 4, output_buffer := 1 }],
      buffers := [⟨.tensor 7, 4⟩, ⟨.fn 0, 4⟩] } 1 2 (fun _ => .external 100) 0
    [.Execute, .Rebind 7 (.external 5), .Execute]
    (by decide) (by decide) (by decide)
  obtain ⟨⟨w1, out, _, w2, w3, h1, _, _, h4, h5, h6⟩, h7, h8, _⟩ := h
  exact ⟨by decide, h7, h8 ⟨⟨.tensor 7, 4⟩, by simp, 7, rfl⟩, w1, out, w2, w3, h1, h4, h5, h6⟩

end Gigagrad
